import Mathlib

/-!
# Chaos kernel VFS: path normalisation and the mount table

A shallow embedding of `src/kernel/fs.c`.

Conventions.
* A C string is the list of its characters before the terminator.
* `resolve_path` rewrites its buffer in place; the buffer is modelled as the
  list of the characters of the input followed by the terminator, the two
  cursors `pos` and `outpos` are natural numbers (the paths handled are far
  shorter than `INT_MAX`).
* The kernel heap is a list of blocks; `kfree` marks a block as freed and
  every later access through a pointer to it is a fault.
-/

set_option autoImplicit false

namespace Chaos

/-! ## Path utilities -/

/-- The string terminator. -/
def NUL : Char := Char.ofNat 0

/-- Reads `buf[i]`; anything past the modelled buffer reads as a terminator. -/
def peek (buf : List Char) (i : Nat) : Char := buf.getD i NUL

/-- Writes `buf[i] = c`.  A write one or more cells past the modelled buffer
lands in the memory that follows it, which the model makes visible by growing
the list. -/
def poke (buf : List Char) (i : Nat) (c : Char) : List Char :=
  if i < buf.length then buf.set i c
  else buf ++ List.replicate (i - buf.length) NUL ++ [c]

/-- The C string held in a buffer: the characters before the first terminator. -/
def cstr (buf : List Char) : List Char := buf.takeWhile (fun c => c != NUL)

/-- Models `resolve_input`: `alloc` tells whether the allocation (`strdup` or
`kalloc`) succeeds. -/
def resolve_input (alloc : Bool) (cwd input : List Char) : Option (List Char) :=
  if input.head? = some '/' then
    (if alloc then some input else none)
  else
    (if alloc then some (cwd ++ ['/'] ++ input) else none)

/-- The states of the normalisation automaton of `resolve_path`. -/
inductive PathState where
  | INITIAL
  | FIELD_START
  | IN_FIELD
  | SEPARATOR
  | SEEN_SEPARATOR
  | DOT
  | SEEN_DOT
  | DOTDOT
  | SEEN_DOTDOT
  deriving DecidableEq, Repr

/-- The local variables of `resolve_path` together with the buffer. -/
structure Cursor where
  path : List Char
  outpos : Nat
  pos : Nat
  done : Bool
  state : PathState
  deriving DecidableEq, Repr

/-- The inner loop of the `..` case: `while (outpos > 0) { if (path[outpos - 1]
== '/') break; --outpos; }`. -/
def walk_backward (path : List Char) : Nat → Nat
  | 0 => 0
  | n + 1 => if peek path n = '/' then n + 1 else walk_backward path n

/-- One iteration of the `while (!done)` loop of `resolve_path`. -/
def resolve_step (s : Cursor) : Cursor :=
  let c := peek s.path s.pos
  match s.state with
  | .INITIAL =>
    if c = '/' then { s with state := .SEPARATOR }
    else if c = '.' then { s with state := .DOT }
    else { s with state := .FIELD_START }
  | .FIELD_START =>
    if c = '.' then { s with state := .DOT }
    else if c = NUL then { s with done := true }
    else { s with state := .IN_FIELD }
  | .IN_FIELD =>
    if c = '/' then { s with state := .SEPARATOR }
    else if c = NUL then { s with done := true }
    else { s with path := poke s.path s.outpos c, outpos := s.outpos + 1, pos := s.pos + 1 }
  | .SEPARATOR =>
    { s with path := poke s.path s.outpos '/', outpos := s.outpos + 1, pos := s.pos + 1,
             state := .SEEN_SEPARATOR }
  | .SEEN_SEPARATOR =>
    if c = '/' then { s with pos := s.pos + 1 }
    else if c = NUL then { s with done := true }
    else { s with state := .FIELD_START }
  | .DOT => { s with pos := s.pos + 1, state := .SEEN_DOT }
  | .SEEN_DOT =>
    if c = '.' then { s with state := .DOTDOT }
    else if c = '/' then { s with pos := s.pos + 1, state := .SEEN_SEPARATOR }
    else if c = NUL then { s with done := true }
    else { s with path := poke s.path s.outpos '.', outpos := s.outpos + 1, state := .IN_FIELD }
  | .DOTDOT => { s with pos := s.pos + 1, state := .SEEN_DOTDOT }
  | .SEEN_DOTDOT =>
    if c = '/' ∨ c = NUL then
      { s with outpos := walk_backward s.path (s.outpos - (if s.outpos > 0 then 1 else 0)),
               pos := s.pos + 1, state := .SEEN_SEPARATOR,
               done := (if c = NUL then true else s.done) }
    else
      { s with path := poke (poke s.path s.outpos '.') (s.outpos + 1) '.',
               outpos := s.outpos + 2, state := .IN_FIELD }

/-- The `while (!done)` loop, bounded by a number of iterations; `none` when the
bound is reached before `done` is set. -/
def resolve_loop : Nat → Cursor → Option Cursor
  | 0, s => if s.done then some s else none
  | n + 1, s => if s.done then some s else resolve_loop n (resolve_step s)

/-- The code after the loop: the trailing slash is removed and the terminator
written; the result is the buffer read back as a C string. -/
def resolve_finish (s : Cursor) : List Char :=
  if s.outpos = 0 then
    cstr (poke (poke s.path 0 '/') 1 NUL)
  else if s.outpos > 1 ∧ peek s.path (s.outpos - 1) = '/' then
    cstr (poke s.path (s.outpos - 1) NUL)
  else
    cstr (poke s.path s.outpos NUL)

/-- The local variables at the entry of the loop, on the buffer holding `x`. -/
def resolve_init (x : List Char) : Cursor :=
  { path := x ++ [NUL], outpos := 0, pos := 0, done := false, state := .INITIAL }

/-- Iterations granted to the loop on the buffer of `x`: four per buffer cell
(terminator included) and four more; `resolve_path_abs` shows they suffice. -/
def resolve_fuel (x : List Char) : Nat := 4 * (x.length + 1) + 4

/-- Models `resolve_path`: the normalised path, `none` if the loop did not finish. -/
def resolve_path (x : List Char) : Option (List Char) :=
  (resolve_loop (resolve_fuel x) (resolve_init x)).map resolve_finish

/-! ## An abstract view of the normalisation automaton

The proofs about `resolve_path` go through a second automaton that forgets the
buffer: it keeps the output written so far (last character first) and the part
of the input that is still to be read. -/

/-- The abstract state: automaton state, output written so far in reverse
order, input not yet read (terminator included), and the `done` flag. -/
structure Abs where
  state : PathState
  rout : List Char
  rest : List Char
  done : Bool
  deriving DecidableEq, Repr

/-- One iteration of the loop on the abstract state. -/
def abs_step (a : Abs) : Abs :=
  let c := a.rest.headD NUL
  match a.state with
  | .INITIAL =>
    if c = '/' then { a with state := .SEPARATOR }
    else if c = '.' then { a with state := .DOT }
    else { a with state := .FIELD_START }
  | .FIELD_START =>
    if c = '.' then { a with state := .DOT }
    else if c = NUL then { a with done := true }
    else { a with state := .IN_FIELD }
  | .IN_FIELD =>
    if c = '/' then { a with state := .SEPARATOR }
    else if c = NUL then { a with done := true }
    else { a with rout := c :: a.rout, rest := a.rest.tail }
  | .SEPARATOR =>
    { a with rout := '/' :: a.rout, rest := a.rest.tail, state := .SEEN_SEPARATOR }
  | .SEEN_SEPARATOR =>
    if c = '/' then { a with rest := a.rest.tail }
    else if c = NUL then { a with done := true }
    else { a with state := .FIELD_START }
  | .DOT => { a with rest := a.rest.tail, state := .SEEN_DOT }
  | .SEEN_DOT =>
    if c = '.' then { a with state := .DOTDOT }
    else if c = '/' then { a with rest := a.rest.tail, state := .SEEN_SEPARATOR }
    else if c = NUL then { a with done := true }
    else { a with rout := '.' :: a.rout, state := .IN_FIELD }
  | .DOTDOT => { a with rest := a.rest.tail, state := .SEEN_DOTDOT }
  | .SEEN_DOTDOT =>
    if c = '/' ∨ c = NUL then
      { a with rout := a.rout.tail.dropWhile (fun x => x != '/'),
               rest := a.rest.tail, state := .SEEN_SEPARATOR,
               done := (if c = NUL then true else a.done) }
    else
      { a with rout := '.' :: '.' :: a.rout, state := .IN_FIELD }

/-- The bounded loop on the abstract state. -/
def abs_loop : Nat → Abs → Option Abs
  | 0, a => if a.done then some a else none
  | n + 1, a => if a.done then some a else abs_loop n (abs_step a)

/-- The result read off the abstract state after the loop. -/
def abs_finish (a : Abs) : List Char :=
  if a.rout = [] then ['/']
  else if a.rout.length > 1 ∧ a.rout.head? = some '/' then a.rout.tail.reverse
  else a.rout.reverse

/-- The abstract state at the entry of the loop. -/
def abs_init (x : List Char) : Abs :=
  { state := .INITIAL, rout := [], rest := x ++ [NUL], done := false }

/-- Characters consumed from the input in a state without any output written
for them yet: the distance the write cursor must keep from the read cursor. -/
def slack : PathState → Nat
  | .SEEN_DOT => 1
  | .DOTDOT => 1
  | .SEEN_DOTDOT => 2
  | _ => 0

/-- The abstract state describes the cursor: same automaton state and flag, the
buffer before `outpos` is the output, the buffer from `pos` on is the unread
input, and the write cursor is behind the read cursor. -/
def Sim (c : Cursor) (a : Abs) : Prop :=
  c.state = a.state ∧ c.done = a.done ∧ c.outpos = a.rout.length ∧
    c.path.take c.outpos = a.rout.reverse ∧ c.path.drop c.pos = a.rest ∧
    c.outpos + slack a.state ≤ c.pos

/-- A path component that normalisation keeps: not empty, free of separators
and terminators, and neither `.` nor `..`. -/
def Comp (comp : List Char) : Prop :=
  comp ≠ [] ∧ (∀ c ∈ comp, c ≠ '/' ∧ c ≠ NUL) ∧ comp ≠ ['.'] ∧ comp ≠ ['.', '.']

/-- The outputs (in reverse order) that end at a component boundary: nothing,
the leading separator, or a kept component and its separator after such an
output. -/
inductive Segs : List Char → Prop where
  | nil : Segs []
  | root : Segs ['/']
  | snoc (r comp : List Char) : Segs r → Comp comp → Segs ('/' :: (comp.reverse ++ r))

/-- The characters of the input up to the next separator or terminator. -/
def field_head (rest : List Char) : List Char :=
  rest.takeWhile (fun c => c != '/' && c != NUL)

/-- What holds of the abstract state in each automaton state. -/
def AbsInv (a : Abs) : Prop :=
  match a.state with
  | .INITIAL => a.rout = []
  | .FIELD_START => Segs a.rout ∧ a.rest.headD NUL ≠ '/'
  | .IN_FIELD => ∃ r part, a.rout = part.reverse ++ r ∧ Segs r ∧
      Comp (part ++ field_head a.rest)
  | .SEPARATOR => a.rest.head? = some '/' ∧
      (a.rout = [] ∨ ∃ r comp, a.rout = comp.reverse ++ r ∧ Segs r ∧ Comp comp)
  | .SEEN_SEPARATOR => Segs a.rout
  | .DOT => Segs a.rout ∧ a.rest.head? = some '.'
  | .SEEN_DOT => Segs a.rout
  | .DOTDOT => Segs a.rout ∧ a.rest.head? = some '.'
  | .SEEN_DOTDOT => Segs a.rout

/-- When `done` is set in a field, the field has been read to its end. -/
def DoneInv (a : Abs) : Prop :=
  a.done = true → a.state = .IN_FIELD → a.rest.headD NUL = NUL

/-- The rank of a state in the termination measure. -/
def rank : PathState → Nat
  | .SEPARATOR => 0
  | .DOT => 0
  | .DOTDOT => 0
  | .IN_FIELD => 1
  | .FIELD_START => 2
  | .SEEN_DOT => 2
  | .SEEN_DOTDOT => 2
  | .INITIAL => 3
  | .SEEN_SEPARATOR => 3

/-- The termination measure of the loop. -/
def potential (a : Abs) : Nat := 4 * a.rest.length + rank a.state

/-- The abstract automaton goes from the first state to the second in zero or
more iterations, none of them started with `done` set. -/
inductive Run : Abs → Abs → Prop where
  | refl (a : Abs) : Run a a
  | step (a b : Abs) : a.done = false → Run (abs_step a) b → Run a b

/-- The shape of a normalised path: the root, or kept components separated by
single separators, with or without a leading separator. -/
def Canon (y : List Char) : Prop :=
  y = ['/'] ∨ ∃ r comp, Segs r ∧ Comp comp ∧ y = r.reverse ++ comp

/-! ## C string helpers -/

/-- Models `strlen` on a C string. -/
def strlen (s : List Char) : Nat := s.length

/-- Models `strncmp`, whose result the C standard fixes up to its sign: `0` if
the two strings agree on their first `n` characters (or up to their common end),
`-1` or `1` otherwise.  The end of a string compares below every character. -/
def strncmp : List Char → List Char → Nat → Int
  | _, _, 0 => 0
  | [], [], _ + 1 => 0
  | [], _ :: _, _ + 1 => -1
  | _ :: _, [], _ + 1 => 1
  | a :: as, b :: bs, n + 1 =>
    if a = b then strncmp as bs n else if a < b then -1 else 1

/-- Models `strcmp`, up to the sign of the result as for `strncmp`. -/
def strcmp : List Char → List Char → Int
  | [], [] => 0
  | [], _ :: _ => -1
  | _ :: _, [] => 1
  | a :: as, b :: bs => if a = b then strcmp as bs else if a < b then -1 else 1

/-! ## Data model of the VFS -/

/-- The status codes used by `fs.c` and `dumbfs.c`. -/
inductive status_t where
  | OK
  | ERR_NO_MEMORY
  | ERR_NOT_FOUND
  | ERR_ALREADY_MOUNTED
  | ERR_TARGET_BUSY
  | ERR_NOT_DIRECTORY
  | ERR_BAD_HANDLER
  | ERR_BAD_DEVICE
  | ERR_END_OF_DIRECTORY
  deriving DecidableEq, Repr

/-- Ways in which a call fails to return. -/
inductive Fault where
  /-- a store through a null pointer -/
  | null_write
  /-- an access through a pointer to a freed (or never allocated) block -/
  | use_after_free
  /-- `mutex_acquire` on a mutex that is already held -/
  | deadlock
  /-- the normalisation loop did not finish -/
  | no_return
  deriving DecidableEq, Repr

/-- Models `struct fs_mount`.  `api` is the index of the hook whose operation
table the mount points to, `lock` tells whether the mutex is held. -/
structure struct_fs_mount where
  path : List Char
  device : Nat
  fs_data : Option Nat
  api : Nat
  ref_count : Nat
  lock : Bool
  deriving DecidableEq, Repr

/-- Models `struct file_handle`; `mount` is a pointer to a `struct fs_mount`. -/
structure file_handle where
  mount : Nat
  type : Nat
  file_data : Option Nat
  deriving DecidableEq, Repr

/-- The part of a backend operation table (`struct fs_api`) that the mount and
file life cycle calls.  The backends are outside `fs.c`; each operation is a
function of the arguments the VFS passes.
* `mount bdev` gives the status and the cookie stored in `fs_data`;
* `open_ m tail` gives the status, the type bits and the `file_data` it sets on
  the handle bound to mount `m`;
* `close h` gives the status of closing handle `h`. -/
structure fs_api where
  mount : Nat → status_t × Option Nat
  open_ : struct_fs_mount → List Char → status_t × Nat × Option Nat
  close : file_handle → status_t

/-- Models `struct fs_hook`: a registered backend. -/
structure fs_hook where
  name : List Char
  api : fs_api

/-- What `fs.c` takes from the rest of the kernel: the working directory of the
current thread, the table of registered backends (`__start_fs_hook` up to
`__end_fs_hook`) and `bdev_open` (a device handle, or nothing for `NULL`). -/
structure Env where
  cwd : List Char
  hooks : List fs_hook
  bdev_open : List Char → Option Nat

/-- Outcome of the allocations made during one call: `tmp` for the copy made by
`resolve_input`, `obj` for the `kalloc` of the mount or of the file handle,
`pushback` for the status of `vector_pushback`. -/
structure Oracle where
  tmp : Bool
  obj : Bool
  pushback : status_t
  deriving DecidableEq, Repr

/-- Every allocation succeeds. -/
def Oracle.ok : Oracle := { tmp := true, obj := true, pushback := .OK }

/-- Calls into the backend and the block device layer that the VFS makes while
tearing a mount down or backing out of a mount. -/
inductive Event where
  | backend_unmount (api : Nat) (fs_data : Option Nat)
  | bdev_close (device : Nat)
  deriving DecidableEq, Repr

/-- A heap block holding a `struct fs_mount`; `kfree` sets `freed` and leaves
the bytes in place. -/
structure mount_block where
  obj : struct_fs_mount
  freed : Bool
  deriving DecidableEq, Repr

/-- A heap block holding a `struct file_handle`. -/
structure handle_block where
  obj : file_handle
  freed : Bool
  deriving DecidableEq, Repr

/-- The state of the VFS: the heap blocks of the mounts (a pointer is an index),
`mounts_vector`, the heap blocks of the file handles, and the calls made so far
into the backends and devices.  `mounts_lock` is not part of the state: every
function releases it on each of its paths. -/
structure VfsState where
  mounts : List mount_block
  mounts_vector : List Nat
  handles : List handle_block
  events : List Event
  deriving DecidableEq, Repr

/-- The state before `init_fs`. -/
def VfsState.empty : VfsState :=
  { mounts := [], mounts_vector := [], handles := [], events := [] }

/-- Dereferences a pointer to a `struct fs_mount`. -/
def VfsState.mount_at (s : VfsState) (p : Nat) : Except Fault struct_fs_mount :=
  match s.mounts[p]? with
  | some b => if b.freed then .error .use_after_free else .ok b.obj
  | none => .error .use_after_free

/-- Stores into the `struct fs_mount` at `p`. -/
def VfsState.set_mount (s : VfsState) (p : Nat) (m : struct_fs_mount) : VfsState :=
  { s with mounts := s.mounts.set p { obj := m, freed := false } }

/-- Models `kfree` of the `struct fs_mount` at `p`. -/
def VfsState.kfree_mount (s : VfsState) (p : Nat) : VfsState :=
  { s with mounts := s.mounts.modify (fun b => { b with freed := true }) p }

/-- Models `kalloc` and initialisation of a `struct fs_mount`; the new pointer is
the second component. -/
def VfsState.kalloc_mount (s : VfsState) (m : struct_fs_mount) : VfsState × Nat :=
  ({ s with mounts := s.mounts ++ [{ obj := m, freed := false }] }, s.mounts.length)

/-- Dereferences a pointer to a `struct file_handle`. -/
def VfsState.handle_at (s : VfsState) (h : Nat) : Except Fault file_handle :=
  match s.handles[h]? with
  | some b => if b.freed then .error .use_after_free else .ok b.obj
  | none => .error .use_after_free

/-- Models `kfree` of the `struct file_handle` at `h`. -/
def VfsState.kfree_handle (s : VfsState) (h : Nat) : VfsState :=
  { s with handles := s.handles.modify (fun b => { b with freed := true }) h }

/-- Records a call into a backend or device. -/
def VfsState.log (s : VfsState) (e : Event) : VfsState :=
  { s with events := s.events ++ [e] }

/-- Modelled from the spec: `vector_pushback(&mounts_vector, p)` (the vector of
`kernel/vector.h`, which is not among the sources) when it succeeds: `insert`
appends the mount to the table. -/
def VfsState.vector_pushback (s : VfsState) (p : Nat) : VfsState :=
  { s with mounts_vector := s.mounts_vector ++ [p] }

/-- Modelled from the spec: `vector_remove_value(&mounts_vector, p)` (also of
`kernel/vector.h`): `remove` unlinks the mount by identity. -/
def VfsState.vector_remove_value (s : VfsState) (p : Nat) : VfsState :=
  { s with mounts_vector := s.mounts_vector.erase p }

/-- The operation table a mount's `api` field points to. -/
def Env.api_at (env : Env) (i : Nat) : Except Fault fs_api :=
  match env.hooks[i]? with
  | some h => .ok h.api
  | none => .error .use_after_free

/-! ## Mount table -/

/-- Models `find_fs`: the index of the first hook with the given name. -/
def find_fs (env : Env) (name : List Char) : Option Nat :=
  env.hooks.findIdx? (fun h => strcmp h.name name = 0)

/-- The `trimmed_path` argument of `find_mount`: a null pointer or the address
of a variable of the caller. -/
inductive OutPtr where
  | null
  | valid
  deriving DecidableEq, Repr

/-- The value `find_mount` stores in `*trimmed_path`: `path + mount_pathlen`,
advanced by one more character when it points at a backslash. -/
def trimmed (path : List Char) (mount_pathlen : Nat) : List Char :=
  let t := path.drop mount_pathlen
  if t.head? = some '\\' then t.drop 1 else t

/-- The body of the `vector_foreach` loop of `find_mount` over the pointers that
remain to be visited; the macro (of `kernel/vector.h`, not among the sources) is
taken to visit the entries from the first to the last. -/
def find_mount_loop (path : List Char) (trimmed_path : OutPtr) :
    List Nat → VfsState → Except Fault (Option (Nat × List Char) × VfsState)
  | [], s => .ok (none, s)
  | p :: ps, s =>
    match s.mount_at p with
    | .error f => .error f
    | .ok m =>
      if m.lock then .error .deadlock
      else
        let mount_pathlen := strlen m.path
        if strncmp path m.path mount_pathlen = 0 then
          match trimmed_path with
          | .null => .error .null_write
          | .valid =>
            .ok (some (p, trimmed path mount_pathlen),
              s.set_mount p { m with lock := true, ref_count := m.ref_count + 1 })
        else
          find_mount_loop path trimmed_path ps (s.set_mount p { m with lock := false })

/-- Models `find_mount`: the mount found (its pointer and the path stored in
`*trimmed_path`) or nothing for `NULL`, and the state left behind. -/
def find_mount (s : VfsState) (path : List Char) (trimmed_path : OutPtr) :
    Except Fault (Option (Nat × List Char) × VfsState) :=
  find_mount_loop path trimmed_path s.mounts_vector s

/-- Models `put_mount`. -/
def put_mount (s : VfsState) (p : Nat) : Except Fault VfsState :=
  match s.mount_at p with
  | .error f => .error f
  | .ok m =>
    let m1 := { m with ref_count := m.ref_count - 1 }
    if m1.ref_count = 0 then
      .ok (((((s.set_mount p m1).log (.backend_unmount m1.api m1.fs_data)).log
        (.bdev_close m1.device)).vector_remove_value p).kfree_mount p)
    else
      .ok (s.set_mount p { m1 with lock := false })

/-- Models the static function `mount`. -/
def mount (env : Env) (s : VfsState) (path device : List Char) (api : Nat) (o : Oracle) :
    Except Fault (status_t × VfsState) :=
  match resolve_input o.tmp env.cwd path with
  | none => .ok (.ERR_NO_MEMORY, s)
  | some tmp0 =>
    match resolve_path tmp0 with
    | none => .error .no_return
    | some tmp =>
      match find_mount s tmp .valid with
      | .error f => .error f
      | .ok (some (found, _), s1) =>
        -- `err:` with `mount` still holding the result of `find_mount`
        .ok (.ERR_ALREADY_MOUNTED, s1.kfree_mount found)
      | .ok (none, s1) =>
        match env.bdev_open device with
        | none => .ok (.ERR_NOT_FOUND, s1)
        | some bdev =>
          if o.obj = false then .ok (.ERR_NO_MEMORY, s1.log (.bdev_close bdev))
          else
            let (s2, p) := s1.kalloc_mount
              { path := tmp, device := bdev, fs_data := none, api := api,
                ref_count := 1, lock := true }
            if o.pushback ≠ .OK then
              .ok (o.pushback, (s2.kfree_mount p).log (.bdev_close bdev))
            else
              let s3 := s2.vector_pushback p
              match env.api_at api with
              | .error f => .error f
              | .ok a =>
                match a.mount bdev with
                | (.OK, data) =>
                  match s3.mount_at p with
                  | .error f => .error f
                  | .ok m => .ok (.OK, s3.set_mount p { m with fs_data := data, lock := false })
                | (err, _) =>
                  .ok (err, (((s3.vector_remove_value p).kfree_mount p).log (.bdev_close bdev)))

/-- Models `fs_mount`. -/
def fs_mount (env : Env) (s : VfsState) (path fs_name device : List Char) (o : Oracle) :
    Except Fault (status_t × VfsState) :=
  match find_fs env fs_name with
  | none => .ok (.ERR_NOT_FOUND, s)
  | some hook => mount env s path device hook o

/-- Models `fs_unmount`. -/
def fs_unmount (env : Env) (s : VfsState) (path : List Char) (o : Oracle) :
    Except Fault (status_t × VfsState) :=
  match resolve_input o.tmp env.cwd path with
  | none => .ok (.ERR_NO_MEMORY, s)
  | some tmp0 =>
    match resolve_path tmp0 with
    | none => .error .no_return
    | some tmp =>
      match find_mount s tmp .null with
      | .error f => .error f
      | .ok (none, s1) => .ok (.ERR_NOT_FOUND, s1)
      | .ok (some (m, _), s1) =>
        match put_mount s1 m with
        | .error f => .error f
        | .ok s2 =>
          match s2.mount_at m with
          | .error f => .error f
          | .ok obj =>
            if obj.ref_count > 1 then .ok (.ERR_TARGET_BUSY, s2)
            else
              match put_mount s2 m with
              | .error f => .error f
              | .ok s3 => .ok (.OK, s3)

/-- Models `fs_open`; the middle component of the result is the handle stored in
`*file_handle`. -/
def fs_open (env : Env) (s : VfsState) (path : List Char) (o : Oracle) :
    Except Fault (status_t × Option Nat × VfsState) :=
  match resolve_input o.tmp env.cwd path with
  | none => .ok (.ERR_NO_MEMORY, none, s)
  | some tmp0 =>
    match resolve_path tmp0 with
    | none => .error .no_return
    | some tmp =>
      match find_mount s tmp .valid with
      | .error f => .error f
      | .ok (none, s1) => .ok (.ERR_NOT_FOUND, none, s1)
      | .ok (some (m, newpath), s1) =>
        if o.obj = false then
          match put_mount s1 m with
          | .error f => .error f
          | .ok s2 => .ok (.ERR_NO_MEMORY, none, s2)
        else
          match s1.mount_at m with
          | .error f => .error f
          | .ok obj =>
            match env.api_at obj.api with
            | .error f => .error f
            | .ok a =>
              match a.open_ obj newpath with
              | (.OK, type, file_data) =>
                .ok (.OK, some s1.handles.length,
                  { (s1.set_mount m { obj with lock := false }) with
                    handles := s1.handles ++
                      [{ obj := { mount := m, type := type, file_data := file_data },
                         freed := false }] })
              | (err, _, _) =>
                match put_mount s1 m with
                | .error f => .error f
                | .ok s2 => .ok (err, none, s2)

/-- Models `fs_close`. -/
def fs_close (env : Env) (s : VfsState) (h : Nat) : Except Fault (status_t × VfsState) :=
  match s.handle_at h with
  | .error f => .error f
  | .ok fh =>
    match s.mount_at fh.mount with
    | .error f => .error f
    | .ok obj =>
      match env.api_at obj.api with
      | .error f => .error f
      | .ok a =>
        let err := a.close fh
        match put_mount s fh.mount with
        | .error f => .error f
        | .ok s1 => .ok (err, s1.kfree_handle h)

/-! ## Reachable states and the boot configuration -/

/-- The path stored in the heap block `p` (`none` when `p` is not a block). -/
def path_of (s : VfsState) (p : Nat) : Option (List Char) :=
  (s.mounts[p]?).map (fun b => b.obj.path)

/-- The paths of the entries of `mounts_vector`, in table order, each read
through its pointer. -/
def table_paths (s : VfsState) : List (Option (List Char)) :=
  s.mounts_vector.map (path_of s)

/-- The visit of `find_mount` at the mount `p` passes on to the next entry: the
mount is live, its mutex is free and its path is not a prefix of the query. -/
def Passed (s : VfsState) (q : List Char) (p : Nat) : Prop :=
  ∃ m, s.mount_at p = .ok m ∧ m.lock = false ∧ ¬ m.path <+: q

/-- The second state has the mount table of the first and the same path in
every heap block of the first. -/
def Frame (s s' : VfsState) : Prop :=
  s'.mounts_vector = s.mounts_vector ∧ s.mounts.length ≤ s'.mounts.length ∧
    ∀ p, p < s.mounts.length → path_of s' p = path_of s p

/-- Every entry of the mount table points to a heap block and no two entries
have the same path. -/
def TableInv (s : VfsState) : Prop :=
  (∀ p ∈ s.mounts_vector, p < s.mounts.length) ∧ (table_paths s).Nodup

/-- The sum of the `ref_count` fields read through the pointers of
`mounts_vector`. -/
def ref_count_sum (s : VfsState) : Nat :=
  (s.mounts_vector.map (fun p => ((s.mounts[p]?).map (fun b => b.obj.ref_count)).getD 0)).sum

/-- The number of file handles that were opened and not closed. -/
def live_handles (s : VfsState) : Nat :=
  (s.handles.filter (fun b => !b.freed)).length

/-- The number of entries of the mount table. -/
def live_mounts (s : VfsState) : Nat := s.mounts_vector.length

/-- The states reached from the empty mount table by calls of `fs_mount` and
`fs_unmount` that return, whatever status they return. -/
inductive MountReachable (env : Env) : VfsState → Prop where
  | init : MountReachable env VfsState.empty
  | mount (s s' : VfsState) (path fs_name device : List Char) (o : Oracle) (st : status_t) :
      MountReachable env s → fs_mount env s path fs_name device o = .ok (st, s') →
      MountReachable env s'
  | unmount (s s' : VfsState) (path : List Char) (o : Oracle) (st : status_t) :
      MountReachable env s → fs_unmount env s path o = .ok (st, s') →
      MountReachable env s'

/-- A backend whose operations succeed, standing for `dumbfs` where only the
mount life cycle matters. -/
def boot_api : fs_api :=
  { mount := fun _ => (.OK, some 0),
    open_ := fun _ _ => (.OK, 0, none),
    close := fun _ => .OK }

/-- The kernel at `init_fs`: the working directory is the root, `dumbfs` is the
registered backend and `initrd` the block device. -/
def boot_env : Env :=
  { cwd := "/".toList,
    hooks := [{ name := "dumbfs".toList, api := boot_api }],
    bdev_open := fun name => if name = "initrd".toList then some 0 else none }

/-- The state after `init_fs`: `dumbfs` mounted on `/`. -/
def root_mounted : VfsState :=
  { mounts := [{ obj := { path := "/".toList, device := 0, fs_data := some 0, api := 0,
                          ref_count := 1, lock := false },
                 freed := false }],
    mounts_vector := [0], handles := [], events := [] }

/-- A state with a single mount, on `/mnt`. -/
def mnt_mounted : VfsState :=
  { mounts := [{ obj := { path := "/mnt".toList, device := 0, fs_data := some 0, api := 0,
                          ref_count := 1, lock := false },
                 freed := false }],
    mounts_vector := [0], handles := [], events := [] }

/-- A mount table holding `/` and, after it, `/mnt`. -/
def nested_table : VfsState :=
  { mounts := [{ obj := { path := "/".toList, device := 0, fs_data := some 0, api := 0,
                          ref_count := 1, lock := false },
                 freed := false },
               { obj := { path := "/mnt".toList, device := 1, fs_data := some 1, api := 0,
                          ref_count := 1, lock := false },
                 freed := false }],
    mounts_vector := [0, 1], handles := [], events := [] }

/-- The state after a second `fs_mount` on `/`: the table still points to the
block of the mount on `/`, which has been freed with its mutex held and its
counter raised by the lookup. -/
def root_dangling : VfsState :=
  { mounts := [{ obj := { path := "/".toList, device := 0, fs_data := some 0, api := 0,
                          ref_count := 2, lock := true },
                 freed := true }],
    mounts_vector := [0], handles := [], events := [] }

/-- The state after `fs_open("/a")` in `root_mounted`: one handle on the mount
on `/`, whose counter is 2. -/
def root_opened : VfsState :=
  { mounts := [{ obj := { path := "/".toList, device := 0, fs_data := some 0, api := 0,
                          ref_count := 2, lock := false },
                 freed := false }],
    mounts_vector := [0],
    handles := [{ obj := { mount := 0, type := 0, file_data := none }, freed := false }],
    events := [] }

/-- The state after `fs_mount("/mnt", "dumbfs", "initrd")` and then
`fs_mount("/", "dumbfs", "initrd")` from the empty table: the table holds `/mnt`
and, after it, `/`. -/
def mnt_then_root : VfsState :=
  { mounts := [{ obj := { path := "/mnt".toList, device := 0, fs_data := some 0, api := 0,
                          ref_count := 1, lock := false },
                 freed := false },
               { obj := { path := "/".toList, device := 0, fs_data := some 0, api := 0,
                          ref_count := 1, lock := false },
                 freed := false }],
    mounts_vector := [0, 1], handles := [], events := [] }

/-- No path stored in a block the table points to is a prefix of the path
stored in a block that a later entry points to. -/
def path_ordered (s : VfsState) : Prop :=
  ∀ (i j pi pj : Nat) (a b : List Char), i < j →
    s.mounts_vector[i]? = some pi → s.mounts_vector[j]? = some pj →
    path_of s pi = some a → path_of s pj = some b → ¬ a <+: b

/-! ## Canonicalisation and path components -/

/-- Canonicalisation as done at the head of `mount`, `fs_unmount` and `fs_open`:
`resolve_input` against the working directory (its allocation succeeding), then
`resolve_path`. -/
def canonicalise (cwd input : List Char) : Option (List Char) :=
  (resolve_input true cwd input).bind resolve_path

/-- The components of a path: the runs of characters between its separators
(`/a//b` has the components empty, `a`, empty and `b`). -/
def components : List Char → List (List Char)
  | [] => [[]]
  | c :: cs =>
    if c = '/' then [] :: components cs
    else
      match components cs with
      | [] => [[c]]
      | h :: t => (c :: h) :: t

/-- The local variables after at most `n` iterations of the loop of
`resolve_path` (the loop stops once `done` is set). -/
def resolve_trace : Nat → Cursor → Cursor
  | 0, s => s
  | n + 1, s => if s.done then s else resolve_trace n (resolve_step s)

/-- The buffer as the code after the loop leaves it (`resolve_finish` reads the
result back from it). -/
def resolve_finish_buf (s : Cursor) : List Char :=
  if s.outpos = 0 then
    poke (poke s.path 0 '/') 1 NUL
  else if s.outpos > 1 ∧ peek s.path (s.outpos - 1) = '/' then
    poke s.path (s.outpos - 1) NUL
  else
    poke s.path s.outpos NUL

/-- The output written so far, the characters consumed without output and the
unread input fit the buffer of an input of `n` characters; the unread input
still ends with the terminator; and the output is no longer than the input. -/
def FitInv (n : Nat) (a : Abs) : Prop :=
  a.rout.length + slack a.state + a.rest.length ≤ n + 1 ∧
    (a.rest ≠ [] → a.rest.getLast? = some NUL) ∧ a.rout.length ≤ n

/-! ## The block device and the flat archive backend (`dumbfs.c`)

A byte is a `char`; a device is the list of its bytes.  Device offsets and sizes
are natural numbers: on the devices considered, all smaller than `2 ^ 32` bytes,
the unsigned arithmetic of the source on offsets does not wrap.  The one sum the
specification singles out, `seek_offset + *size` in `dumbfs_read`, keeps its
wrap-around at the width `SIZE_BITS` of `size_t`.  The constants
`FS_REGULAR_FILE` and `FS_DIRECTORY` and the size of `dirent->name` come from
headers that are not among the sources and are parameters. -/

/-- Modelled from the spec: `bdev_read(dev, dest, offset, len)` of the block
device layer (`kernel/bdev.h` is not among the sources) transfers the bytes of
the device from `offset` on, `len` of them or fewer when the device ends before;
the value it returns is the number of bytes transferred, here the length of the
list.  A read that fails, for which the source tests `r < 0`, is not modelled:
the device always answers. -/
def bdev_read (dev : List Char) (offset len : Nat) : List Char :=
  (dev.drop offset).take len

/-- A `uint32` read from four bytes, little-endian. -/
def le32 (b : List Char) : Nat :=
  (b.getD 0 NUL).toNat + 256 * (b.getD 1 NUL).toNat + 65536 * (b.getD 2 NUL).toNat
    + 16777216 * (b.getD 3 NUL).toNat

/-- Modelled from the spec: `struct dumbfs_file_entry` (of `lib/fs/dumbfs.h`, not
among the sources), the eight-byte header of an archive entry: two `uint32`,
`entry_size` then `file_size`. -/
structure dumbfs_file_entry where
  entry_size : Nat
  file_size : Nat
  deriving DecidableEq, Repr

/-- The header held in eight bytes read from the device. -/
def read_header (b : List Char) : dumbfs_file_entry :=
  { entry_size := le32 b, file_size := le32 (b.drop 4) }

/-- Models `struct fs_dumb`, the state of the backend for one mount; the device
it is bound to is passed along with it. -/
structure fs_dumb where
  nb_files : Nat
  deriving DecidableEq, Repr

/-- Models `struct dumbfs_file`, the state of the backend for one open file. -/
structure dumbfs_file where
  header : dumbfs_file_entry
  bdev_offset : Nat
  seek_offset : Nat
  deriving DecidableEq, Repr

/-- The fields of a `struct file_handle` that the backend sets: `type` and
`file_data`. -/
structure dumb_handle where
  type : Nat
  file_data : Option dumbfs_file
  deriving DecidableEq, Repr

/-- Models `struct dumbfs_dir`, the cursor of an open directory. -/
structure dumbfs_dir where
  bdev_offset : Nat
  file_index : Nat
  deriving DecidableEq, Repr

/-- Models `struct dirent`: the buffer `name` and the flag `dir`. -/
structure dirent where
  name : List Char
  dir : Bool
  deriving DecidableEq, Repr

/-- Models `dumbfs_mount`; `alloc` tells whether `kalloc` succeeds. -/
def dumbfs_mount (alloc : Bool) (dev : List Char) : status_t × Option fs_dumb :=
  if alloc = false then (.ERR_NO_MEMORY, none)
  else
    let b := bdev_read dev 0 4
    if b.length ≠ 4 then (.ERR_BAD_DEVICE, none)
    else (.OK, some { nb_files := le32 b })

/-- The `while (file_index < dumb->nb_files)` loop of `dumbfs_open`; the first
argument is the number of entries not yet visited, the second is `offset`.
`alloc_file` tells whether the `kalloc` of the `struct dumbfs_file` succeeds. -/
def dumbfs_open_scan (dev path : List Char) (alloc_file : Bool) :
    Nat → Nat → status_t × Option dumbfs_file
  | 0, _ => (.ERR_NOT_FOUND, none)
  | n + 1, offset =>
    let hdr := bdev_read dev offset 8
    let file_path := bdev_read dev (offset + 8) (strlen path + 1)
    if hdr.length ≠ 8 ∨ file_path.length ≠ strlen path + 1 then (.ERR_BAD_DEVICE, none)
    else
      let file_header := read_header hdr
      let offset1 := offset + 8
      if strncmp path (cstr file_path) (strlen path + 1) = 0 then
        if alloc_file = false then (.ERR_NO_MEMORY, none)
        else
          (.OK, some { header := file_header, bdev_offset := offset1 + strlen path + 1,
                       seek_offset := 0 })
      else
        dumbfs_open_scan dev path alloc_file n (offset1 + file_header.entry_size)

/-- Models `dumbfs_open` on the device and backend state of the mount of the
handle; `alloc_path` and `alloc_file` tell whether the two `kalloc` succeed. -/
def dumbfs_open (FS_REGULAR_FILE FS_DIRECTORY : Nat) (dev : List Char) (dumb : fs_dumb)
    (handle : dumb_handle) (path : List Char) (alloc_path alloc_file : Bool) :
    status_t × dumb_handle :=
  if path = [] then
    (.OK, { type := handle.type ||| FS_DIRECTORY, file_data := none })
  else
    let h1 : dumb_handle := { handle with type := handle.type ||| FS_REGULAR_FILE }
    if alloc_path = false then (.ERR_NO_MEMORY, h1)
    else
      match dumbfs_open_scan dev path alloc_file dumb.nb_files 4 with
      | (.OK, some file) => (.OK, { h1 with file_data := some file })
      | (err, _) => (err, h1)

/-- Models `dumbfs_read` on the file state `file` of the handle: the status, the
bytes stored in `dest`, the value left in `*size`, and the file state. -/
def dumbfs_read (SIZE_BITS : Nat) (dev : List Char) (file : dumbfs_file) (size : Nat) :
    status_t × List Char × Nat × dumbfs_file :=
  let size1 :=
    if (file.seek_offset + size) % 2 ^ SIZE_BITS > file.header.file_size then
      (file.header.file_size + 2 ^ SIZE_BITS - file.seek_offset) % 2 ^ SIZE_BITS
    else size
  let r := bdev_read dev (file.bdev_offset + file.seek_offset) size1
  (.OK, r, r.length, { file with seek_offset := file.seek_offset + r.length })

/-- Models `fs_read` on a handle whose mount has the `dumbfs` operations. -/
def fs_read (SIZE_BITS FS_REGULAR_FILE : Nat) (dev : List Char) (type : Nat)
    (file : dumbfs_file) (size : Nat) : status_t × List Char × Nat × dumbfs_file :=
  if type &&& FS_REGULAR_FILE = 0 then (.ERR_BAD_HANDLER, [], size, file)
  else dumbfs_read SIZE_BITS dev file size

/-- Models `dumbfs_seek`: the offset returned and the file state. -/
def dumbfs_seek (file : dumbfs_file) (offset : Nat) : Nat × dumbfs_file :=
  let o := if offset > file.header.file_size then file.header.file_size else offset
  (o, { file with seek_offset := o })

/-- Models `dumbfs_opendir`; `alloc` tells whether `kalloc` succeeds. -/
def dumbfs_opendir (alloc : Bool) : status_t × Option dumbfs_dir :=
  if alloc = false then (.ERR_NO_MEMORY, none)
  else (.OK, some { bdev_offset := 4, file_index := 0 })

/-- Models `dumbfs_readdir`: the status, the cursor and the entry after the
call.  `NAME_SIZE` is `sizeof(dirent->name)`. -/
def dumbfs_readdir (NAME_SIZE : Nat) (dev : List Char) (dumb : fs_dumb) (dir : dumbfs_dir)
    (d : dirent) : status_t × dumbfs_dir × dirent :=
  if dir.file_index ≥ dumb.nb_files then (.ERR_END_OF_DIRECTORY, dir, d)
  else
    let hdr := bdev_read dev dir.bdev_offset 8
    if hdr.length ≠ 8 then (.ERR_BAD_DEVICE, dir, { d with dir := false })
    else
      let file_header := read_header hdr
      let r := bdev_read dev (dir.bdev_offset + 8) (NAME_SIZE - 1)
      (.OK,
       { bdev_offset := dir.bdev_offset + (8 + file_header.entry_size),
         file_index := dir.file_index + 1 },
       { name := r ++ NUL :: d.name.drop (r.length + 1), dir := false })

/-- The cursor and the entry after `k` calls of `dumbfs_readdir` in a row, each
on the cursor and the entry left by the one before. -/
def readdir_after (NAME_SIZE : Nat) (dev : List Char) (dumb : fs_dumb) :
    Nat → dumbfs_dir → dirent → dumbfs_dir × dirent
  | 0, dir, d => (dir, d)
  | k + 1, dir, d =>
    let r := dumbfs_readdir NAME_SIZE dev dumb dir d
    readdir_after NAME_SIZE dev dumb k r.2.1 r.2.2

/-- An entry of a flat archive: the `entry_size` of its header, its name and its
payload (`file_size` is the length of the payload). -/
structure dumb_entry where
  entry_size : Nat
  name : List Char
  payload : List Char
  deriving DecidableEq, Repr

/-- Modelled from the spec: the entries of a flat archive laid out on the device
from offset `off` on.  Each entry has its eight-byte header, then its name, a
terminator and its payload, all inside the `entry_size` bytes that follow the
header; the next entry starts `entry_size` bytes after the header. -/
def entries_at (dev : List Char) : Nat → List dumb_entry → Prop
  | _, [] => True
  | off, e :: es =>
    (bdev_read dev off 8).length = 8 ∧
    read_header (bdev_read dev off 8)
      = { entry_size := e.entry_size, file_size := e.payload.length } ∧
    bdev_read dev (off + 8) (e.name.length + 1 + e.payload.length)
      = e.name ++ NUL :: e.payload ∧
    (∀ c ∈ e.name, c ≠ NUL) ∧
    e.name.length + 1 + e.payload.length ≤ e.entry_size ∧
    entries_at dev (off + 8 + e.entry_size) es

/-- Modelled from the spec: the device holds a flat archive with the given
entries: a 32-bit count, then the entries from offset 4 on. -/
def archive (dev : List Char) (entries : List dumb_entry) : Prop :=
  (bdev_read dev 0 4).length = 4 ∧ le32 (bdev_read dev 0 4) = entries.length ∧
    entries_at dev 4 entries

/-- The offset at which the `k`-th entry (counting from 0) of the entries laid
out from `off` on starts. -/
def entry_offset : Nat → List dumb_entry → Nat → Nat
  | off, _, 0 => off
  | off, [], _ + 1 => off
  | off, e :: es, k + 1 => entry_offset (off + 8 + e.entry_size) es k

/-- The first entry with the given name among the entries laid out from `off`
on, with the offset at which it starts. -/
def first_named (name : List Char) : Nat → List dumb_entry → Option (Nat × dumb_entry)
  | _, [] => none
  | off, e :: es =>
    if e.name = name then some (off, e) else first_named name (off + 8 + e.entry_size) es

/-- A `uint32` written as four bytes, little-endian. -/
def enc32 (n : Nat) : List Char :=
  [Char.ofNat (n % 256), Char.ofNat (n / 256 % 256), Char.ofNat (n / 65536 % 256),
   Char.ofNat (n / 16777216 % 256)]

/-- The archive of scenario 4 of the specification: two entries, `a` holding
`hello` with `entry_size` 9 and `bb` holding `world` with `entry_size` 10.  Name,
terminator and payload take 7 and 8 bytes; `pad1` and `pad2` are the bytes that
fill each entry up to its `entry_size`. -/
def scenario4 (pad1 pad2 : List Char) : List Char :=
  enc32 2 ++ enc32 9 ++ enc32 5 ++ "a".toList ++ [NUL] ++ "hello".toList ++ pad1
    ++ enc32 10 ++ enc32 5 ++ "bb".toList ++ [NUL] ++ "world".toList ++ pad2

/-- The entries of the archive of scenario 4. -/
def scenario4_entries : List dumb_entry :=
  [{ entry_size := 9, name := "a".toList, payload := "hello".toList },
   { entry_size := 10, name := "bb".toList, payload := "world".toList }]

theorem strncmp_strlen_eq_zero (b : List Char) :
    ∀ a : List Char, strncmp a b (strlen b) = 0 ↔ b <+: a := by
  induction b with
  | nil => intro a; simp [strncmp, strlen]
  | cons y bs ih =>
    intro a
    cases a with
    | nil => simp [strncmp, strlen]
    | cons x as =>
      have ih' := ih as
      simp only [strlen, List.length_cons] at ih' ⊢
      by_cases hxy : x = y
      · subst hxy
        simp [strncmp, ih', List.cons_prefix_cons]
      · have hne : (if x < y then (-1 : Int) else 1) ≠ 0 := by split <;> decide
        have hyx : ¬ y = x := fun h => hxy h.symm
        simp [strncmp, hxy, hyx, hne, List.cons_prefix_cons]

theorem list_set_same {α : Type} (l : List α) (i : Nat) (a : α) (h : l[i]? = some a) :
    l.set i a = l := by
  apply List.ext_getElem?
  intro j
  rw [List.getElem?_set]
  by_cases hij : i = j
  · subst hij
    have hlt : i < l.length := (List.getElem?_eq_some.mp h).1
    simp [hlt, h]
  · simp [hij]

theorem mount_at_eq_ok (s : VfsState) (p : Nat) (m : struct_fs_mount) :
    s.mount_at p = .ok m ↔ s.mounts[p]? = some { obj := m, freed := false } := by
  unfold VfsState.mount_at
  cases h : s.mounts[p]? with
  | none => simp
  | some b =>
    obtain ⟨o, f⟩ := b
    cases f <;> simp

theorem set_mount_self (s : VfsState) (p : Nat) (m : struct_fs_mount)
    (h : s.mount_at p = .ok m) : s.set_mount p m = s := by
  rw [mount_at_eq_ok] at h
  unfold VfsState.set_mount
  rw [list_set_same _ _ _ h]

/-- On a miss the mutex is taken and released again: the mount is unchanged. -/
theorem set_mount_unlock (s : VfsState) (p : Nat) (m : struct_fs_mount)
    (h : s.mount_at p = .ok m) (hl : m.lock = false) :
    s.set_mount p { m with lock := false } = s := by
  have : ({ m with lock := false } : struct_fs_mount) = m := by
    cases m; simp_all
  rw [this]; exact set_mount_self s p m h

theorem find_mount_loop_hit (q : List Char) (s : VfsState) (l1 l2 : List Nat) (p : Nat)
    (m : struct_fs_mount) (h1 : ∀ p' ∈ l1, Passed s q p') (hm : s.mount_at p = .ok m)
    (hl : m.lock = false) (hp : m.path <+: q) :
    find_mount_loop q .valid (l1 ++ p :: l2) s
      = .ok (some (p, trimmed q (strlen m.path)),
          s.set_mount p { m with lock := true, ref_count := m.ref_count + 1 }) := by
  induction l1 with
  | nil =>
    have hs : strncmp q m.path (strlen m.path) = 0 := by
      rw [strncmp_strlen_eq_zero]; exact hp
    simp [find_mount_loop, hm, hl, hs]
  | cons p' l1 ih =>
    obtain ⟨m', hm', hl', hp'⟩ := h1 p' (List.mem_cons_self _ _)
    have hs : ¬ strncmp q m'.path (strlen m'.path) = 0 := by
      rw [strncmp_strlen_eq_zero]; exact hp'
    simp only [List.cons_append, find_mount_loop, hm', hl', hs, if_false, Bool.false_eq_true]
    rw [set_mount_unlock s p' m' hm' hl']
    exact ih (fun x hx => h1 x (List.mem_cons_of_mem _ hx))

theorem find_mount_loop_null (q : List Char) (s : VfsState) (l1 l2 : List Nat) (p : Nat)
    (m : struct_fs_mount) (h1 : ∀ p' ∈ l1, Passed s q p') (hm : s.mount_at p = .ok m)
    (hl : m.lock = false) (hp : m.path <+: q) :
    find_mount_loop q .null (l1 ++ p :: l2) s = .error .null_write := by
  induction l1 with
  | nil =>
    have hs : strncmp q m.path (strlen m.path) = 0 := by
      rw [strncmp_strlen_eq_zero]; exact hp
    simp [find_mount_loop, hm, hl, hs]
  | cons p' l1 ih =>
    obtain ⟨m', hm', hl', hp'⟩ := h1 p' (List.mem_cons_self _ _)
    have hs : ¬ strncmp q m'.path (strlen m'.path) = 0 := by
      rw [strncmp_strlen_eq_zero]; exact hp'
    simp only [List.cons_append, find_mount_loop, hm', hl', hs, if_false, Bool.false_eq_true]
    rw [set_mount_unlock s p' m' hm' hl']
    exact ih (fun x hx => h1 x (List.mem_cons_of_mem _ hx))

/-- What a call of `find_mount` that returns tells about the table. -/
theorem find_mount_loop_ok (q : List Char) (tp : OutPtr) :
    ∀ (ps : List Nat) (s : VfsState) (r : Option (Nat × List Char)) (s' : VfsState),
      find_mount_loop q tp ps s = .ok (r, s') →
      (r = none ∧ s' = s ∧ ∀ p ∈ ps, Passed s q p) ∨
      (∃ l1 p l2 m, tp = .valid ∧ ps = l1 ++ p :: l2 ∧ (∀ p' ∈ l1, Passed s q p') ∧
        s.mount_at p = .ok m ∧ m.lock = false ∧ m.path <+: q ∧
        r = some (p, trimmed q (strlen m.path)) ∧
        s' = s.set_mount p { m with lock := true, ref_count := m.ref_count + 1 }) := by
  intro ps
  induction ps with
  | nil =>
    intro s r s' h
    simp only [find_mount_loop, Except.ok.injEq, Prod.mk.injEq] at h
    left; exact ⟨h.1.symm, h.2.symm, by simp⟩
  | cons p ps ih =>
    intro s r s' h
    cases hm : s.mount_at p with
    | error f => simp [find_mount_loop, hm] at h
    | ok m =>
      cases hl : m.lock with
      | true => simp [find_mount_loop, hm, hl] at h
      | false =>
        by_cases hs : strncmp q m.path (strlen m.path) = 0
        · have hp : m.path <+: q := (strncmp_strlen_eq_zero _ _).mp hs
          cases tp with
          | null => simp [find_mount_loop, hm, hl, hs] at h
          | valid =>
            simp only [find_mount_loop, hm, hl, hs, if_true, Bool.false_eq_true, if_false,
              Except.ok.injEq, Prod.mk.injEq] at h
            right
            exact ⟨[], p, ps, m, rfl, rfl, by simp, hm, hl, hp, h.1.symm, h.2.symm⟩
        · have hp : ¬ m.path <+: q := fun hh => hs ((strncmp_strlen_eq_zero _ _).mpr hh)
          simp only [find_mount_loop, hm, hl, hs, if_false, Bool.false_eq_true] at h
          rw [set_mount_unlock s p m hm hl] at h
          have hpass : Passed s q p := ⟨m, hm, hl, hp⟩
          rcases ih s r s' h with ⟨h1, h2, h3⟩ | ⟨l1, p0, l2, m0, h0, h1, h2, h3⟩
          · left
            refine ⟨h1, h2, ?_⟩
            intro x hx
            rcases List.mem_cons.mp hx with rfl | hx
            · exact hpass
            · exact h3 x hx
          · right
            refine ⟨p :: l1, p0, l2, m0, h0, by simp [h1], ?_, h3⟩
            intro x hx
            rcases List.mem_cons.mp hx with rfl | hx
            · exact hpass
            · exact h2 x hx


/-- A table whose mounts are all live and unlocked either is passed over in
full by `find_mount` or splits at the first mount whose path is a prefix. -/
theorem scan_split (s : VfsState) (q : List Char) :
    ∀ ps : List Nat, (∀ p ∈ ps, ∃ m, s.mount_at p = .ok m ∧ m.lock = false) →
      (∀ p ∈ ps, Passed s q p) ∨
      (∃ l1 p l2 m, ps = l1 ++ p :: l2 ∧ (∀ p' ∈ l1, Passed s q p') ∧
        s.mount_at p = .ok m ∧ m.lock = false ∧ m.path <+: q) := by
  intro ps
  induction ps with
  | nil => intro _; left; simp
  | cons p ps ih =>
    intro h
    obtain ⟨m, hm, hl⟩ := h p (List.mem_cons_self _ _)
    by_cases hp : m.path <+: q
    · right; exact ⟨[], p, ps, m, rfl, by simp, hm, hl, hp⟩
    · have hpass : Passed s q p := ⟨m, hm, hl, hp⟩
      rcases ih (fun x hx => h x (List.mem_cons_of_mem _ hx)) with h1 | ⟨l1, p0, l2, m0, h1, h2, h3⟩
      · left
        intro x hx
        rcases List.mem_cons.mp hx with rfl | hx
        · exact hpass
        · exact h1 x hx
      · right
        refine ⟨p :: l1, p0, l2, m0, by simp [h1], ?_, h3⟩
        intro x hx
        rcases List.mem_cons.mp hx with rfl | hx
        · exact hpass
        · exact h2 x hx

/-- The scan stops at the first match: were the table to hold `/` and then
`/mnt`, the query `/mnt/a` would be answered with the mount on `/` (pointer 0),
although the path of the mount on `/mnt` (pointer 1) is a longer prefix of the
query.  No sequence of calls builds this table (`nested_table_unreachable`). -/
theorem find_mount_not_longest :
    (table_paths nested_table).Nodup ∧
    "/mnt/a".toList.head? = some '/' ∧
    (find_mount nested_table "/mnt/a".toList .valid).toOption.map (fun r => r.1)
      = some (some (0, "mnt/a".toList)) ∧
    (nested_table.mount_at 0).toOption.map (fun m => m.path) = some "/".toList ∧
    (nested_table.mount_at 1).toOption.map (fun m => m.path) = some "/mnt".toList ∧
    "/mnt".toList <+: "/mnt/a".toList ∧
    "/".toList.length < "/mnt".toList.length := by
  refine ⟨by decide, by decide, by decide, by decide, by decide, by decide, by decide⟩


/-! ## The boot scenario, evaluated -/

/-- C2 (failing input): `fs_mount` puts a mount on `/mnt`; for the query
`/mnt/a` `find_mount` then stores `/a` in `*trimmed_path`, not `a`: the
character it skips after the mount path is a backslash, not the separator.
For the query `/mnt` itself the tail is empty. -/
theorem find_mount_tail_keeps_separator :
    fs_mount boot_env VfsState.empty "/mnt".toList "dumbfs".toList "initrd".toList Oracle.ok
      = .ok (.OK, mnt_mounted) ∧
    (find_mount mnt_mounted "/mnt/a".toList .valid).toOption.map (fun r => r.1)
      = some (some (0, "/a".toList)) ∧
    (find_mount mnt_mounted "/mnt".toList .valid).toOption.map (fun r => r.1)
      = some (some (0, [])) ∧
    (find_mount mnt_mounted "/mnt\\a".toList .valid).toOption.map (fun r => r.1)
      = some (some (0, "a".toList)) := by
  refine ⟨rfl, by decide, by decide, by decide⟩

/-- C3 (failing input): after `fs_mount("/", "dumbfs", "initrd")` twice from the
empty table, the second call having returned `ERR_ALREADY_MOUNTED`, the table
has one entry and there is no file handle, yet the `ref_count` fields of the
table sum to 2. -/
theorem ref_count_sum_after_second_mount :
    fs_mount boot_env VfsState.empty "/".toList "dumbfs".toList "initrd".toList Oracle.ok
      = .ok (.OK, root_mounted) ∧
    fs_mount boot_env root_mounted "/".toList "dumbfs".toList "initrd".toList Oracle.ok
      = .ok (.ERR_ALREADY_MOUNTED, root_dangling) ∧
    ref_count_sum root_dangling = 2 ∧
    live_handles root_dangling = 0 ∧
    live_mounts root_dangling = 1 ∧
    ref_count_sum root_dangling ≠ live_handles root_dangling + live_mounts root_dangling := by
  refine ⟨rfl, rfl, by decide, by decide, by decide, by decide⟩

/-- C4 (failing input): with `/` mounted and no file handle open,
`fs_unmount("/")` does not return: `find_mount` is called with a null
`trimmed_path` and stores through it as soon as a mount matches. -/
theorem fs_unmount_mount_point_faults :
    live_handles root_mounted = 0 ∧
    table_paths root_mounted = [some "/".toList] ∧
    fs_unmount boot_env root_mounted "/".toList Oracle.ok = .error .null_write := by
  refine ⟨by decide, by decide, rfl⟩

/-- C5 (failing input): `fs_mount` on `/` while `/` is mounted returns
`ERR_ALREADY_MOUNTED` and leaves the block of the existing mount freed, with
its mutex held and `ref_count` 2 instead of 1; the table still points to it. -/
theorem fs_mount_already_mounted_frees_mount :
    (root_mounted.mounts[0]?).map (fun b => (b.freed, b.obj.lock, b.obj.ref_count))
      = some (false, false, 1) ∧
    (∃ s', fs_mount boot_env root_mounted "/".toList "dumbfs".toList "initrd".toList Oracle.ok
        = .ok (.ERR_ALREADY_MOUNTED, s') ∧
      s'.mounts_vector = [0] ∧
      (s'.mounts[0]?).map (fun b => (b.freed, b.obj.lock, b.obj.ref_count))
        = some (true, true, 2) ∧
      s'.mount_at 0 = .error .use_after_free) := by
  refine ⟨rfl, root_dangling, rfl, rfl, rfl, rfl⟩

/-- C6 (failing input): with only `/` mounted, `fs_mount("/mnt", "dumbfs",
"initrd")` returns `ERR_ALREADY_MOUNTED` although no mount has the path `/mnt`,
`dumbfs` is registered and `initrd` can be opened. -/
theorem fs_mount_below_root_already_mounted :
    table_paths root_mounted = [some "/".toList] ∧
    resolve_path "/mnt".toList = some "/mnt".toList ∧
    find_fs boot_env "dumbfs".toList = some 0 ∧
    boot_env.bdev_open "initrd".toList = some 0 ∧
    (fs_mount boot_env root_mounted "/mnt".toList "dumbfs".toList "initrd".toList
        Oracle.ok).toOption.map (fun r => r.1) = some .ERR_ALREADY_MOUNTED := by
  refine ⟨by decide, by decide, by decide, by decide, by decide⟩

/-- C9 (failing input): with only `/` mounted, `fs_unmount("/no/such/dir")` does
not return `ERR_NOT_FOUND`: the lookup matches the mount on `/`, whose path is a
prefix of the argument, and the call ends in the store through the null
`trimmed_path`. -/
theorem fs_unmount_other_path_faults :
    table_paths root_mounted = [some "/".toList] ∧
    resolve_path "/no/such/dir".toList = some "/no/such/dir".toList ∧
    (find_mount root_mounted "/no/such/dir".toList .valid).toOption.map (fun r => r.1)
      = some (some (0, "no/such/dir".toList)) ∧
    fs_unmount boot_env root_mounted "/no/such/dir".toList Oracle.ok = .error .null_write := by
  refine ⟨by decide, by decide, by decide, rfl⟩


/-! ## Frames: what the calls leave unchanged -/

theorem frame_refl (s : VfsState) : Frame s s := ⟨rfl, Nat.le_refl _, fun _ _ => rfl⟩

theorem frame_trans (s s1 s2 : VfsState) (h1 : Frame s s1) (h2 : Frame s1 s2) :
    Frame s s2 := by
  obtain ⟨a1, b1, c1⟩ := h1
  obtain ⟨a2, b2, c2⟩ := h2
  refine ⟨by rw [a2, a1], Nat.le_trans b1 b2, ?_⟩
  intro p hp
  rw [c2 p (Nat.lt_of_lt_of_le hp b1), c1 p hp]

theorem frame_table_inv (s s' : VfsState) (h : Frame s s') (hi : TableInv s) : TableInv s' := by
  obtain ⟨a, b, c⟩ := h
  obtain ⟨hv, hn⟩ := hi
  have hpaths : table_paths s' = table_paths s := by
    unfold table_paths
    rw [a]
    apply List.map_congr_left
    intro p hp
    exact c p (hv p hp)
  refine ⟨?_, by rw [hpaths]; exact hn⟩
  intro p hp
  rw [a] at hp
  exact Nat.lt_of_lt_of_le (hv p hp) b

theorem mount_at_lt (s : VfsState) (p : Nat) (m : struct_fs_mount)
    (h : s.mount_at p = .ok m) : p < s.mounts.length := by
  rw [mount_at_eq_ok] at h
  exact (List.getElem?_eq_some.mp h).1

theorem path_of_mount_at (s : VfsState) (p : Nat) (m : struct_fs_mount)
    (h : s.mount_at p = .ok m) : path_of s p = some m.path := by
  rw [mount_at_eq_ok] at h
  simp [path_of, h]

theorem frame_set_mount (s : VfsState) (p : Nat) (m m' : struct_fs_mount)
    (h : s.mount_at p = .ok m) (hp : m'.path = m.path) : Frame s (s.set_mount p m') := by
  refine ⟨rfl, by simp [VfsState.set_mount], ?_⟩
  intro q hq
  by_cases hpq : p = q
  · subst hpq
    rw [path_of_mount_at s p m h]
    simp [path_of, VfsState.set_mount, hq, hp]
  · simp [path_of, VfsState.set_mount, List.getElem?_set_ne hpq]

theorem frame_kfree_mount (s : VfsState) (p : Nat) : Frame s (s.kfree_mount p) := by
  refine ⟨rfl, by simp [VfsState.kfree_mount], ?_⟩
  intro q _
  simp only [path_of, VfsState.kfree_mount, List.getElem?_modify]
  cases s.mounts[q]? with
  | none => rfl
  | some b => by_cases hpq : p = q <;> simp [hpq]

theorem frame_log (s : VfsState) (e : Event) : Frame s (s.log e) :=
  ⟨rfl, Nat.le_refl _, fun _ _ => rfl⟩

theorem frame_find_mount (s s1 : VfsState) (q : List Char) (tp : OutPtr)
    (r : Option (Nat × List Char)) (h : find_mount s q tp = .ok (r, s1)) : Frame s s1 := by
  rcases find_mount_loop_ok q tp _ s r s1 h with ⟨_, h2, _⟩ | ⟨l1, p, l2, m, _, _, _, hm, _, _, _, hs⟩
  · rw [h2]; exact frame_refl s
  · rw [hs]; exact frame_set_mount s p m _ hm rfl

/-- `fs_unmount` returns only without having found a mount, and then it leaves
the state as it was. -/
theorem fs_unmount_ok (env : Env) (s s' : VfsState) (path : List Char) (o : Oracle)
    (st : status_t) (h : fs_unmount env s path o = .ok (st, s')) :
    s' = s ∧ (st = .ERR_NO_MEMORY ∨ st = .ERR_NOT_FOUND) := by
  unfold fs_unmount at h
  cases hri : resolve_input o.tmp env.cwd path with
  | none =>
    simp only [hri, Except.ok.injEq, Prod.mk.injEq] at h
    exact ⟨h.2.symm, Or.inl h.1.symm⟩
  | some tmp0 =>
    cases hrp : resolve_path tmp0 with
    | none => simp [hri, hrp] at h
    | some tmp =>
      cases hfm : find_mount s tmp .null with
      | error f => simp [hri, hrp, hfm] at h
      | ok rs =>
        obtain ⟨r, s1⟩ := rs
        rcases find_mount_loop_ok tmp .null _ s r s1 hfm with ⟨h1, h2, _⟩ | ⟨_, _, _, _, hv, _⟩
        · subst h1
          simp only [hri, hrp, hfm, Except.ok.injEq, Prod.mk.injEq] at h
          exact ⟨by rw [← h.2, h2], Or.inr h.1.symm⟩
        · cases hv


/-! ## The cases of `mount` -/

theorem list_set_concat {α : Type} (l : List α) (a b : α) :
    (l ++ [a]).set l.length b = l ++ [b] := by
  induction l with
  | nil => rfl
  | cons x l ih => simp [ih]

theorem erase_concat_fresh (l : List Nat) (p : Nat) (h : p ∉ l) : (l ++ [p]).erase p = l := by
  rw [List.erase_append_right _ h]; simp

theorem mount_at_new (s : VfsState) (m : struct_fs_mount) :
    VfsState.mount_at (VfsState.vector_pushback
      { s with mounts := s.mounts ++ [{ obj := m, freed := false }] } s.mounts.length)
      s.mounts.length = .ok m := by
  rw [mount_at_eq_ok]
  simp [VfsState.vector_pushback]

/-- The outcome of `mount`: either a failure that leaves the table and the paths
as they were, or success with one block and one table entry added for the
canonical path, which no mount of the table prefixes. -/
theorem mount_cases (env : Env) (s s' : VfsState) (path device : List Char) (api : Nat)
    (o : Oracle) (st : status_t) (hv : ∀ p ∈ s.mounts_vector, p < s.mounts.length)
    (h : mount env s path device api o = .ok (st, s')) :
    (st ≠ .OK ∧ Frame s s') ∨
    (st = .OK ∧ ∃ tmp0 tmp bdev data,
      resolve_input o.tmp env.cwd path = some tmp0 ∧ resolve_path tmp0 = some tmp ∧
      (∀ p ∈ s.mounts_vector, Passed s tmp p) ∧
      s' = { s with
        mounts := s.mounts ++ [{ obj := { path := tmp, device := bdev, fs_data := data,
                                          api := api, ref_count := 1, lock := false },
                                 freed := false }],
        mounts_vector := s.mounts_vector ++ [s.mounts.length] }) := by
  unfold mount at h
  cases hri : resolve_input o.tmp env.cwd path with
  | none =>
    simp only [hri, Except.ok.injEq, Prod.mk.injEq] at h
    left; exact ⟨by rw [← h.1]; decide, by rw [← h.2]; exact frame_refl s⟩
  | some tmp0 =>
    cases hrp : resolve_path tmp0 with
    | none => simp [hri, hrp] at h
    | some tmp =>
      cases hfm : find_mount s tmp .valid with
      | error f => simp [hri, hrp, hfm] at h
      | ok rs =>
        obtain ⟨r, s1⟩ := rs
        have hframe1 := frame_find_mount s s1 tmp .valid r hfm
        rcases find_mount_loop_ok tmp .valid _ s r s1 hfm with
          ⟨h1, h2, h3⟩ | ⟨l1, p, l2, m, _, _, _, _, _, _, hr, _⟩
        · subst h1
          have h2' : s = s1 := h2.symm
          subst h2'
          simp only [hri, hrp, hfm] at h
          cases hbd : env.bdev_open device with
          | none =>
            simp only [hbd, Except.ok.injEq, Prod.mk.injEq] at h
            left; exact ⟨by rw [← h.1]; decide, by rw [← h.2]; exact frame_refl _⟩
          | some bdev =>
            simp only [hbd] at h
            cases hobj : o.obj with
            | false =>
              simp only [hobj, if_true, Except.ok.injEq, Prod.mk.injEq] at h
              left; exact ⟨by rw [← h.1]; decide, by rw [← h.2]; exact frame_log _ _⟩
            | true =>
              simp only [hobj, VfsState.kalloc_mount, Bool.true_eq_false, if_false] at h
              by_cases hpb : o.pushback = .OK
              · simp only [hpb, ne_eq, not_true_eq_false, if_false] at h
                cases hapi : env.api_at api with
                | error f => simp [hapi] at h
                | ok a =>
                  simp only [hapi] at h
                  have hfresh : s.mounts.length ∉ s.mounts_vector :=
                    fun hmem => Nat.lt_irrefl _ (hv _ hmem)
                  cases hmt : a.mount bdev with
                  | mk err data =>
                    cases err with
                    | OK =>
                      simp only [hmt] at h
                      rw [mount_at_new] at h
                      simp only [Except.ok.injEq, Prod.mk.injEq] at h
                      right
                      refine ⟨h.1.symm, tmp0, tmp, bdev, data, rfl, hrp, h3, ?_⟩
                      rw [← h.2]
                      simp [VfsState.set_mount, VfsState.vector_pushback, list_set_concat]
                    | _ =>
                      simp only [hmt, Except.ok.injEq, Prod.mk.injEq] at h
                      left
                      refine ⟨by rw [← h.1]; decide, ?_⟩
                      rw [← h.2]
                      refine frame_trans _ _ _ (frame_trans _ _ _ ?_ (frame_kfree_mount _ _))
                        (frame_log _ _)
                      refine ⟨?_, by simp [VfsState.vector_remove_value, VfsState.vector_pushback], ?_⟩
                      · simp only [VfsState.vector_remove_value, VfsState.vector_pushback]
                        exact erase_concat_fresh _ _ hfresh
                      · intro q hq
                        simp [path_of, VfsState.vector_remove_value, VfsState.vector_pushback,
                          List.getElem?_append_left hq]
              · simp only [ne_eq, hpb, not_false_eq_true, if_true, Except.ok.injEq,
                  Prod.mk.injEq] at h
                left
                refine ⟨by rw [← h.1]; exact hpb, ?_⟩
                rw [← h.2]
                refine frame_trans _ _ _ (frame_trans _ _ _ ?_ (frame_kfree_mount _ _)) (frame_log _ _)
                refine ⟨rfl, by simp, ?_⟩
                intro q hq
                simp [path_of, List.getElem?_append_left hq]
        · subst hr
          simp only [hri, hrp, hfm, Except.ok.injEq, Prod.mk.injEq] at h
          left
          refine ⟨by rw [← h.1]; decide, ?_⟩
          rw [← h.2]
          exact frame_trans _ _ _ hframe1 (frame_kfree_mount _ _)


/-! ## The paths of the mount table are pairwise distinct -/

theorem resolve_input_alloc (a : Bool) (cwd input t : List Char)
    (h : resolve_input a cwd input = some t) : resolve_input true cwd input = some t := by
  unfold resolve_input at h ⊢
  cases a <;> simp_all

theorem mount_at_append (s : VfsState) (blk : mount_block) (v : List Nat) (p : Nat)
    (m : struct_fs_mount) (h : s.mount_at p = .ok m) :
    VfsState.mount_at { s with mounts := s.mounts ++ [blk], mounts_vector := v } p = .ok m := by
  have hlt := mount_at_lt s p m h
  rw [mount_at_eq_ok] at h ⊢
  simp only
  rw [List.getElem?_append_left hlt]; exact h

theorem table_inv_push (s : VfsState) (tmp : List Char) (bdev : Nat) (data : Option Nat)
    (api : Nat) (hi : TableInv s) (hp : ∀ p ∈ s.mounts_vector, Passed s tmp p) :
    TableInv { s with
      mounts := s.mounts ++ [{ obj := { path := tmp, device := bdev, fs_data := data,
                                        api := api, ref_count := 1, lock := false },
                               freed := false }],
      mounts_vector := s.mounts_vector ++ [s.mounts.length] } := by
  obtain ⟨hv, hn⟩ := hi
  constructor
  · intro p hp'
    simp only [List.mem_append, List.mem_singleton, List.length_append, List.length_singleton] at hp' ⊢
    rcases hp' with hp' | rfl
    · exact Nat.lt_succ_of_lt (hv p hp')
    · exact Nat.lt_succ_self _
  · have hold : ∀ p ∈ s.mounts_vector,
        path_of { s with
          mounts := s.mounts ++ [{ obj := { path := tmp, device := bdev, fs_data := data,
                                            api := api, ref_count := 1, lock := false },
                                   freed := false }],
          mounts_vector := s.mounts_vector ++ [s.mounts.length] } p = path_of s p := by
      intro p hp'
      simp only [path_of]
      rw [List.getElem?_append_left (hv p hp')]
    have hnew : table_paths { s with
          mounts := s.mounts ++ [{ obj := { path := tmp, device := bdev, fs_data := data,
                                            api := api, ref_count := 1, lock := false },
                                   freed := false }],
          mounts_vector := s.mounts_vector ++ [s.mounts.length] }
        = table_paths s ++ [some tmp] := by
      simp only [table_paths, List.map_append, List.map_cons, List.map_nil]
      congr 1
      · exact List.map_congr_left hold
      · simp [path_of]
    rw [hnew]
    rw [List.nodup_append]
    refine ⟨hn, List.nodup_singleton _, ?_⟩
    intro a ha hb
    simp only [List.mem_singleton] at hb
    subst hb
    simp only [table_paths, List.mem_map] at ha
    obtain ⟨p, hpm, hpp⟩ := ha
    obtain ⟨m, hm, _, hnp⟩ := hp p hpm
    rw [path_of_mount_at s p m hm] at hpp
    injection hpp with hpp
    exact hnp (by rw [hpp])

theorem table_inv_empty : TableInv VfsState.empty := by
  constructor
  · intro p hp; simp [VfsState.empty] at hp
  · simp [table_paths, VfsState.empty]

theorem fs_mount_table_inv (env : Env) (s s' : VfsState) (path fs_name device : List Char)
    (o : Oracle) (st : status_t) (hi : TableInv s)
    (h : fs_mount env s path fs_name device o = .ok (st, s')) : TableInv s' := by
  unfold fs_mount at h
  cases hf : find_fs env fs_name with
  | none =>
    simp only [hf, Except.ok.injEq, Prod.mk.injEq] at h
    rw [← h.2]; exact hi
  | some hook =>
    simp only [hf] at h
    rcases mount_cases env s s' path device hook o st hi.1 h with
      ⟨_, hfr⟩ | ⟨_, tmp0, tmp, bdev, data, _, _, hp, hs⟩
    · exact frame_table_inv s s' hfr hi
    · rw [hs]; exact table_inv_push s tmp bdev data hook hi hp

theorem reachable_table_inv (env : Env) (s : VfsState) (h : MountReachable env s) :
    TableInv s := by
  induction h with
  | init => exact table_inv_empty
  | mount s s' path fs_name device o st _ hm ih =>
    exact fs_mount_table_inv env s s' path fs_name device o st ih hm
  | unmount s s' path o st _ hu ih =>
    rw [(fs_unmount_ok env s s' path o st hu).1]; exact ih

/-- `fs_mount` on a path whose canonical form is the path of a mount of the
table, all mounts being live and unlocked, returns `ERR_ALREADY_MOUNTED` and
leaves `mounts_vector` as it was. -/
theorem fs_mount_twice (env : Env) (s : VfsState) (path fs_name device tmp0 tmp : List Char)
    (o : Oracle) (hlive : ∀ p ∈ s.mounts_vector, ∃ m, s.mount_at p = .ok m ∧ m.lock = false)
    (hri : resolve_input true env.cwd path = some tmp0) (hrp : resolve_path tmp0 = some tmp)
    (hmem : some tmp ∈ table_paths s) (hfs : (find_fs env fs_name).isSome = true)
    (ho : o.tmp = true) :
    ∃ s'', fs_mount env s path fs_name device o = .ok (.ERR_ALREADY_MOUNTED, s'') ∧
      s''.mounts_vector = s.mounts_vector := by
  obtain ⟨hook, hf⟩ := Option.isSome_iff_exists.mp hfs
  have hri' : resolve_input o.tmp env.cwd path = some tmp0 := by rw [ho]; exact hri
  rcases scan_split s tmp s.mounts_vector hlive with hmiss | ⟨l1, p, l2, m, hsplit, hl1, hm, hl, hp⟩
  · exfalso
    simp only [table_paths, List.mem_map] at hmem
    obtain ⟨p, hpm, hpp⟩ := hmem
    obtain ⟨m, hm, _, hnp⟩ := hmiss p hpm
    rw [path_of_mount_at s p m hm] at hpp
    injection hpp with hpp
    exact hnp (by rw [hpp])
  · have hfm : find_mount s tmp .valid
        = .ok (some (p, trimmed tmp (strlen m.path)),
            s.set_mount p { m with lock := true, ref_count := m.ref_count + 1 }) := by
      unfold find_mount; rw [hsplit]
      exact find_mount_loop_hit tmp s l1 l2 p m hl1 hm hl hp
    refine ⟨(s.set_mount p { m with lock := true, ref_count := m.ref_count + 1 }).kfree_mount p,
      ?_, rfl⟩
    simp [fs_mount, hf, mount, hri', hrp, hfm]

/-- In every state reached from the empty mount table by calls of `fs_mount` and
`fs_unmount`, every entry of the table points to a heap block and no two of
these blocks, freed or not, hold the same path; and when a call of `fs_mount`
has returned `OK`, the next call on the same path (whatever registered backend
and device it names) returns `ERR_ALREADY_MOUNTED` and leaves the table with the
same entries. -/
theorem mount_table_paths_distinct (env : Env) (s : VfsState) (h : MountReachable env s) :
    (table_paths s).Nodup ∧
    (∀ p ∈ s.mounts_vector, (path_of s p).isSome = true) ∧
    (∀ (path fs_name device : List Char) (o : Oracle) (s' : VfsState),
      fs_mount env s path fs_name device o = .ok (.OK, s') →
      ∀ (fs_name' device' : List Char) (o' : Oracle),
        (find_fs env fs_name').isSome = true → o'.tmp = true →
        ∃ s'', fs_mount env s' path fs_name' device' o' = .ok (.ERR_ALREADY_MOUNTED, s'') ∧
          s''.mounts_vector = s'.mounts_vector) := by
  have hi := reachable_table_inv env s h
  refine ⟨hi.2, ?_, ?_⟩
  · intro p hp
    have hlt := hi.1 p hp
    simp [path_of, List.getElem?_eq_getElem hlt]
  · intro path fs_name device o s' hm fs_name' device' o' hfs ho
    unfold fs_mount at hm
    cases hf : find_fs env fs_name with
    | none => simp [hf] at hm
    | some hook =>
      simp only [hf] at hm
      rcases mount_cases env s s' path device hook o .OK hi.1 hm with
        ⟨hne, _⟩ | ⟨_, tmp0, tmp, bdev, data, hri, hrp, hp, hs⟩
      · exact absurd rfl hne
      · have hri' := resolve_input_alloc o.tmp env.cwd path tmp0 hri
        have hlive : ∀ p ∈ s'.mounts_vector, ∃ m, s'.mount_at p = .ok m ∧ m.lock = false := by
          intro p hp'
          rw [hs] at hp' ⊢
          simp only [List.mem_append, List.mem_singleton] at hp'
          rcases hp' with hp' | rfl
          · obtain ⟨m, hm', hl, _⟩ := hp p hp'
            exact ⟨m, mount_at_append s _ _ p m hm', hl⟩
          · refine ⟨{ path := tmp, device := bdev, fs_data := data, api := hook,
                      ref_count := 1, lock := false }, ?_, rfl⟩
            rw [mount_at_eq_ok]; simp
        have hmem : some tmp ∈ table_paths s' := by
          rw [hs]
          simp only [table_paths, List.map_append, List.mem_append, List.map_cons, List.map_nil,
            List.mem_singleton]
          right
          simp [path_of]
        exact fs_mount_twice env s' path fs_name' device' tmp0 tmp o' hlive hri' hrp hmem hfs ho

/-! ## The order of the paths in the mount table -/

theorem frame_path_ordered (s s' : VfsState) (h : Frame s s')
    (hv : ∀ p ∈ s.mounts_vector, p < s.mounts.length) (ho : path_ordered s) :
    path_ordered s' := by
  obtain ⟨a, _, c⟩ := h
  intro i j pi pj x y hij hi hj hx hy
  rw [a] at hi hj
  rw [c pi (hv pi (List.getElem?_mem hi))] at hx
  rw [c pj (hv pj (List.getElem?_mem hj))] at hy
  exact ho i j pi pj x y hij hi hj hx hy

theorem path_ordered_push (s : VfsState) (tmp : List Char) (bdev : Nat) (data : Option Nat)
    (api : Nat) (hv : ∀ p ∈ s.mounts_vector, p < s.mounts.length) (ho : path_ordered s)
    (hp : ∀ p ∈ s.mounts_vector, Passed s tmp p) :
    path_ordered { s with
      mounts := s.mounts ++ [{ obj := { path := tmp, device := bdev, fs_data := data,
                                        api := api, ref_count := 1, lock := false },
                               freed := false }],
      mounts_vector := s.mounts_vector ++ [s.mounts.length] } := by
  intro i j pi pj x y hij hi hj hx hy
  simp only at hi hj
  have hjlt : j < (s.mounts_vector ++ [s.mounts.length]).length := by
    rcases Nat.lt_or_ge j (s.mounts_vector ++ [s.mounts.length]).length with h | h
    · exact h
    · rw [List.getElem?_eq_none h] at hj; cases hj
  simp only [List.length_append, List.length_singleton] at hjlt
  have hilt : i < s.mounts_vector.length := by omega
  rw [List.getElem?_append_left hilt] at hi
  have hpi := hv pi (List.getElem?_mem hi)
  have hx' : path_of s pi = some x := by
    simp only [path_of] at hx ⊢
    rw [List.getElem?_append_left hpi] at hx
    exact hx
  rcases Nat.lt_or_ge j s.mounts_vector.length with hjl | hjl
  · rw [List.getElem?_append_left hjl] at hj
    have hpj := hv pj (List.getElem?_mem hj)
    have hy' : path_of s pj = some y := by
      simp only [path_of] at hy ⊢
      rw [List.getElem?_append_left hpj] at hy
      exact hy
    exact ho i j pi pj x y hij hi hj hx' hy'
  · have hje : j = s.mounts_vector.length := by omega
    subst hje
    rw [List.getElem?_append_right (Nat.le_refl _)] at hj
    simp only [Nat.sub_self, List.getElem?_cons_zero, Option.some.injEq] at hj
    subst hj
    simp only [path_of] at hy
    rw [List.getElem?_append_right (Nat.le_refl _)] at hy
    simp only [Nat.sub_self, List.getElem?_cons_zero, Option.map_some',
      Option.some.injEq] at hy
    subst hy
    obtain ⟨m, hm, _, hnp⟩ := hp pi (List.getElem?_mem hi)
    rw [path_of_mount_at s pi m hm] at hx'
    injection hx' with hx'
    rw [← hx']
    exact hnp

theorem fs_mount_path_ordered (env : Env) (s s' : VfsState) (path fs_name device : List Char)
    (o : Oracle) (st : status_t) (hi : TableInv s) (ho : path_ordered s)
    (h : fs_mount env s path fs_name device o = .ok (st, s')) : path_ordered s' := by
  unfold fs_mount at h
  cases hf : find_fs env fs_name with
  | none =>
    simp only [hf, Except.ok.injEq, Prod.mk.injEq] at h
    rw [← h.2]; exact ho
  | some hook =>
    simp only [hf] at h
    rcases mount_cases env s s' path device hook o st hi.1 h with
      ⟨_, hfr⟩ | ⟨_, tmp0, tmp, bdev, data, _, _, hp, hs⟩
    · exact frame_path_ordered s s' hfr hi.1 ho
    · rw [hs]; exact path_ordered_push s tmp bdev data hook hi.1 ho hp

/-- In every state reached from the empty table by calls of `fs_mount` and
`fs_unmount`, the paths of the table are in the order in which `mount` accepts
them: none is a prefix of one that comes later. -/
theorem reachable_path_ordered (env : Env) (s : VfsState) (h : MountReachable env s) :
    path_ordered s := by
  induction h with
  | init =>
    intro i j pi pj x y _ hi
    simp [VfsState.empty] at hi
  | mount s s' path fs_name device o st hprev hm ih =>
    exact fs_mount_path_ordered env s s' path fs_name device o st
      (reachable_table_inv env s hprev) ih hm
  | unmount s s' path o st _ hu ih =>
    rw [(fs_unmount_ok env s s' path o st hu).1]; exact ih

/-- The table holding `/` and then `/mnt` is not one that calls of `fs_mount`
and `fs_unmount` build: `mount` refuses a path that a mount of the table
prefixes. -/
theorem nested_table_unreachable (env : Env) : ¬ MountReachable env nested_table := by
  intro h
  exact reachable_path_ordered env nested_table h 0 1 0 1 "/".toList "/mnt".toList
    (by decide) rfl rfl rfl rfl (by decide)

/-- In the table built by mounting `/mnt` and then `/`, the query `/mnt/a` is
answered with the mount on `/mnt` and the query `/etc` with the mount on `/`. -/
theorem find_mount_mnt_then_root :
    (find_mount mnt_then_root "/mnt/a".toList .valid).toOption.map (fun r => r.1)
      = some (some (0, "/a".toList)) ∧
    (find_mount mnt_then_root "/etc".toList .valid).toOption.map (fun r => r.1)
      = some (some (1, "etc".toList)) := by
  refine ⟨by decide, by decide⟩

/-! ## A mount attempt after a refused one -/

/-- C7 (failing input): `fs_mount("/", "dumbfs", "initrd")` from the empty table
returns `OK`; a second call on `/`, or a call on `/x`, returns
`ERR_ALREADY_MOUNTED` and leaves a state, reached by calls that returned, whose
table still has its one entry while the block it points to has been freed;
there a further `fs_mount` on `/`, a path that is in the table, does not return
`ERR_ALREADY_MOUNTED`: the lookup dereferences the freed mount. -/
theorem fs_mount_after_refusal_use_after_free :
    fs_mount boot_env VfsState.empty "/".toList "dumbfs".toList "initrd".toList Oracle.ok
      = .ok (.OK, root_mounted) ∧
    fs_mount boot_env root_mounted "/x".toList "dumbfs".toList "initrd".toList Oracle.ok
      = .ok (.ERR_ALREADY_MOUNTED, root_dangling) ∧
    MountReachable boot_env root_dangling ∧
    root_dangling.mounts_vector = [0] ∧
    (root_dangling.mounts[0]?).map (fun b => (b.obj.path, b.freed))
      = some ("/".toList, true) ∧
    canonicalise boot_env.cwd "/".toList = some "/".toList ∧
    fs_mount boot_env root_dangling "/".toList "dumbfs".toList "initrd".toList Oracle.ok
      = .error .use_after_free :=
  ⟨rfl, rfl,
   MountReachable.mount root_mounted root_dangling "/".toList "dumbfs".toList "initrd".toList
     Oracle.ok .ERR_ALREADY_MOUNTED
     (MountReachable.mount VfsState.empty root_mounted "/".toList "dumbfs".toList
       "initrd".toList Oracle.ok .OK MountReachable.init rfl)
     rfl,
   rfl, rfl, by decide, rfl⟩


/-! ## Opening and closing a file -/

theorem mount_at_set_mount (s : VfsState) (p : Nat) (a : struct_fs_mount)
    (h : p < s.mounts.length) : (s.set_mount p a).mount_at p = .ok a := by
  rw [mount_at_eq_ok]
  simp [VfsState.set_mount, h]

theorem set_mount_set_mount (s : VfsState) (p : Nat) (a b : struct_fs_mount) :
    (s.set_mount p a).set_mount p b = s.set_mount p b := by
  simp [VfsState.set_mount]

/-- Releasing the reference taken by the lookup restores the state, as long as
the mount was referenced before. -/
theorem put_mount_after_find (s : VfsState) (p : Nat) (m : struct_fs_mount)
    (hm : s.mount_at p = .ok m) (hl : m.lock = false) (hrc : 0 < m.ref_count) :
    put_mount (s.set_mount p { m with lock := true, ref_count := m.ref_count + 1 }) p
      = .ok s := by
  have hlt := mount_at_lt s p m hm
  unfold put_mount
  rw [mount_at_set_mount s p _ hlt]
  have hne : ¬ m.ref_count = 0 := Nat.pos_iff_ne_zero.mp hrc
  simp only [Nat.add_sub_cancel, hne, if_false, set_mount_set_mount]
  have : ({ path := m.path, device := m.device, fs_data := m.fs_data, api := m.api,
            ref_count := m.ref_count, lock := false } : struct_fs_mount) = m := by
    cases m; simp_all
  rw [this, set_mount_self s p m hm]

/-- C8: in a state whose mounts all have a positive `ref_count`, a call of
`fs_open` that fails leaves the heap of the mounts, the table and the handles
as they were; a call that succeeds yields a handle bound to a mount of the
table, raises the `ref_count` of that mount by one and changes no other block;
and `fs_close` on that handle returns (with whatever status the backend gives)
and puts the heap of the mounts and the table back as they were before the
open. -/
theorem fs_open_close_restores_ref_count (env : Env) (s : VfsState) (path : List Char)
    (o : Oracle) (st : status_t) (h : Option Nat) (s' : VfsState)
    (hrc : ∀ p ∈ s.mounts_vector, ∀ m, s.mount_at p = .ok m → 0 < m.ref_count)
    (hopen : fs_open env s path o = .ok (st, h, s')) :
    (st ≠ .OK → h = none ∧ s'.mounts = s.mounts ∧ s'.mounts_vector = s.mounts_vector ∧
      s'.handles = s.handles) ∧
    (st = .OK → ∃ fh p m, h = some fh ∧ p ∈ s.mounts_vector ∧ s.mount_at p = .ok m ∧
      (s'.handle_at fh).toOption.map (fun x => x.mount) = some p ∧
      s'.mount_at p = .ok { m with ref_count := m.ref_count + 1 } ∧
      (∀ p', p' ≠ p → s'.mounts[p']? = s.mounts[p']?) ∧
      s'.mounts_vector = s.mounts_vector ∧
      ∃ st' s'', fs_close env s' fh = .ok (st', s'') ∧ s''.mounts = s.mounts ∧
        s''.mounts_vector = s.mounts_vector) := by
  unfold fs_open at hopen
  cases hri : resolve_input o.tmp env.cwd path with
  | none =>
    simp only [hri, Except.ok.injEq, Prod.mk.injEq] at hopen
    obtain ⟨h1, h2, h3⟩ := hopen
    subst h1 h2 h3
    exact ⟨fun _ => ⟨rfl, rfl, rfl, rfl⟩, fun hh => by cases hh⟩
  | some tmp0 =>
    cases hrp : resolve_path tmp0 with
    | none => simp [hri, hrp] at hopen
    | some tmp =>
      cases hfm : find_mount s tmp .valid with
      | error f => simp [hri, hrp, hfm] at hopen
      | ok rs =>
        obtain ⟨r, s1⟩ := rs
        rcases find_mount_loop_ok tmp .valid _ s r s1 hfm with
          ⟨h1, h2, _⟩ | ⟨l1, p, l2, m, _, hsplit, _, hm, hl, _, hr, hs1⟩
        · subst h1
          simp only [hri, hrp, hfm, Except.ok.injEq, Prod.mk.injEq] at hopen
          obtain ⟨e1, e2, e3⟩ := hopen
          subst e1 e2 e3
          exact ⟨fun _ => ⟨rfl, by rw [h2], by rw [h2], by rw [h2]⟩, fun hh => by cases hh⟩
        · subst hr
          have hpmem : p ∈ s.mounts_vector := by
            unfold find_mount at hfm
            rw [hsplit]; simp
          have hpos := hrc p hpmem m hm
          have hlt := mount_at_lt s p m hm
          have hput := put_mount_after_find s p m hm hl hpos
          rw [← hs1] at hput
          have hat1 : s1.mount_at p
              = .ok { m with lock := true, ref_count := m.ref_count + 1 } := by
            rw [hs1]; exact mount_at_set_mount s p _ hlt
          simp only [hri, hrp, hfm] at hopen
          cases hobj : o.obj with
          | false =>
            simp only [hobj, if_true, hput, Except.ok.injEq, Prod.mk.injEq] at hopen
            obtain ⟨e1, e2, e3⟩ := hopen
            subst e1 e2 e3
            exact ⟨fun _ => ⟨rfl, rfl, rfl, rfl⟩, fun hh => by cases hh⟩
          | true =>
            simp only [hobj, Bool.true_eq_false, if_false, hat1] at hopen
            cases hapi : env.api_at m.api with
            | error f => simp [hapi] at hopen
            | ok a =>
              simp only [hapi] at hopen
              cases hres : a.open_ { m with lock := true, ref_count := m.ref_count + 1 }
                  (trimmed tmp (strlen m.path)) with
              | mk err rest =>
                obtain ⟨type, file_data⟩ := rest
                cases err with
                | OK =>
                  simp only [hres, Except.ok.injEq, Prod.mk.injEq] at hopen
                  obtain ⟨e1, e2, e3⟩ := hopen
                  subst e1 e2
                  refine ⟨fun hh => absurd rfl hh, fun _ => ?_⟩
                  have hmrec : struct_fs_mount.mk m.path m.device m.fs_data m.api
                      (m.ref_count + 1) false = { m with ref_count := m.ref_count + 1 } := by
                    cases m; simp_all
                  have hs' : s' = { s.set_mount p { m with ref_count := m.ref_count + 1 } with
                                    handles := s.handles ++ [handle_block.mk
                                      (file_handle.mk p type file_data) false] } := by
                    rw [← e3, hs1]
                    simp [VfsState.set_mount, hmrec]
                  have hat' : s'.mount_at p = .ok { m with ref_count := m.ref_count + 1 } := by
                    rw [hs', mount_at_eq_ok]
                    simp [VfsState.set_mount, hlt]
                  have hh' : s'.handle_at s1.handles.length
                      = .ok { mount := p, type := type, file_data := file_data } := by
                    rw [hs', hs1]
                    simp [VfsState.handle_at, VfsState.set_mount]
                  refine ⟨s1.handles.length, p, m, rfl, hpmem, hm, by rw [hh']; rfl, hat', ?_,
                    by rw [hs']; rfl, ?_⟩
                  · intro p' hp'
                    rw [hs']
                    simp [VfsState.set_mount, List.getElem?_set_ne (Ne.symm hp')]
                  · have hne : ¬ m.ref_count = 0 := Nat.pos_iff_ne_zero.mp hpos
                    have hput' : put_mount s' p = .ok { s with
                        handles := s.handles ++ [handle_block.mk
                          (file_handle.mk p type file_data) false] } := by
                      unfold put_mount
                      rw [hat']
                      simp only [Nat.add_sub_cancel, hne, if_false]
                      rw [hs']
                      have : struct_fs_mount.mk m.path m.device m.fs_data m.api
                          m.ref_count false = m := by
                        cases m; simp_all
                      simp only [this]
                      have hself := set_mount_self s p m hm
                      simp only [VfsState.set_mount, List.set_set] at hself ⊢
                      rw [VfsState.mk.injEq] at hself
                      simp [hself.1]
                    refine ⟨a.close { mount := p, type := type, file_data := file_data },
                      VfsState.kfree_handle { s with
                        handles := s.handles ++ [handle_block.mk
                          (file_handle.mk p type file_data) false] } s1.handles.length, ?_,
                      ?_, ?_⟩
                    · unfold fs_close
                      simp only [hh', hat', hapi, hput']
                    · rfl
                    · rfl
                | _ =>
                  simp only [hres, hput, Except.ok.injEq, Prod.mk.injEq] at hopen
                  obtain ⟨e1, e2, e3⟩ := hopen
                  subst e1 e2 e3
                  exact ⟨fun _ => ⟨rfl, rfl, rfl, rfl⟩, fun hh => by cases hh⟩


/-- With `/` mounted, `fs_open("/a")` then `fs_close` puts the counter of the
mount back to 1. -/
theorem fs_open_close_restores_ref_count_witness :
    (∀ p ∈ root_mounted.mounts_vector, ∀ m, root_mounted.mount_at p = .ok m →
      0 < m.ref_count) ∧
    fs_open boot_env root_mounted "/a".toList Oracle.ok = .ok (.OK, some 0, root_opened) ∧
    ∃ fh p m, some 0 = some fh ∧ p ∈ root_mounted.mounts_vector ∧
      root_mounted.mount_at p = .ok m ∧
      (root_opened.handle_at fh).toOption.map (fun x => x.mount) = some p ∧
      root_opened.mount_at p = .ok { m with ref_count := m.ref_count + 1 } ∧
      (∀ p', p' ≠ p → root_opened.mounts[p']? = root_mounted.mounts[p']?) ∧
      root_opened.mounts_vector = root_mounted.mounts_vector ∧
      ∃ st' s'', fs_close boot_env root_opened fh = .ok (st', s'') ∧
        s''.mounts = root_mounted.mounts ∧ s''.mounts_vector = root_mounted.mounts_vector := by
  have hrc : ∀ p ∈ root_mounted.mounts_vector, ∀ m, root_mounted.mount_at p = .ok m →
      0 < m.ref_count := by
    intro p hp m hm
    have hp0 : p = 0 := by simpa [root_mounted] using hp
    subst hp0
    have h0 : root_mounted.mount_at 0
        = .ok (struct_fs_mount.mk "/".toList 0 (some 0) 0 1 false) := rfl
    rw [h0] at hm
    injection hm with hm
    rw [← hm]; decide
  exact ⟨hrc, rfl,
    (fs_open_close_restores_ref_count boot_env root_mounted "/a".toList Oracle.ok .OK (some 0)
      root_opened hrc rfl).2 rfl⟩


/-! ## The buffer and its abstract view -/

theorem peek_of_drop (l rest : List Char) (n : Nat) (h : l.drop n = rest) :
    peek l n = rest.headD NUL := by
  subst h
  simp [peek, List.head?_drop]

theorem lt_of_peek_ne (l : List Char) (n : Nat) (h : peek l n ≠ NUL) : n < l.length := by
  by_contra hn
  exact h (by simp [peek, List.getElem?_eq_none (Nat.le_of_not_lt hn)])

theorem peek_of_lt (l : List Char) (n : Nat) (h : n < l.length) : peek l n = l[n] := by
  simp [peek, List.getElem?_eq_getElem h]

theorem poke_of_lt (l : List Char) (n : Nat) (c : Char) (h : n < l.length) :
    poke l n c = l.set n c := by
  simp [poke, h]

theorem take_succ_set (l : List Char) (n : Nat) (c : Char) (h : n < l.length) :
    (l.set n c).take (n + 1) = l.take n ++ [c] := by
  have hset : l.set n c = l.take n ++ c :: l.drop (n + 1) := by
    simp [List.set_eq_take_append_cons_drop, h]
  have hl : (l.take n).length = n := List.length_take_of_le (Nat.le_of_lt h)
  rw [hset, List.take_append_eq_append_take, hl]
  simp [List.take_of_length_le (Nat.le_of_eq hl)]

theorem drop_succ_set (l : List Char) (n m : Nat) (c : Char) (h : n ≤ m) :
    (l.set n c).drop (m + 1) = (l.drop m).tail := by
  rw [List.drop_set_of_lt c l (Nat.lt_succ_of_le h), List.tail_drop]

theorem take_succ_of_lt (l : List Char) (n : Nat) (h : n < l.length) :
    l.take (n + 1) = l.take n ++ [l[n]] := by
  rw [List.take_succ]; simp [List.getElem?_eq_getElem h]

/-- The inner loop of the `..` case stops behind the last separator of the
output that is left. -/
theorem walk_backward_take (l : List Char) :
    ∀ n, n ≤ l.length →
      walk_backward l n ≤ n ∧
      l.take (walk_backward l n)
        = (((l.take n).reverse).dropWhile (fun x => x != '/')).reverse := by
  intro n
  induction n with
  | zero => intro _; simp [walk_backward]
  | succ n ih =>
    intro hn
    have hlt : n < l.length := hn
    obtain ⟨ih1, ih2⟩ := ih (Nat.le_of_lt hlt)
    rw [take_succ_of_lt l n hlt]
    simp only [walk_backward, peek_of_lt l n hlt, List.reverse_append, List.reverse_cons,
      List.reverse_nil, List.nil_append, List.singleton_append]
    by_cases hc : l[n] = '/'
    · simp [hc, take_succ_of_lt l n hlt]
    · have hc' : (l[n] != '/') = true := by simp [hc]
      simp only [hc, if_false]
      have hdw : List.dropWhile (fun x => x != '/') (l[n] :: (List.take n l).reverse)
          = List.dropWhile (fun x => x != '/') (List.take n l).reverse := by
        simp [List.dropWhile_cons, hc']
      rw [hdw]
      exact ⟨Nat.le_succ_of_le ih1, ih2⟩


theorem head?_ne_nul_lt (l : List Char) (n : Nat) (c : Char) (hc : c ≠ NUL)
    (h : (l.drop n).headD NUL = c) : n < l.length := by
  apply lt_of_peek_ne
  rw [peek_of_drop l _ n rfl, h]; exact hc

theorem slash_ne_nul : '/' ≠ NUL := by decide
theorem dot_ne_nul : '.' ≠ NUL := by decide

/-- One iteration of the loop on the buffer is one iteration of the abstract
automaton. -/
theorem sim_step (c : Cursor) (a : Abs) (h : Sim c a)
    (hsep : a.state = .SEPARATOR → a.rest.head? = some '/') :
    Sim (resolve_step c) (abs_step a) := by
  obtain ⟨path, outpos, pos, done, state⟩ := c
  obtain ⟨st, rout, rest, adone⟩ := a
  obtain ⟨hs, hd, hlen, htake, hdrop, hsl⟩ := h
  simp only at hs hd hlen htake hdrop hsl hsep
  subst hs hd
  have hpeek : peek path pos = rest.headD NUL := peek_of_drop path rest pos hdrop
  have hlen' : outpos ≤ path.length := by
    have := congrArg List.length htake
    simp at this
    omega
  cases state
  case INITIAL =>
    simp only [resolve_step, abs_step, hpeek]
    split
    · exact ⟨rfl, rfl, hlen, htake, hdrop, hsl⟩
    · split
      · exact ⟨rfl, rfl, hlen, htake, hdrop, hsl⟩
      · exact ⟨rfl, rfl, hlen, htake, hdrop, hsl⟩
  case FIELD_START =>
    simp only [resolve_step, abs_step, hpeek]
    split
    · exact ⟨rfl, rfl, hlen, htake, hdrop, hsl⟩
    · split
      · exact ⟨rfl, rfl, hlen, htake, hdrop, hsl⟩
      · exact ⟨rfl, rfl, hlen, htake, hdrop, hsl⟩
  case IN_FIELD =>
    simp only [resolve_step, abs_step, hpeek]
    split
    · exact ⟨rfl, rfl, hlen, htake, hdrop, hsl⟩
    · split
      · exact ⟨rfl, rfl, hlen, htake, hdrop, hsl⟩
      · rename_i h1 h2
        have hpos : pos < path.length := by
          apply lt_of_peek_ne; rw [hpeek]; exact h2
        simp only [slack, Nat.add_zero] at hsl
        have hout : outpos < path.length := Nat.lt_of_le_of_lt hsl hpos
        refine ⟨rfl, rfl, by simp [hlen], ?_, ?_, by simp [slack]; omega⟩
        · simp only [poke_of_lt _ _ _ hout, take_succ_set _ _ _ hout, htake,
            List.reverse_cons]
        · simp only [poke_of_lt _ _ _ hout]
          rw [drop_succ_set _ _ _ _ hsl, hdrop]
  case SEPARATOR =>
    simp only [resolve_step, abs_step]
    have hhead := hsep rfl
    have hpos : pos < path.length := by
      apply lt_of_peek_ne; rw [hpeek]
      simp [List.headD_eq_head?_getD, hhead]; decide
    simp only [slack, Nat.add_zero] at hsl
    have hout : outpos < path.length := Nat.lt_of_le_of_lt hsl hpos
    refine ⟨rfl, rfl, by simp [hlen], ?_, ?_, by simp [slack]; omega⟩
    · simp only [poke_of_lt _ _ _ hout, take_succ_set _ _ _ hout, htake, List.reverse_cons]
    · simp only [poke_of_lt _ _ _ hout]
      rw [drop_succ_set _ _ _ _ hsl, hdrop]
  case SEEN_SEPARATOR =>
    simp only [resolve_step, abs_step, hpeek]
    simp only [slack, Nat.add_zero] at hsl
    split
    · refine ⟨rfl, rfl, hlen, htake, ?_, by simp [slack]; omega⟩
      simp only; rw [← List.tail_drop, hdrop]
    · split
      · exact ⟨rfl, rfl, hlen, htake, hdrop, hsl⟩
      · exact ⟨rfl, rfl, hlen, htake, hdrop, hsl⟩
  case DOT =>
    simp only [resolve_step, abs_step]
    simp only [slack, Nat.add_zero] at hsl
    refine ⟨rfl, rfl, hlen, htake, ?_, by simp [slack]; omega⟩
    simp only; rw [← List.tail_drop, hdrop]
  case SEEN_DOT =>
    simp only [resolve_step, abs_step, hpeek]
    simp only [slack] at hsl
    split
    · exact ⟨rfl, rfl, hlen, htake, hdrop, hsl⟩
    · split
      · refine ⟨rfl, rfl, hlen, htake, ?_, by simp [slack]; omega⟩
        simp only; rw [← List.tail_drop, hdrop]
      · split
        · exact ⟨rfl, rfl, hlen, htake, hdrop, hsl⟩
        · rename_i h1 h2 h3
          have hpos : pos < path.length := by
            apply lt_of_peek_ne; rw [hpeek]; exact h3
          have hout : outpos < path.length := by omega
          refine ⟨rfl, rfl, by simp [hlen], ?_, ?_, by simp [slack]; omega⟩
          · simp only [poke_of_lt _ _ _ hout, take_succ_set _ _ _ hout, htake,
              List.reverse_cons]
          · simp only [poke_of_lt _ _ _ hout]
            rw [List.drop_set_of_lt _ _ (by omega), hdrop]
  case DOTDOT =>
    simp only [resolve_step, abs_step]
    simp only [slack] at hsl
    refine ⟨rfl, rfl, hlen, htake, ?_, by simp [slack]; omega⟩
    simp only; rw [← List.tail_drop, hdrop]
  case SEEN_DOTDOT =>
    simp only [resolve_step, abs_step, hpeek]
    simp only [slack] at hsl
    split
    · have hk : outpos - (if outpos > 0 then 1 else 0) = outpos - 1 := by
        split <;> omega
      have htk : path.take (outpos - 1) = rout.tail.reverse := by
        cases rout with
        | nil =>
          simp only [List.length_nil] at hlen
          subst hlen; simp
        | cons x r =>
          simp only [List.length_cons] at hlen
          subst hlen
          simp only [Nat.add_sub_cancel, List.tail_cons]
          have h2 := congrArg (List.take r.length) htake
          rw [List.take_take, Nat.min_eq_left (Nat.le_succ _)] at h2
          rw [h2]
          simp [List.take_append_of_le_length]
      have hkle : outpos - 1 ≤ path.length := by omega
      obtain ⟨hw1, hw2⟩ := walk_backward_take path (outpos - 1) hkle
      rw [htk, List.reverse_reverse] at hw2
      have hwlen : walk_backward path (outpos - 1)
          = (rout.tail.dropWhile (fun x => x != '/')).length := by
        have := congrArg List.length hw2
        rw [List.length_take, List.length_reverse] at this
        omega
      refine ⟨rfl, rfl, ?_, ?_, ?_, ?_⟩
      · simp only [hk]; exact hwlen
      · simp only [hk]; exact hw2
      · simp only; rw [← List.tail_drop, hdrop]
      · simp only [hk, slack]; omega
    · rename_i h1
      have h3 : rest.headD NUL ≠ NUL := fun hh => h1 (Or.inr hh)
      have hpos : pos < path.length := by
        apply lt_of_peek_ne; rw [hpeek]; exact h3
      have hout : outpos + 1 < path.length := by omega
      have hout0 : outpos < path.length := by omega
      refine ⟨rfl, rfl, by simp [hlen], ?_, ?_, by simp [slack]; omega⟩
      · have hout1 : outpos + 1 < (path.set outpos '.').length := by simpa using hout
        simp only [poke_of_lt _ _ _ hout0, poke_of_lt _ _ _ hout1,
          take_succ_set _ _ _ hout1]
        rw [take_succ_set _ _ _ hout0, htake]
        simp
      · have hout1 : outpos + 1 < (path.set outpos '.').length := by simpa using hout
        simp only [poke_of_lt _ _ _ hout0, poke_of_lt _ _ _ hout1]
        rw [List.drop_set_of_lt _ _ (by omega), List.drop_set_of_lt _ _ (by omega), hdrop]


/-! ## The invariant of the abstract automaton -/

theorem head?_of_headD (rest : List Char) (c : Char) (h : rest.headD NUL = c) (hc : c ≠ NUL) :
    rest.head? = some c := by
  cases rest with
  | nil => simp at h; exact absurd h.symm hc
  | cons x t => simp at h; simp [h]

theorem cons_of_headD (rest : List Char) (h : rest.headD NUL ≠ NUL) :
    rest = rest.headD NUL :: rest.tail := by
  cases rest with
  | nil => simp at h
  | cons x t => simp

theorem field_head_cons (c : Char) (t : List Char) (h1 : c ≠ '/') (h2 : c ≠ NUL) :
    field_head (c :: t) = c :: field_head t := by
  simp [field_head, List.takeWhile_cons, h1, h2]

theorem field_head_stop (rest : List Char) (h : rest.headD NUL = '/' ∨ rest.headD NUL = NUL) :
    field_head rest = [] := by
  cases rest with
  | nil => rfl
  | cons x t =>
    simp only [List.headD_cons] at h
    rcases h with h | h <;> simp [field_head, List.takeWhile_cons, h]

theorem field_head_chars (rest : List Char) : ∀ c ∈ field_head rest, c ≠ '/' ∧ c ≠ NUL := by
  intro c hc
  have := List.mem_takeWhile_imp hc
  simpa using this

theorem segs_head (r : List Char) (h : Segs r) : r = [] ∨ ∃ t, r = '/' :: t := by
  cases h with
  | nil => left; rfl
  | root => right; exact ⟨[], rfl⟩
  | snoc r comp _ _ => right; exact ⟨_, rfl⟩

theorem segs_nul_free (r : List Char) (h : Segs r) : ∀ c ∈ r, c ≠ NUL := by
  induction h with
  | nil => intro c hc; cases hc
  | root => intro c hc; simp at hc; subst hc; decide
  | snoc r comp _ hcomp ih =>
    intro c hc
    simp only [List.mem_cons, List.mem_append, List.mem_reverse] at hc
    rcases hc with rfl | hc | hc
    · decide
    · exact (hcomp.2.1 c hc).2
    · exact ih c hc

theorem dropWhile_comp (comp r : List Char) (hc : ∀ c ∈ comp, c ≠ '/' ∧ c ≠ NUL)
    (hr : r = [] ∨ ∃ t, r = '/' :: t) :
    (comp.reverse ++ r).dropWhile (fun x => x != '/') = r := by
  have h1 : ∀ a ∈ comp.reverse, (fun x => x != '/') a = true := by
    intro a ha
    simp only [List.mem_reverse] at ha
    simp [(hc a ha).1]
  rw [List.dropWhile_append_of_pos h1]
  rcases hr with rfl | ⟨t, rfl⟩
  · rfl
  · simp [List.dropWhile_cons]

theorem segs_rewind (r : List Char) (h : Segs r) :
    Segs (r.tail.dropWhile (fun x => x != '/')) := by
  cases h with
  | nil => exact Segs.nil
  | root => exact Segs.nil
  | snoc r comp hr hcomp =>
    simp only [List.tail_cons]
    rw [dropWhile_comp comp r hcomp.2.1 (segs_head r hr)]
    exact hr

theorem comp_of_field (c : Char) (t : List Char) (h1 : c ≠ '/') (h2 : c ≠ NUL) (h3 : c ≠ '.') :
    Comp (field_head (c :: t)) := by
  rw [field_head_cons c t h1 h2]
  refine ⟨by simp, ?_, ?_, ?_⟩
  · intro x hx
    rw [← field_head_cons c t h1 h2] at hx
    exact field_head_chars _ x hx
  · intro h; injection h with h _; exact h3 h
  · intro h; injection h with h _; exact h3 h

theorem comp_of_dot_field (c : Char) (t : List Char) (h1 : c ≠ '/') (h2 : c ≠ NUL)
    (h3 : c ≠ '.') : Comp (['.'] ++ field_head (c :: t)) := by
  rw [field_head_cons c t h1 h2]
  refine ⟨by simp, ?_, by simp, ?_⟩
  · intro x hx
    simp only [List.singleton_append, List.mem_cons] at hx
    rcases hx with rfl | hx
    · exact ⟨by decide, by decide⟩
    · rw [← List.mem_cons, ← field_head_cons c t h1 h2] at hx
      exact field_head_chars _ x hx
  · intro h
    simp only [List.singleton_append, List.cons.injEq] at h
    exact h3 h.2.1

theorem comp_of_dotdot_field (c : Char) (t : List Char) (h1 : c ≠ '/') (h2 : c ≠ NUL) :
    Comp (['.', '.'] ++ field_head (c :: t)) := by
  rw [field_head_cons c t h1 h2]
  refine ⟨by simp, ?_, by simp, by simp⟩
  intro x hx
  simp only [List.cons_append, List.nil_append, List.mem_cons] at hx
  rcases hx with rfl | rfl | hx
  · exact ⟨by decide, by decide⟩
  · exact ⟨by decide, by decide⟩
  · rw [← List.mem_cons, ← field_head_cons c t h1 h2] at hx
    exact field_head_chars _ x hx

/-- The invariant is kept by every iteration. -/
theorem abs_inv_step (a : Abs) (h : AbsInv a) : AbsInv (abs_step a) := by
  obtain ⟨st, rout, rest, adone⟩ := a
  cases st
  case INITIAL =>
    simp only [AbsInv] at h
    simp only [abs_step]
    split
    · rename_i hc
      exact ⟨head?_of_headD rest _ hc slash_ne_nul, Or.inl h⟩
    · split
      · rename_i _ hc
        simp only [AbsInv]; rw [h]
        exact ⟨Segs.nil, head?_of_headD rest _ hc dot_ne_nul⟩
      · rename_i hc _
        simp only [AbsInv]; rw [h]
        exact ⟨Segs.nil, hc⟩
  case FIELD_START =>
    simp only [AbsInv] at h
    simp only [abs_step]
    split
    · rename_i hc
      exact ⟨h.1, head?_of_headD rest _ hc dot_ne_nul⟩
    · split
      · exact h
      · rename_i hdot hnul
        simp only [AbsInv]
        refine ⟨rout, [], by simp, h.1, ?_⟩
        rw [cons_of_headD rest hnul]
        simpa using comp_of_field _ rest.tail h.2 hnul hdot
  case IN_FIELD =>
    simp only [AbsInv] at h
    obtain ⟨r, part, hr, hsegs, hcomp⟩ := h
    simp only [abs_step]
    split
    · rename_i hc
      simp only [AbsInv]
      refine ⟨head?_of_headD rest _ hc slash_ne_nul, Or.inr ⟨r, part, hr, hsegs, ?_⟩⟩
      rw [field_head_stop rest (Or.inl hc)] at hcomp
      simpa using hcomp
    · split
      · simp only [AbsInv]; exact ⟨r, part, hr, hsegs, hcomp⟩
      · rename_i hs hnul
        simp only [AbsInv]
        refine ⟨r, part ++ [rest.headD NUL], by simp [hr], hsegs, ?_⟩
        have hrest := cons_of_headD rest hnul
        rw [hrest, field_head_cons _ _ hs hnul] at hcomp
        simpa using hcomp
  case SEPARATOR =>
    simp only [AbsInv] at h
    simp only [abs_step, AbsInv]
    rcases h.2 with h0 | ⟨r, comp, hr, hsegs, hcomp⟩
    · rw [h0]; exact Segs.root
    · rw [hr]; exact Segs.snoc r comp hsegs hcomp
  case SEEN_SEPARATOR =>
    simp only [AbsInv] at h
    simp only [abs_step]
    split
    · exact h
    · split
      · exact h
      · rename_i hs _
        exact ⟨h, hs⟩
  case DOT =>
    simp only [AbsInv] at h
    simp only [abs_step, AbsInv]
    exact h.1
  case SEEN_DOT =>
    simp only [AbsInv] at h
    simp only [abs_step]
    split
    · rename_i hc
      exact ⟨h, head?_of_headD rest _ hc dot_ne_nul⟩
    · split
      · exact h
      · split
        · exact h
        · rename_i hdot hs hnul
          simp only [AbsInv]
          refine ⟨rout, ['.'], by simp, h, ?_⟩
          rw [cons_of_headD rest hnul]
          exact comp_of_dot_field _ rest.tail hs hnul hdot
  case DOTDOT =>
    simp only [AbsInv] at h
    simp only [abs_step, AbsInv]
    exact h.1
  case SEEN_DOTDOT =>
    simp only [AbsInv] at h
    simp only [abs_step]
    split
    · simp only [AbsInv]
      exact segs_rewind rout h
    · rename_i hc
      have hs : rest.headD NUL ≠ '/' := fun hh => hc (Or.inl hh)
      have hnul : rest.headD NUL ≠ NUL := fun hh => hc (Or.inr hh)
      simp only [AbsInv]
      refine ⟨rout, ['.', '.'], by simp, h, ?_⟩
      rw [cons_of_headD rest hnul]
      exact comp_of_dotdot_field _ rest.tail hs hnul


/-! ## Termination of the loop -/

theorem length_tail_of_head? (rest : List Char) (c : Char) (h : rest.head? = some c) :
    rest.tail.length + 1 = rest.length := by
  cases rest with
  | nil => simp at h
  | cons x t => simp

theorem length_tail_of_headD (rest : List Char) (h : rest.headD NUL ≠ NUL) :
    rest.tail.length + 1 = rest.length := by
  cases rest with
  | nil => simp at h
  | cons x t => simp

/-- An iteration sets `done` or lowers the measure. -/
theorem potential_step (a : Abs) (h : AbsInv a) :
    (abs_step a).done = true ∨ potential (abs_step a) < potential a := by
  obtain ⟨st, rout, rest, adone⟩ := a
  cases st
  case INITIAL =>
    simp only [abs_step]
    split
    · right; simp [potential, rank]
    · split
      · right; simp [potential, rank]
      · right; simp [potential, rank]
  case FIELD_START =>
    simp only [abs_step]
    split
    · right; simp [potential, rank]
    · split
      · left; rfl
      · right; simp [potential, rank]
  case IN_FIELD =>
    simp only [abs_step]
    split
    · right; simp [potential, rank]
    · split
      · left; rfl
      · rename_i _ hnul
        right
        have := length_tail_of_headD rest hnul
        simp only [potential, rank]; omega
  case SEPARATOR =>
    simp only [AbsInv] at h
    right
    have := length_tail_of_head? rest _ h.1
    simp only [abs_step, potential, rank]; omega
  case SEEN_SEPARATOR =>
    simp only [abs_step]
    split
    · rename_i hc
      right
      have := length_tail_of_headD rest (by rw [hc]; exact slash_ne_nul)
      simp only [potential, rank]; omega
    · split
      · left; rfl
      · right; simp [potential, rank]
  case DOT =>
    simp only [AbsInv] at h
    right
    have := length_tail_of_head? rest _ h.2
    simp only [abs_step, potential, rank]; omega
  case SEEN_DOT =>
    simp only [abs_step]
    split
    · right; simp [potential, rank]
    · split
      · rename_i _ hc
        right
        have := length_tail_of_headD rest (by rw [hc]; exact slash_ne_nul)
        simp only [potential, rank]; omega
      · split
        · left; rfl
        · right; simp [potential, rank]
  case DOTDOT =>
    simp only [AbsInv] at h
    right
    have := length_tail_of_head? rest _ h.2
    simp only [abs_step, potential, rank]; omega
  case SEEN_DOTDOT =>
    simp only [abs_step]
    split
    · rename_i hc
      rcases hc with hc | hc
      · right
        have := length_tail_of_headD rest (by rw [hc]; exact slash_ne_nul)
        simp only [potential, rank]; omega
      · left; simp only [hc, if_true]
    · right; simp [potential, rank]

theorem abs_loop_done (n : Nat) (a : Abs) (h : a.done = true) : abs_loop n a = some a := by
  cases n <;> simp [abs_loop, h]

/-- The abstract loop finishes within any bound above the measure. -/
theorem abs_loop_total : ∀ (n : Nat) (a : Abs), AbsInv a → potential a < n →
    ∃ f, abs_loop n a = some f ∧ f.done = true ∧ AbsInv f := by
  intro n
  induction n with
  | zero => intro a _ h; exact absurd h (Nat.not_lt_zero _)
  | succ n ih =>
    intro a hinv hpot
    cases hd : a.done with
    | true => exact ⟨a, abs_loop_done _ a hd, hd, hinv⟩
    | false =>
      simp only [abs_loop, hd, Bool.false_eq_true, if_false]
      have hinv' := abs_inv_step a hinv
      rcases potential_step a hinv with hdone | hlt
      · exact ⟨abs_step a, abs_loop_done _ _ hdone, hdone, hinv'⟩
      · exact ih (abs_step a) hinv' (by omega)

theorem abs_inv_init (x : List Char) : AbsInv (abs_init x) := by
  simp [AbsInv, abs_init]

theorem abs_loop_init (x : List Char) :
    ∃ f, abs_loop (resolve_fuel x) (abs_init x) = some f ∧ f.done = true ∧ AbsInv f := by
  apply abs_loop_total _ _ (abs_inv_init x)
  simp [potential, abs_init, rank, resolve_fuel]

/-! ## The loop on the buffer and the abstract loop -/

theorem abs_inv_sep (a : Abs) (h : AbsInv a) :
    a.state = .SEPARATOR → a.rest.head? = some '/' := by
  intro hs
  obtain ⟨st, rout, rest, adone⟩ := a
  simp only at hs
  subst hs
  exact h.1

theorem sim_loop : ∀ (n : Nat) (c : Cursor) (a : Abs), Sim c a → AbsInv a →
    (resolve_loop n c = none ∧ abs_loop n a = none) ∨
    (∃ c' a', resolve_loop n c = some c' ∧ abs_loop n a = some a' ∧ Sim c' a') := by
  intro n
  induction n with
  | zero =>
    intro c a hs _
    have hd : c.done = a.done := hs.2.1
    cases hda : a.done with
    | true => right; exact ⟨c, a, by simp [resolve_loop, hd, hda], by simp [abs_loop, hda], hs⟩
    | false => left; simp [resolve_loop, abs_loop, hd, hda]
  | succ n ih =>
    intro c a hs hinv
    have hd : c.done = a.done := hs.2.1
    cases hda : a.done with
    | true => right; exact ⟨c, a, by simp [resolve_loop, hd, hda], by simp [abs_loop, hda], hs⟩
    | false =>
      simp only [resolve_loop, abs_loop, hd, hda, Bool.false_eq_true, if_false]
      exact ih _ _ (sim_step c a hs (abs_inv_sep a hinv)) (abs_inv_step a hinv)

theorem sim_init (x : List Char) : Sim (resolve_init x) (abs_init x) := by
  simp [Sim, resolve_init, abs_init, slack]


/-! ## The code after the loop -/

theorem cstr_poke (l : List Char) (n : Nat) (hn : n ≤ l.length)
    (hfree : ∀ c ∈ l.take n, c ≠ NUL) : cstr (poke l n NUL) = l.take n := by
  have hpos : ∀ a ∈ l.take n, (fun c => c != NUL) a = true := by
    intro a ha; simp [hfree a ha]
  rcases Nat.lt_or_ge n l.length with hlt | hge
  · have hset : l.set n NUL = l.take n ++ NUL :: l.drop (n + 1) := by
      simp [List.set_eq_take_append_cons_drop, hlt]
    rw [poke_of_lt l n NUL hlt, hset]
    simp only [cstr]
    rw [List.takeWhile_append_of_pos hpos]
    simp
  · have hn' : n = l.length := Nat.le_antisymm hn hge
    subst hn'
    simp only [poke, Nat.lt_irrefl, if_false, Nat.sub_self, List.replicate_zero,
      List.append_nil, List.take_length] at hpos ⊢
    simp only [cstr]
    rw [List.takeWhile_append_of_pos hpos]
    simp

theorem take_last (path r : List Char) (x : Char)
    (h : path.take (r.length + 1) = (x :: r).reverse) :
    r.length < path.length ∧ peek path r.length = x ∧ path.take r.length = r.reverse := by
  have hlen : r.length < path.length := by
    have := congrArg List.length h
    simp at this
    omega
  have h2 := h
  rw [take_succ_of_lt path r.length hlen, List.reverse_cons] at h2
  have hl : (path.take r.length).length = r.reverse.length := by
    simp [Nat.le_of_lt hlen]
  obtain ⟨h3, h4⟩ := List.append_inj h2 hl
  refine ⟨hlen, ?_, h3⟩
  rw [peek_of_lt path _ hlen]
  simpa using h4

/-- On related states the code after the loop yields what is read off the
abstract state, provided no terminator was written. -/
theorem finish_sim (c : Cursor) (a : Abs) (h : Sim c a) (hfree : ∀ x ∈ a.rout, x ≠ NUL) :
    resolve_finish c = abs_finish a := by
  obtain ⟨path, outpos, pos, done, state⟩ := c
  obtain ⟨st, rout, rest, adone⟩ := a
  obtain ⟨_, _, hlen, htake, _, _⟩ := h
  simp only at hlen htake hfree
  subst hlen
  have hfree' : ∀ x ∈ path.take rout.length, x ≠ NUL := by
    intro x hx; rw [htake] at hx; exact hfree x (List.mem_reverse.mp hx)
  have hle : rout.length ≤ path.length := by
    have := congrArg List.length htake
    simp at this
    omega
  cases rout with
  | nil =>
    simp only [resolve_finish, abs_finish, List.length_nil, if_true]
    have hp : ∃ t, poke path 0 '/' = '/' :: t := by
      cases path with
      | nil => exact ⟨[], rfl⟩
      | cons y t => exact ⟨t, by simp [poke]⟩
    obtain ⟨t, ht⟩ := hp
    rw [ht, cstr_poke ('/' :: t) 1 (by simp) (by
      intro x hx
      simp at hx
      subst hx
      exact slash_ne_nul)]
    rfl
  | cons x r =>
    obtain ⟨hlt, hpk, htk⟩ := take_last path r x htake
    have hfr : ∀ y ∈ path.take r.length, y ≠ NUL := by
      intro y hy; rw [htk] at hy
      exact hfree y (List.mem_cons_of_mem _ (List.mem_reverse.mp hy))
    simp only [resolve_finish, abs_finish, List.length_cons, Nat.add_sub_cancel, hpk,
      List.head?_cons, Option.some.injEq, List.tail_cons]
    have h0 : ¬ (r.length + 1 = 0) := Nat.succ_ne_zero _
    have h1 : ¬ (x :: r = []) := List.cons_ne_nil _ _
    simp only [h0, h1, if_false]
    by_cases hc : r.length + 1 > 1 ∧ x = '/'
    · simp only [hc, and_self, if_true]
      rw [cstr_poke path r.length (Nat.le_of_lt hlt) hfr, htk]
    · simp only [hc, if_false]
      rw [cstr_poke path (r.length + 1) hle hfree']
      exact htake

theorem abs_inv_nul_free (a : Abs) (h : AbsInv a) : ∀ x ∈ a.rout, x ≠ NUL := by
  obtain ⟨st, rout, rest, adone⟩ := a
  cases st <;> simp only [AbsInv] at h
  case INITIAL => intro x hx; rw [h] at hx; cases hx
  case FIELD_START => exact segs_nul_free rout h.1
  case IN_FIELD =>
    obtain ⟨r, part, hr, hsegs, hcomp⟩ := h
    intro x hx
    simp only [hr, List.mem_append, List.mem_reverse] at hx
    rcases hx with hx | hx
    · exact (hcomp.2.1 x (List.mem_append_left _ hx)).2
    · exact segs_nul_free r hsegs x hx
  case SEPARATOR =>
    rcases h.2 with h0 | ⟨r, comp, hr, hsegs, hcomp⟩
    · intro x hx; simp only [h0] at hx; cases hx
    · intro x hx
      simp only [hr, List.mem_append, List.mem_reverse] at hx
      rcases hx with hx | hx
      · exact (hcomp.2.1 x hx).2
      · exact segs_nul_free r hsegs x hx
  case SEEN_SEPARATOR => exact segs_nul_free rout h
  case DOT => exact segs_nul_free rout h.1
  case SEEN_DOT => exact segs_nul_free rout h
  case DOTDOT => exact segs_nul_free rout h.1
  case SEEN_DOTDOT => exact segs_nul_free rout h

/-- `resolve_path` returns, and returns what the abstract automaton computes. -/
theorem resolve_path_abs (x : List Char) :
    ∃ f, abs_loop (resolve_fuel x) (abs_init x) = some f ∧ f.done = true ∧ AbsInv f ∧
      resolve_path x = some (abs_finish f) := by
  obtain ⟨f, hf, hd, hinv⟩ := abs_loop_init x
  refine ⟨f, hf, hd, hinv, ?_⟩
  rcases sim_loop (resolve_fuel x) _ _ (sim_init x) (abs_inv_init x) with
    ⟨_, h2⟩ | ⟨c', a', h1, h2, h3⟩
  · rw [hf] at h2; cases h2
  · rw [hf] at h2
    injection h2 with h2
    subst h2
    simp only [resolve_path, h1, Option.map_some']
    rw [finish_sim c' f h3 (abs_inv_nul_free f hinv)]


/-! ## Runs of the abstract automaton -/

theorem run_trans (a b c : Abs) (h1 : Run a b) (h2 : Run b c) : Run a c := by
  induction h1 with
  | refl a => exact h2
  | step a b hd _ ih => exact Run.step a c hd (ih h2)

theorem run_step (a b c : Abs) (hd : a.done = false) (hs : abs_step a = b) (h : Run b c) :
    Run a c := by
  subst hs; exact Run.step a c hd h

/-- A run that ends with `done` set ends where the bounded loop ends. -/
theorem run_loop (a b : Abs) (h : Run a b) (hb : b.done = true) :
    ∀ (n : Nat) (f : Abs), abs_loop n a = some f → f = b := by
  induction h with
  | refl a =>
    intro n f hf
    rw [abs_loop_done n a hb] at hf
    injection hf with hf; exact hf.symm
  | step a b hd _ ih =>
    intro n f hf
    cases n with
    | zero => simp [abs_loop, hd] at hf
    | succ n =>
      simp only [abs_loop, hd, Bool.false_eq_true, if_false] at hf
      exact ih hb n f hf

/-- In a field the automaton copies the characters of the field. -/
theorem run_copy (cs : List Char) :
    ∀ (rout t : List Char), (∀ c ∈ cs, c ≠ '/' ∧ c ≠ NUL) →
      Run ⟨.IN_FIELD, rout, cs ++ t, false⟩ ⟨.IN_FIELD, cs.reverse ++ rout, t, false⟩ := by
  induction cs with
  | nil => intro rout t _; exact Run.refl _
  | cons c cs ih =>
    intro rout t h
    obtain ⟨h1, h2⟩ := h c (List.mem_cons_self _ _)
    apply run_step _ ⟨.IN_FIELD, c :: rout, cs ++ t, false⟩ _ rfl
    · simp [abs_step, h1, h2]
    · have := ih (c :: rout) t (fun x hx => h x (List.mem_cons_of_mem _ hx))
      simpa using this

/-- From a component boundary the automaton copies a whole kept component. -/
theorem run_comp (comp : List Char) (hcomp : Comp comp) (st : PathState)
    (hst : st = .INITIAL ∨ st = .SEEN_SEPARATOR) (rout t : List Char) :
    Run ⟨st, rout, comp ++ t, false⟩ ⟨.IN_FIELD, comp.reverse ++ rout, t, false⟩ := by
  obtain ⟨hne, hch, hdot, hdd⟩ := hcomp
  cases comp with
  | nil => exact absurd rfl hne
  | cons c cs =>
    obtain ⟨hc1, hc2⟩ := hch c (List.mem_cons_self _ _)
    have hcs : ∀ x ∈ cs, x ≠ '/' ∧ x ≠ NUL := fun x hx => hch x (List.mem_cons_of_mem _ hx)
    by_cases hcd : c = '.'
    · subst hcd
      -- reach `SEEN_DOT` with the dot consumed
      have hpre : Run ⟨st, rout, ('.' :: cs) ++ t, false⟩ ⟨.SEEN_DOT, rout, cs ++ t, false⟩ := by
        have hdot_run : Run ⟨.DOT, rout, ('.' :: cs) ++ t, false⟩
            ⟨.SEEN_DOT, rout, cs ++ t, false⟩ :=
          run_step _ _ _ rfl (by simp [abs_step]) (Run.refl _)
        rcases hst with rfl | rfl
        · exact run_step _ ⟨.DOT, rout, ('.' :: cs) ++ t, false⟩ _ rfl
            (by simp [abs_step]) hdot_run
        · apply run_step _ ⟨.FIELD_START, rout, ('.' :: cs) ++ t, false⟩ _ rfl
            (by simp [abs_step]; decide)
          exact run_step _ ⟨.DOT, rout, ('.' :: cs) ++ t, false⟩ _ rfl
            (by simp [abs_step]) hdot_run
      apply run_trans _ _ _ hpre
      cases cs with
      | nil => exact absurd rfl hdot
      | cons c2 cs2 =>
        obtain ⟨hc21, hc22⟩ := hcs c2 (List.mem_cons_self _ _)
        have hcs2 : ∀ x ∈ cs2, x ≠ '/' ∧ x ≠ NUL :=
          fun x hx => hcs x (List.mem_cons_of_mem _ hx)
        by_cases hc2d : c2 = '.'
        · subst hc2d
          cases cs2 with
          | nil => exact absurd rfl hdd
          | cons c3 cs3 =>
            obtain ⟨hc31, hc32⟩ := hcs2 c3 (List.mem_cons_self _ _)
            apply run_step _ ⟨.DOTDOT, rout, ('.' :: c3 :: cs3) ++ t, false⟩ _ rfl
              (by simp [abs_step])
            apply run_step _ ⟨.SEEN_DOTDOT, rout, (c3 :: cs3) ++ t, false⟩ _ rfl
              (by simp [abs_step])
            apply run_step _ ⟨.IN_FIELD, '.' :: '.' :: rout, (c3 :: cs3) ++ t, false⟩ _ rfl
              (by simp [abs_step, hc31, hc32])
            have := run_copy (c3 :: cs3) ('.' :: '.' :: rout) t hcs2
            simpa using this
        · apply run_step _ ⟨.IN_FIELD, '.' :: rout, (c2 :: cs2) ++ t, false⟩ _ rfl
            (by simp [abs_step, hc2d, hc21, hc22])
          have := run_copy (c2 :: cs2) ('.' :: rout) t hcs
          simpa using this
    · have hfield : Run ⟨.FIELD_START, rout, (c :: cs) ++ t, false⟩
          ⟨.IN_FIELD, (c :: cs).reverse ++ rout, t, false⟩ := by
        apply run_step _ ⟨.IN_FIELD, rout, (c :: cs) ++ t, false⟩ _ rfl
          (by simp [abs_step, hcd, hc2])
        exact run_copy (c :: cs) rout t hch
      rcases hst with rfl | rfl
      · exact run_step _ ⟨.FIELD_START, rout, (c :: cs) ++ t, false⟩ _ rfl
          (by simp [abs_step, hcd, hc1]) hfield
      · exact run_step _ ⟨.FIELD_START, rout, (c :: cs) ++ t, false⟩ _ rfl
          (by simp [abs_step, hc1, hc2]) hfield

/-- The automaton state at a component boundary. -/
theorem boundary_state (r : List Char) :
    (if r = [] then PathState.INITIAL else PathState.SEEN_SEPARATOR) = .INITIAL ∨
    (if r = [] then PathState.INITIAL else PathState.SEEN_SEPARATOR) = .SEEN_SEPARATOR := by
  split
  · left; rfl
  · right; rfl

/-- Reading back an output that ends at a component boundary rebuilds it. -/
theorem run_segs (r : List Char) (h : Segs r) :
    ∀ suffix : List Char,
      Run ⟨.INITIAL, [], r.reverse ++ suffix, false⟩
        ⟨if r = [] then .INITIAL else .SEEN_SEPARATOR, r, suffix, false⟩ := by
  induction h with
  | nil => intro suffix; exact Run.refl _
  | root =>
    intro suffix
    apply run_step _ ⟨.SEPARATOR, [], '/' :: suffix, false⟩ _ rfl (by simp [abs_step])
    exact run_step _ _ _ rfl (by simp [abs_step]) (Run.refl _)
  | snoc r comp _ hcomp ih =>
    intro suffix
    have h1 := ih (comp ++ '/' :: suffix)
    have h2 := run_comp comp hcomp _ (boundary_state r) r ('/' :: suffix)
    have h3 : Run ⟨.IN_FIELD, comp.reverse ++ r, '/' :: suffix, false⟩
        ⟨.SEEN_SEPARATOR, '/' :: (comp.reverse ++ r), suffix, false⟩ := by
      apply run_step _ ⟨.SEPARATOR, comp.reverse ++ r, '/' :: suffix, false⟩ _ rfl
        (by simp [abs_step])
      exact run_step _ _ _ rfl (by simp [abs_step]) (Run.refl _)
    have h4 := run_trans _ _ _ (run_trans _ _ _ h1 h2) h3
    simpa using h4


/-! ## Normal forms -/

theorem abs_finish_comp (comp r rest : List Char) (st : PathState) (d : Bool)
    (hcomp : Comp comp) :
    abs_finish ⟨st, comp.reverse ++ r, rest, d⟩ = r.reverse ++ comp := by
  obtain ⟨hne, hch, _, _⟩ := hcomp
  obtain ⟨c, t, hct⟩ : ∃ c t, comp.reverse = c :: t := by
    cases hrev : comp.reverse with
    | nil => exact absurd (List.reverse_eq_nil_iff.mp hrev) hne
    | cons c t => exact ⟨c, t, rfl⟩
  have hcmem : c ∈ comp := by
    rw [← List.mem_reverse, hct]; exact List.mem_cons_self _ _
  have hc : c ≠ '/' := (hch c hcmem).1
  have hrev : (comp.reverse ++ r).reverse = r.reverse ++ comp := by simp
  simp only [abs_finish]
  rw [hct] at hrev ⊢
  simp only [List.cons_append, List.head?_cons, Option.some.injEq, hc, and_false, if_false,
    List.cons_ne_nil]
  exact hrev

theorem abs_finish_segs (rout rest : List Char) (st : PathState) (d : Bool) (h : Segs rout) :
    Canon (abs_finish ⟨st, rout, rest, d⟩) := by
  cases h with
  | nil => left; rfl
  | root => left; rfl
  | snoc r comp hr hcomp =>
    right
    refine ⟨r, comp, hr, hcomp, ?_⟩
    have hlen : ('/' :: (comp.reverse ++ r)).length > 1 := by
      have : comp.length ≠ 0 := fun h0 => hcomp.1 (List.length_eq_zero.mp h0)
      simp only [List.length_cons, List.length_append, List.length_reverse]
      omega
    simp only [abs_finish, List.cons_ne_nil, if_false, hlen, List.head?_cons, and_self, if_true,
      List.tail_cons]
    simp

theorem done_inv_step (a : Abs) (hd : a.done = false) : DoneInv (abs_step a) := by
  obtain ⟨st, rout, rest, adone⟩ := a
  simp only at hd
  subst hd
  cases st <;> simp only [abs_step, DoneInv]
  case SEPARATOR => intro h; cases h
  case DOT => intro h; cases h
  case DOTDOT => intro h; cases h
  all_goals split_ifs <;> intro h1 h2 <;> simp_all

theorem abs_loop_done_inv : ∀ (n : Nat) (a f : Abs), DoneInv a → abs_loop n a = some f →
    DoneInv f := by
  intro n
  induction n with
  | zero =>
    intro a f ha h
    cases hd : a.done with
    | true => simp [abs_loop, hd] at h; subst h; exact ha
    | false => simp [abs_loop, hd] at h
  | succ n ih =>
    intro a f ha h
    cases hd : a.done with
    | true => simp [abs_loop, hd] at h; subst h; exact ha
    | false =>
      simp only [abs_loop, hd, Bool.false_eq_true, if_false] at h
      exact ih _ f (done_inv_step a hd) h

/-- What the automaton leaves at the end is a normal form. -/
theorem abs_finish_canon (f : Abs) (hinv : AbsInv f) (hd : f.done = true) (hq : DoneInv f) :
    Canon (abs_finish f) := by
  obtain ⟨st, rout, rest, adone⟩ := f
  simp only at hd
  cases st <;> simp only [AbsInv] at hinv
  case INITIAL => subst hinv; left; rfl
  case FIELD_START => exact abs_finish_segs _ _ _ _ hinv.1
  case IN_FIELD =>
    obtain ⟨r, part, hr, hsegs, hcomp⟩ := hinv
    have hnul := hq hd rfl
    simp only at hnul
    rw [field_head_stop rest (Or.inr hnul), List.append_nil] at hcomp
    subst hr
    right
    exact ⟨r, part, hsegs, hcomp, abs_finish_comp part r rest _ _ hcomp⟩
  case SEPARATOR =>
    rcases hinv.2 with h0 | ⟨r, comp, hr, hsegs, hcomp⟩
    · subst h0; left; rfl
    · subst hr
      right
      exact ⟨r, comp, hsegs, hcomp, abs_finish_comp comp r rest _ _ hcomp⟩
  case SEEN_SEPARATOR => exact abs_finish_segs _ _ _ _ hinv
  case DOT => exact abs_finish_segs _ _ _ _ hinv.1
  case SEEN_DOT => exact abs_finish_segs _ _ _ _ hinv
  case DOTDOT => exact abs_finish_segs _ _ _ _ hinv.1
  case SEEN_DOTDOT => exact abs_finish_segs _ _ _ _ hinv

/-- The result of `resolve_path` is a normal form. -/
theorem resolve_path_canon (x : List Char) : ∃ y, resolve_path x = some y ∧ Canon y := by
  obtain ⟨f, hf, hd, hinv, hres⟩ := resolve_path_abs x
  have hq : DoneInv f :=
    abs_loop_done_inv _ (abs_init x) f (by intro h; cases h) hf
  exact ⟨abs_finish f, hres, abs_finish_canon f hinv hd hq⟩

/-- `resolve_path` leaves a normal form as it is. -/
theorem resolve_path_of_canon (y : List Char) (h : Canon y) : resolve_path y = some y := by
  obtain ⟨f, hf, _, _, hres⟩ := resolve_path_abs y
  rcases h with rfl | ⟨r, comp, hsegs, hcomp, rfl⟩
  · have hrun : Run (abs_init ['/']) ⟨.SEEN_SEPARATOR, ['/'], [NUL], true⟩ := by
      have h1 := run_segs ['/'] Segs.root [NUL]
      have h2 : Run ⟨.SEEN_SEPARATOR, ['/'], [NUL], false⟩
          ⟨.SEEN_SEPARATOR, ['/'], [NUL], true⟩ :=
        run_step _ _ _ rfl (by simp [abs_step]; decide) (Run.refl _)
      exact run_trans _ _ _ (by simpa [abs_init] using h1) h2
    have := run_loop _ _ hrun rfl _ f hf
    rw [hres, this]; rfl
  · have hrun : Run (abs_init (r.reverse ++ comp))
        ⟨.IN_FIELD, comp.reverse ++ r, [NUL], true⟩ := by
      have h1 := run_segs r hsegs (comp ++ [NUL])
      have h2 := run_comp comp hcomp _ (boundary_state r) r [NUL]
      have h3 : Run ⟨.IN_FIELD, comp.reverse ++ r, [NUL], false⟩
          ⟨.IN_FIELD, comp.reverse ++ r, [NUL], true⟩ :=
        run_step _ _ _ rfl (by simp [abs_step]; decide) (Run.refl _)
      have h4 := run_trans _ _ _ (run_trans _ _ _ h1 h2) h3
      simpa [abs_init] using h4
    have := run_loop _ _ hrun rfl _ f hf
    rw [hres, this, abs_finish_comp comp r _ _ _ hcomp]

/-- C10: path normalisation is idempotent: for every input string `x`,
`resolve_path` returns on `x`, and applied to its own result it returns that
result again. -/
theorem resolve_path_idempotent (x : List Char) :
    ∃ y, resolve_path x = some y ∧ resolve_path y = some y := by
  obtain ⟨y, hy, hc⟩ := resolve_path_canon x
  exact ⟨y, hy, resolve_path_of_canon y hc⟩


/-! ## Normalisation on the tables of the specification -/

/-- An input that is a normal form followed by one separator is normalised to
that normal form. -/
theorem resolve_path_trailing_separator (y : List Char) (h : Canon y) :
    resolve_path (y ++ ['/']) = some y := by
  rcases h with rfl | ⟨r, comp, hsegs, hcomp, rfl⟩
  · decide
  · obtain ⟨f, hf, _, _, hres⟩ := resolve_path_abs (r.reverse ++ comp ++ ['/'])
    have hne : ('/' :: (comp.reverse ++ r)) ≠ [] := List.cons_ne_nil _ _
    have hrun : Run (abs_init (r.reverse ++ comp ++ ['/']))
        ⟨.SEEN_SEPARATOR, '/' :: (comp.reverse ++ r), [NUL], true⟩ := by
      have h1 := run_segs _ (Segs.snoc r comp hsegs hcomp) [NUL]
      simp only [hne, if_false] at h1
      have h2 : Run ⟨.SEEN_SEPARATOR, '/' :: (comp.reverse ++ r), [NUL], false⟩
          ⟨.SEEN_SEPARATOR, '/' :: (comp.reverse ++ r), [NUL], true⟩ :=
        run_step _ _ _ rfl (by simp [abs_step]; decide) (Run.refl _)
      have h3 := run_trans _ _ _ h1 h2
      simpa [abs_init] using h3
    have := run_loop _ _ hrun rfl _ f hf
    rw [hres, this]
    have hlen : ('/' :: (comp.reverse ++ r)).length > 1 := by
      have : comp.length ≠ 0 := fun h0 => hcomp.1 (List.length_eq_zero.mp h0)
      simp only [List.length_cons, List.length_append, List.length_reverse]
      omega
    simp only [abs_finish, List.cons_ne_nil, if_false, hlen, List.head?_cons, and_self, if_true,
      List.tail_cons]
    simp

theorem canonicalise_absolute (cwd rest : List Char) :
    canonicalise cwd ('/' :: rest) = resolve_path ('/' :: rest) := by
  simp [canonicalise, resolve_input]

/-- C12 (failing input): `resolve_path` turns `/../a` into `a`, not `/a`: the
`..` met at the root takes the write cursor back over the leading separator, so
an input that begins with `/` gets an output that does not, and `/../a` is not
normalised like `/a`.  Only when nothing follows is the root put back. -/
theorem resolve_path_dotdot_at_root :
    resolve_path "/../a".toList = some "a".toList ∧
    resolve_path "/a".toList = some "/a".toList ∧
    "/../a".toList.head? = some '/' ∧
    "a".toList.head? ≠ some '/' ∧
    resolve_path "/../".toList = some "/".toList := by
  refine ⟨by decide, by decide, by decide, by decide, by decide⟩

/-- C14 (as amended): canonicalisation maps each row of the tables of the
specification to the listed result, the row of the empty input when the working
directory is the root.  The absolute inputs give the listed result whatever the
working directory is; the empty input gives `/` under `resolve_path` itself and,
canonicalised, when the working directory is the root, and for every working
directory in normal form it gives that working directory; `a/b` with working
directory `/x` gives `/x/a/b`.  A relative input is resolved as cwd, separator,
input, an absolute one is copied unchanged. -/
theorem canonicalise_table (cwd : List Char) :
    resolve_path "".toList = some "/".toList ∧
    canonicalise "/".toList "".toList = some "/".toList ∧
    (Canon cwd → canonicalise cwd "".toList = some cwd) ∧
    canonicalise cwd "/".toList = some "/".toList ∧
    canonicalise cwd "///".toList = some "/".toList ∧
    canonicalise cwd "//a//b/".toList = some "/a/b".toList ∧
    canonicalise cwd "/a//b".toList = some "/a/b".toList ∧
    canonicalise cwd "/a/./b".toList = some "/a/b".toList ∧
    canonicalise cwd "/a/../b".toList = some "/b".toList ∧
    canonicalise cwd "/a/./b/../c".toList = some "/a/c".toList ∧
    canonicalise cwd "/a/b/../../..".toList = some "/".toList ∧
    canonicalise cwd "/..".toList = some "/".toList ∧
    canonicalise cwd "/.hidden".toList = some "/.hidden".toList ∧
    canonicalise cwd "/..name".toList = some "/..name".toList ∧
    canonicalise cwd "/.hidden/..x".toList = some "/.hidden/..x".toList ∧
    canonicalise "/x".toList "a/b".toList = some "/x/a/b".toList ∧
    (∀ input : List Char, input.head? ≠ some '/' →
      resolve_input true cwd input = some (cwd ++ ['/'] ++ input)) ∧
    (∀ input : List Char, input.head? = some '/' →
      resolve_input true cwd input = some input) := by
  refine ⟨by decide, by decide, ?_, ?_, ?_, ?_, ?_, ?_, ?_, ?_, ?_, ?_, ?_, ?_, ?_, by decide,
    ?_, ?_⟩
  · intro h
    have hin : resolve_input true cwd "".toList = some (cwd ++ ['/']) := by
      simp [resolve_input]
    simp only [canonicalise, hin, Option.some_bind]
    exact resolve_path_trailing_separator cwd h
  · exact (canonicalise_absolute cwd _).trans (by decide)
  · exact (canonicalise_absolute cwd _).trans (by decide)
  · exact (canonicalise_absolute cwd _).trans (by decide)
  · exact (canonicalise_absolute cwd _).trans (by decide)
  · exact (canonicalise_absolute cwd _).trans (by decide)
  · exact (canonicalise_absolute cwd _).trans (by decide)
  · exact (canonicalise_absolute cwd _).trans (by decide)
  · exact (canonicalise_absolute cwd _).trans (by decide)
  · exact (canonicalise_absolute cwd _).trans (by decide)
  · exact (canonicalise_absolute cwd _).trans (by decide)
  · exact (canonicalise_absolute cwd _).trans (by decide)
  · exact (canonicalise_absolute cwd _).trans (by decide)
  · intro input h; simp [resolve_input, h]
  · intro input h; simp [resolve_input, h]

/-- The rows of the table with `/x` as the working directory, a path in normal
form. -/
theorem canonicalise_table_witness :
    Canon "/x".toList ∧ canonicalise "/x".toList "".toList = some "/x".toList :=
  ⟨Or.inr ⟨['/'], ['x'], Segs.root, ⟨by decide, by decide, by decide, by decide⟩, rfl⟩,
   (canonicalise_table "/x".toList).2.2.1
     (Or.inr ⟨['/'], ['x'], Segs.root, ⟨by decide, by decide, by decide, by decide⟩, rfl⟩)⟩

/-- C14 (counterexample): with the working directory `/x` the empty input is
canonicalised to `/x`, not to `/`: `resolve_input` resolves it, as any input
that does not begin with a separator, against the working directory. -/
theorem canonicalise_empty_input_not_root :
    resolve_input true "/x".toList "".toList = some "/x/".toList ∧
    canonicalise "/x".toList "".toList = some "/x".toList ∧
    canonicalise "/x".toList "".toList ≠ some "/".toList := by
  refine ⟨by decide, by decide, by decide⟩

/-- C19 (failing input): with a mount on `/mnt`, `fs_mount` and `fs_open` on
paths that the mount prefixes return, but `fs_unmount("/mnt")` and
`fs_unmount("/mnt/a")` end in the store through the null `trimmed_path`:
`fs_unmount` is a caller of `find_mount` that supplies no destination. -/
theorem fs_unmount_null_destination :
    (fs_mount boot_env mnt_mounted "/mnt/a".toList "dumbfs".toList "initrd".toList
        Oracle.ok).toOption.map (fun r => r.1) = some .ERR_ALREADY_MOUNTED ∧
    (fs_open boot_env mnt_mounted "/mnt/a".toList Oracle.ok).toOption.map (fun r => r.1)
      = some .OK ∧
    fs_unmount boot_env mnt_mounted "/mnt".toList Oracle.ok = .error .null_write ∧
    fs_unmount boot_env mnt_mounted "/mnt/a".toList Oracle.ok = .error .null_write ∧
    find_mount mnt_mounted "/mnt".toList .null = .error .null_write := by
  refine ⟨by decide, by decide, rfl, rfl, rfl⟩


/-! ## Components and normal forms -/

theorem components_ne_nil (l : List Char) : components l ≠ [] := by
  cases l with
  | nil => simp [components]
  | cons c cs =>
    simp only [components]
    split
    · simp
    · split <;> simp

theorem components_cons_slash (l : List Char) : components ('/' :: l) = [] :: components l := by
  simp [components]

theorem components_cons_other (c : Char) (l h : List Char) (t : List (List Char))
    (hc : c ≠ '/') (hl : components l = h :: t) : components (c :: l) = (c :: h) :: t := by
  simp [components, hc, hl]

/-- A path without separator is its own single component. -/
theorem components_of_comp (w : List Char) (h : ∀ c ∈ w, c ≠ '/') : components w = [w] := by
  induction w with
  | nil => rfl
  | cons c w ih =>
    have hw := ih (fun x hx => h x (List.mem_cons_of_mem _ hx))
    exact components_cons_other c w w [] (h c (List.mem_cons_self _ _)) hw

/-- The components of a path cut at a separator are those of the two parts. -/
theorem components_append (a b : List Char) :
    components (a ++ '/' :: b) = components a ++ components b := by
  induction a with
  | nil => simp [components]
  | cons c a ih =>
    by_cases hc : c = '/'
    · subst hc
      simp [components_cons_slash, ih]
    · obtain ⟨h, t, hht⟩ : ∃ h t, components a = h :: t := by
        cases hca : components a with
        | nil => exact absurd hca (components_ne_nil a)
        | cons h t => exact ⟨h, t, rfl⟩
      have h1 : components (a ++ '/' :: b) = h :: (t ++ components b) := by
        rw [ih, hht]; rfl
      rw [List.cons_append, components_cons_other c _ h _ hc h1,
        components_cons_other c a h t hc hht]
      rfl

/-- A path made of a leading separator and kept components is a normal form. -/
theorem canon_of_components :
    ∀ (t part r : List Char), Segs r → (∀ x ∈ part, x ≠ '/' ∧ x ≠ NUL) → (∀ x ∈ t, x ≠ NUL) →
      (∀ h tl, components t = h :: tl →
        (part ++ h ≠ [] ∧ part ++ h ≠ ['.'] ∧ part ++ h ≠ ['.', '.']) ∧
        ∀ c ∈ tl, c ≠ [] ∧ c ≠ ['.'] ∧ c ≠ ['.', '.']) →
      ∃ r' comp, Segs r' ∧ Comp comp ∧ r.reverse ++ part ++ t = r'.reverse ++ comp := by
  intro t
  induction t with
  | nil =>
    intro part r hr hpart _ hc
    obtain ⟨⟨h1, h2, h3⟩, _⟩ := hc [] [] rfl
    simp only [List.append_nil] at h1 h2 h3
    exact ⟨r, part, hr, ⟨h1, hpart, h2, h3⟩, by simp⟩
  | cons x t ih =>
    intro part r hr hpart hnul hc
    have hnul' : ∀ y ∈ t, y ≠ NUL := fun y hy => hnul y (List.mem_cons_of_mem _ hy)
    by_cases hx : x = '/'
    · subst hx
      obtain ⟨⟨h1, h2, h3⟩, htl⟩ := hc [] (components t) (components_cons_slash t)
      simp only [List.append_nil] at h1 h2 h3
      have hcomp : Comp part := ⟨h1, hpart, h2, h3⟩
      have hr' := Segs.snoc r part hr hcomp
      obtain ⟨r', comp, hs, hcm, heq⟩ := ih [] _ hr' (by intro y hy; cases hy) hnul' (by
        intro h tl hht
        have hmem : ∀ c ∈ components t, c ≠ [] ∧ c ≠ ['.'] ∧ c ≠ ['.', '.'] := htl
        rw [hht] at hmem
        refine ⟨?_, fun c hc => hmem c (List.mem_cons_of_mem _ hc)⟩
        simpa using hmem h (List.mem_cons_self _ _))
      refine ⟨r', comp, hs, hcm, ?_⟩
      rw [← heq]; simp
    · obtain ⟨h, tl, hht⟩ : ∃ h tl, components t = h :: tl := by
        cases hca : components t with
        | nil => exact absurd hca (components_ne_nil t)
        | cons h tl => exact ⟨h, tl, rfl⟩
      have hcx := hc (x :: h) tl (components_cons_other x t h tl hx hht)
      have hxn : x ≠ NUL := hnul x (List.mem_cons_self _ _)
      obtain ⟨r', comp, hs, hcm, heq⟩ := ih (part ++ [x]) r hr (by
        intro y hy
        simp only [List.mem_append, List.mem_singleton] at hy
        rcases hy with hy | rfl
        · exact hpart y hy
        · exact ⟨hx, hxn⟩) hnul' (by
        intro h' tl' hht'
        rw [hht] at hht'
        injection hht' with e1 e2
        subst e1 e2
        simpa using hcx)
      refine ⟨r', comp, hs, hcm, ?_⟩
      rw [← heq]; simp

/-- C11: canonical paths are fixed points of normalisation: a path (a C string,
so free of terminators) that begins with `/` and either is `/` or has, after
that `/`, only components that are not empty, not `.` and not `..` (so neither
two separators in a row nor a trailing one) is returned unchanged by
`resolve_path`. -/
theorem resolve_path_canonical (t : List Char) (hnul : ∀ x ∈ t, x ≠ NUL)
    (hcomp : t = [] ∨ ∀ c ∈ components t, c ≠ [] ∧ c ≠ ['.'] ∧ c ≠ ['.', '.']) :
    resolve_path ('/' :: t) = some ('/' :: t) := by
  apply resolve_path_of_canon
  rcases hcomp with rfl | hcomp
  · left; rfl
  · right
    obtain ⟨r', comp, hs, hcm, heq⟩ := canon_of_components t [] ['/'] Segs.root
      (by intro y hy; cases hy) hnul (by
        intro h tl hht
        rw [hht] at hcomp
        refine ⟨?_, fun c hc => hcomp c (List.mem_cons_of_mem _ hc)⟩
        simpa using hcomp h (List.mem_cons_self _ _))
    exact ⟨r', comp, hs, hcm, by simpa using heq⟩

/-- The path `/usr/.local/..cache` is canonical and kept as it is. -/
theorem resolve_path_canonical_witness :
    (∀ x ∈ "usr/.local/..cache".toList, x ≠ NUL) ∧
    ("usr/.local/..cache".toList = [] ∨
      ∀ c ∈ components "usr/.local/..cache".toList, c ≠ [] ∧ c ≠ ['.'] ∧ c ≠ ['.', '.']) ∧
    resolve_path "/usr/.local/..cache".toList = some "/usr/.local/..cache".toList :=
  ⟨by decide, Or.inr (by decide),
   resolve_path_canonical "usr/.local/..cache".toList (by decide) (Or.inr (by decide))⟩


/-! ## The shape of the output of `resolve_path` -/

/-- Two separators in a row in `a ++ b` lie in `a`, lie in `b`, or are the last
character of `a` and the first of `b`. -/
theorem double_slash_append (a : List Char) :
    ∀ (b s u : List Char), a ++ b = s ++ '/' :: '/' :: u →
      (∃ s' u', a = s' ++ '/' :: '/' :: u') ∨ (∃ s' u', b = s' ++ '/' :: '/' :: u') ∨
      (a.getLast? = some '/' ∧ b.head? = some '/') := by
  induction a with
  | nil =>
    intro b s u h
    right; left; exact ⟨s, u, by simpa using h⟩
  | cons x a ih =>
    intro b s u h
    cases s with
    | nil =>
      simp only [List.nil_append, List.cons_append, List.cons.injEq] at h
      obtain ⟨hx, hab⟩ := h
      subst hx
      cases a with
      | nil =>
        right; right
        simp only [List.nil_append] at hab
        simp [hab]
      | cons y a' =>
        simp only [List.cons_append, List.cons.injEq] at hab
        obtain ⟨hy, _⟩ := hab
        subst hy
        left; exact ⟨[], a', rfl⟩
    | cons z s' =>
      simp only [List.cons_append, List.cons.injEq] at h
      obtain ⟨hx, hab⟩ := h
      subst hx
      rcases ih b s' u hab with ⟨s1, u1, h1⟩ | h2 | ⟨h3, h4⟩
      · left; exact ⟨x :: s1, u1, by simp [h1]⟩
      · right; left; exact h2
      · right; right
        refine ⟨?_, h4⟩
        cases a with
        | nil => simp at h3
        | cons y a' => simpa [List.getLast?_cons_cons] using h3

theorem no_double_slash_of_chars (w : List Char) (h : ∀ c ∈ w, c ≠ '/') :
    ∀ s u : List Char, w ≠ s ++ '/' :: '/' :: u := by
  intro s u heq
  exact h '/' (by rw [heq]; simp) rfl

theorem getLast?_comp (comp : List Char) (hcomp : Comp comp) : comp.getLast? ≠ some '/' := by
  intro h
  have hmem : '/' ∈ comp := List.mem_of_getLast?_eq_some h
  exact (hcomp.2.1 '/' hmem).1 rfl

theorem head?_comp (comp : List Char) (hcomp : Comp comp) : comp.head? ≠ some '/' := by
  intro h
  have hmem : '/' ∈ comp := List.mem_of_mem_head? h
  exact (hcomp.2.1 '/' hmem).1 rfl

theorem comp_chars_slash (comp : List Char) (hcomp : Comp comp) : ∀ c ∈ comp, c ≠ '/' :=
  fun c hc => (hcomp.2.1 c hc).1

/-- An output that ends at a component boundary has no two separators in a
row. -/
theorem segs_no_double_slash (r : List Char) (h : Segs r) :
    ∀ s u : List Char, r.reverse ≠ s ++ '/' :: '/' :: u := by
  induction h with
  | nil => intro s u h; simp at h
  | root =>
    intro s u h
    have := congrArg List.length h
    simp at this
    omega
  | snoc r comp _ hcomp ih =>
    intro s u h
    have hrev : ('/' :: (comp.reverse ++ r)).reverse = (r.reverse ++ comp) ++ ['/'] := by simp
    rw [hrev] at h
    rcases double_slash_append _ _ s u h with ⟨s1, u1, h1⟩ | ⟨s1, u1, h1⟩ | ⟨h3, _⟩
    · rcases double_slash_append _ _ s1 u1 h1 with ⟨s2, u2, h2⟩ | ⟨s2, u2, h2⟩ | ⟨_, h4⟩
      · exact ih s2 u2 h2
      · exact no_double_slash_of_chars comp (comp_chars_slash comp hcomp) s2 u2 h2
      · exact head?_comp comp hcomp h4
    · have := congrArg List.length h1
      simp at this
      omega
    · rw [List.getLast?_append_of_ne_nil _ hcomp.1] at h3
      exact getLast?_comp comp hcomp h3

/-- The components of an output that ends at a component boundary, followed by
a run `w` without separator, are empty, `w`, or kept components. -/
theorem segs_components (r : List Char) (h : Segs r) :
    ∀ w : List Char, (∀ c ∈ w, c ≠ '/') →
      ∀ c ∈ components (r.reverse ++ w), c = [] ∨ c = w ∨ Comp c := by
  induction h with
  | nil =>
    intro w hw c hc
    simp only [List.reverse_nil, List.nil_append, components_of_comp w hw,
      List.mem_singleton] at hc
    right; left; exact hc
  | root =>
    intro w hw c hc
    simp only [List.reverse_cons, List.reverse_nil, List.nil_append, List.singleton_append,
      components_cons_slash, components_of_comp w hw, List.mem_cons, List.mem_singleton,
      List.not_mem_nil, or_false] at hc
    rcases hc with hc | hc
    · left; exact hc
    · right; left; exact hc
  | snoc r comp _ hcomp ih =>
    intro w hw c hc
    have hrev : ('/' :: (comp.reverse ++ r)).reverse ++ w = (r.reverse ++ comp) ++ '/' :: w := by
      simp
    rw [hrev, components_append, components_of_comp w hw, List.mem_append,
      List.mem_singleton] at hc
    rcases hc with hc | hc
    · rcases ih comp (comp_chars_slash comp hcomp) c hc with h1 | h2 | h3
      · left; exact h1
      · right; right; rw [h2]; exact hcomp
      · right; right; exact h3
    · right; left; exact hc

/-- What a normal form looks like. -/
theorem canon_shape (y : List Char) (h : Canon y) :
    y ≠ [] ∧ (∀ s u : List Char, y ≠ s ++ '/' :: '/' :: u) ∧
    (∀ c ∈ components y, c ≠ ['.'] ∧ c ≠ ['.', '.']) ∧
    (y.getLast? = some '/' → y = ['/']) := by
  rcases h with rfl | ⟨r, comp, hsegs, hcomp, rfl⟩
  · refine ⟨by simp, ?_, by decide, fun _ => rfl⟩
    intro s u h
    have := congrArg List.length h
    simp at this
    omega
  · refine ⟨?_, ?_, ?_, ?_⟩
    · intro h
      exact hcomp.1 (List.append_eq_nil.mp h).2
    · intro s u h
      rcases double_slash_append _ _ s u h with ⟨s1, u1, h1⟩ | ⟨s1, u1, h1⟩ | ⟨_, h4⟩
      · exact segs_no_double_slash r hsegs s1 u1 h1
      · exact no_double_slash_of_chars comp (comp_chars_slash comp hcomp) s1 u1 h1
      · exact head?_comp comp hcomp h4
    · intro c hc
      rcases segs_components r hsegs comp (comp_chars_slash comp hcomp) c hc with h1 | h2 | h3
      · subst h1; exact ⟨by simp, by simp⟩
      · subst h2; exact ⟨hcomp.2.2.1, hcomp.2.2.2⟩
      · exact ⟨h3.2.2.1, h3.2.2.2⟩
    · intro h
      rw [List.getLast?_append_of_ne_nil _ hcomp.1] at h
      exact absurd h (getLast?_comp comp hcomp)

/-- C13: for every input, `resolve_path` returns a path that is not empty, has
no two separators in a row, has no component equal to `.` or `..`, and ends in a
separator only if it is `/`; and a component that begins with `.` or with `..`
and has further characters (none of them a separator or terminator) is kept as
it is, here right after the root. -/
theorem resolve_path_output_shape (x : List Char) :
    (∃ y, resolve_path x = some y ∧ y ≠ [] ∧
      (∀ s u : List Char, y ≠ s ++ '/' :: '/' :: u) ∧
      (∀ c ∈ components y, c ≠ ['.'] ∧ c ≠ ['.', '.']) ∧
      (y.getLast? = some '/' → y = ['/'])) ∧
    (x ≠ [] → x ≠ ['.'] → (∀ c ∈ x, c ≠ '/' ∧ c ≠ NUL) →
      resolve_path ('/' :: '.' :: x) = some ('/' :: '.' :: x)) ∧
    (x ≠ [] → (∀ c ∈ x, c ≠ '/' ∧ c ≠ NUL) →
      resolve_path ('/' :: '.' :: '.' :: x) = some ('/' :: '.' :: '.' :: x)) := by
  refine ⟨?_, ?_, ?_⟩
  · obtain ⟨y, hy, hc⟩ := resolve_path_canon x
    exact ⟨y, hy, canon_shape y hc⟩
  · intro h1 h2 h3
    apply resolve_path_of_canon
    right
    refine ⟨['/'], '.' :: x, Segs.root, ⟨by simp, ?_, by simpa using h1, by simpa using h2⟩, rfl⟩
    intro c hc
    rcases List.mem_cons.mp hc with rfl | hc
    · exact ⟨by decide, by decide⟩
    · exact h3 c hc
  · intro h1 h3
    apply resolve_path_of_canon
    right
    refine ⟨['/'], '.' :: '.' :: x, Segs.root, ⟨by simp, ?_, by simp, by simpa using h1⟩, rfl⟩
    intro c hc
    rcases List.mem_cons.mp hc with rfl | hc
    · exact ⟨by decide, by decide⟩
    · rcases List.mem_cons.mp hc with rfl | hc
      · exact ⟨by decide, by decide⟩
      · exact h3 c hc

/-- The shape of the output on `//a/./..b/`, and `.hidden` and `..name` kept. -/
theorem resolve_path_output_shape_witness :
    resolve_path "//a/./..b/".toList = some "/a/..b".toList ∧
    ("hidden".toList ≠ [] ∧ "hidden".toList ≠ ['.'] ∧
      (∀ c ∈ "hidden".toList, c ≠ '/' ∧ c ≠ NUL)) ∧
    resolve_path "/.hidden".toList = some "/.hidden".toList ∧
    resolve_path "/..hidden".toList = some "/..hidden".toList :=
  ⟨by decide, ⟨by decide, by decide, by decide⟩,
   (resolve_path_output_shape "hidden".toList).2.1 (by decide) (by decide) (by decide),
   (resolve_path_output_shape "hidden".toList).2.2 (by decide) (by decide)⟩


/-! ## Normalisation in place -/

theorem rest_cons_of_ne_nul (rest : List Char) (hlast : rest ≠ [] → rest.getLast? = some NUL)
    (hc : rest.headD NUL ≠ NUL) :
    rest.tail ≠ [] ∧ rest.tail.getLast? = some NUL ∧ rest.tail.length + 1 = rest.length := by
  cases rest with
  | nil => simp at hc
  | cons c t =>
    simp only [List.headD_cons] at hc
    have h := hlast (List.cons_ne_nil _ _)
    cases t with
    | nil =>
      simp only [List.getLast?_singleton, Option.some.injEq] at h
      exact absurd h hc
    | cons d t' =>
      rw [List.getLast?_cons_cons] at h
      exact ⟨List.cons_ne_nil _ _, h, by simp⟩

theorem length_rewind_le (rout : List Char) :
    (rout.tail.dropWhile (fun x => x != '/')).length ≤ rout.length := by
  have h1 := (List.dropWhile_sublist (fun x => x != '/') (l := rout.tail)).length_le
  have h2 : rout.tail.length ≤ rout.length := by simp
  omega

/-- The fit invariant is kept by every iteration. -/
theorem fit_inv_step (n : Nat) (a : Abs) (hinv : AbsInv a) (h : FitInv n a) :
    FitInv n (abs_step a) := by
  obtain ⟨st, rout, rest, adone⟩ := a
  obtain ⟨hsum, hlast, hout⟩ := h
  simp only at hsum hlast hout
  cases st
  case INITIAL =>
    simp only [abs_step]
    split_ifs <;> exact ⟨by simpa [slack] using hsum, hlast, hout⟩
  case FIELD_START =>
    simp only [abs_step]
    split_ifs <;> exact ⟨by simpa [slack] using hsum, hlast, hout⟩
  case IN_FIELD =>
    simp only [abs_step]
    split_ifs with h1 h2
    · exact ⟨by simpa [slack] using hsum, hlast, hout⟩
    · exact ⟨by simpa [slack] using hsum, hlast, hout⟩
    · obtain ⟨t1, t2, t3⟩ := rest_cons_of_ne_nul rest hlast h2
      have t4 : 1 ≤ rest.tail.length := List.length_pos.mpr t1
      simp only [slack, Nat.add_zero] at hsum
      exact ⟨by simp only [slack, List.length_cons]; omega, fun _ => t2,
        by simp only [List.length_cons]; omega⟩
  case SEPARATOR =>
    simp only [AbsInv] at hinv
    have hc : rest.headD NUL ≠ NUL := by
      simp [List.headD_eq_head?_getD, hinv.1]; decide
    obtain ⟨t1, t2, t3⟩ := rest_cons_of_ne_nul rest hlast hc
    have t4 : 1 ≤ rest.tail.length := List.length_pos.mpr t1
    simp only [slack, Nat.add_zero] at hsum
    simp only [abs_step]
    exact ⟨by simp only [slack, List.length_cons]; omega, fun _ => t2,
      by simp only [List.length_cons]; omega⟩
  case SEEN_SEPARATOR =>
    simp only [abs_step]
    split_ifs with h1 h2
    · obtain ⟨t1, t2, t3⟩ := rest_cons_of_ne_nul rest hlast (by rw [h1]; exact slash_ne_nul)
      simp only [slack, Nat.add_zero] at hsum
      exact ⟨by simp only [slack]; omega, fun _ => t2, hout⟩
    · exact ⟨by simpa [slack] using hsum, hlast, hout⟩
    · exact ⟨by simpa [slack] using hsum, hlast, hout⟩
  case DOT =>
    simp only [AbsInv] at hinv
    have hc : rest.headD NUL ≠ NUL := by
      simp [List.headD_eq_head?_getD, hinv.2]; decide
    obtain ⟨t1, t2, t3⟩ := rest_cons_of_ne_nul rest hlast hc
    simp only [slack, Nat.add_zero] at hsum
    simp only [abs_step]
    exact ⟨by simp only [slack]; omega, fun _ => t2, hout⟩
  case SEEN_DOT =>
    simp only [slack] at hsum
    simp only [abs_step]
    split_ifs with h1 h2 h3
    · exact ⟨by simpa [slack] using hsum, hlast, hout⟩
    · obtain ⟨t1, t2, t3⟩ := rest_cons_of_ne_nul rest hlast (by rw [h2]; exact slash_ne_nul)
      exact ⟨by simp only [slack]; omega, fun _ => t2, hout⟩
    · exact ⟨by simpa [slack] using hsum, hlast, hout⟩
    · obtain ⟨t1, t2, t3⟩ := rest_cons_of_ne_nul rest hlast h3
      exact ⟨by simp only [slack, List.length_cons]; omega, hlast,
        by simp only [List.length_cons]; omega⟩
  case DOTDOT =>
    simp only [AbsInv] at hinv
    have hc : rest.headD NUL ≠ NUL := by
      simp [List.headD_eq_head?_getD, hinv.2]; decide
    obtain ⟨t1, t2, t3⟩ := rest_cons_of_ne_nul rest hlast hc
    simp only [slack] at hsum
    simp only [abs_step]
    exact ⟨by simp only [slack]; omega, fun _ => t2, hout⟩
  case SEEN_DOTDOT =>
    simp only [slack] at hsum
    simp only [abs_step]
    have hrw := length_rewind_le rout
    split_ifs with h1 h2
    · -- the terminator: the cursor moves past it
      refine ⟨?_, ?_, by simp only; omega⟩
      · have : rest.tail.length ≤ rest.length := by simp
        simp only [slack]; omega
      · intro hne
        cases rest with
        | nil => simp at hne
        | cons c t =>
          have := hlast (List.cons_ne_nil _ _)
          cases t with
          | nil => simp at hne
          | cons d t' => rw [List.getLast?_cons_cons] at this; exact this
    · have hs : rest.headD NUL = '/' := by
        rcases h1 with h1 | h1
        · exact h1
        · exact absurd h1 h2
      obtain ⟨t1, t2, t3⟩ := rest_cons_of_ne_nul rest hlast (by rw [hs]; exact slash_ne_nul)
      exact ⟨by simp only [slack]; omega, fun _ => t2, by simp only; omega⟩
    · have h3 : rest.headD NUL ≠ NUL := fun hh => h1 (Or.inr hh)
      obtain ⟨t1, t2, t3⟩ := rest_cons_of_ne_nul rest hlast h3
      exact ⟨by simp only [slack, List.length_cons]; omega, hlast,
        by simp only [List.length_cons]; omega⟩

theorem fit_inv_init (x : List Char) : FitInv x.length (abs_init x) := by
  refine ⟨by simp [abs_init, slack], ?_, by simp [abs_init]⟩
  intro _
  simp [abs_init]


theorem length_poke_of_lt (l : List Char) (i : Nat) (c : Char) (h : i < l.length) :
    (poke l i c).length = l.length := by
  simp [poke, h]

/-- No iteration writes outside the buffer: its length stays what it was. -/
theorem step_length (c : Cursor) (a : Abs) (h : Sim c a)
    (hsep : a.state = .SEPARATOR → a.rest.head? = some '/') :
    (resolve_step c).path.length = c.path.length := by
  obtain ⟨path, outpos, pos, done, state⟩ := c
  obtain ⟨st, rout, rest, adone⟩ := a
  obtain ⟨hs, hd, hlen, htake, hdrop, hsl⟩ := h
  simp only at hs hd hlen htake hdrop hsl hsep
  subst hs hd
  have hpeek : peek path pos = rest.headD NUL := peek_of_drop path rest pos hdrop
  cases state
  case INITIAL => simp only [resolve_step]; split_ifs <;> rfl
  case FIELD_START => simp only [resolve_step]; split_ifs <;> rfl
  case IN_FIELD =>
    simp only [resolve_step, hpeek]
    split_ifs with h1 h2
    · rfl
    · rfl
    · have hpos : pos < path.length := by
        apply lt_of_peek_ne; rw [hpeek]; exact h2
      simp only [slack, Nat.add_zero] at hsl
      exact length_poke_of_lt _ _ _ (Nat.lt_of_le_of_lt hsl hpos)
  case SEPARATOR =>
    simp only [resolve_step]
    have hhead := hsep rfl
    have hpos : pos < path.length := by
      apply lt_of_peek_ne; rw [hpeek]
      simp [List.headD_eq_head?_getD, hhead]; decide
    simp only [slack, Nat.add_zero] at hsl
    exact length_poke_of_lt _ _ _ (Nat.lt_of_le_of_lt hsl hpos)
  case SEEN_SEPARATOR => simp only [resolve_step]; split_ifs <;> rfl
  case DOT => rfl
  case SEEN_DOT =>
    simp only [resolve_step, hpeek]
    simp only [slack] at hsl
    split_ifs with h1 h2 h3
    · rfl
    · rfl
    · rfl
    · have hpos : pos < path.length := by
        apply lt_of_peek_ne; rw [hpeek]; exact h3
      exact length_poke_of_lt _ _ _ (by omega)
  case DOTDOT => rfl
  case SEEN_DOTDOT =>
    simp only [resolve_step, hpeek]
    simp only [slack] at hsl
    split
    · rfl
    · rename_i h1
      have h3 : rest.headD NUL ≠ NUL := fun hh => h1 (Or.inr hh)
      have hpos : pos < path.length := by
        apply lt_of_peek_ne; rw [hpeek]; exact h3
      have hout0 : outpos < path.length := by omega
      have hl1 := length_poke_of_lt path outpos '.' hout0
      rw [length_poke_of_lt _ _ _ (by rw [hl1]; omega), hl1]

/-- At every iteration of the loop the buffer and the cursors are described by
an abstract state that satisfies the invariants, and the buffer has kept its
length. -/
theorem trace_sim (N : Nat) : ∀ (n : Nat) (c : Cursor) (a : Abs), Sim c a → AbsInv a →
    FitInv N a →
    ∃ a', Sim (resolve_trace n c) a' ∧ AbsInv a' ∧ FitInv N a' ∧
      (resolve_trace n c).path.length = c.path.length := by
  intro n
  induction n with
  | zero => intro c a hs hi hf; exact ⟨a, hs, hi, hf, by simp [resolve_trace]⟩
  | succ n ih =>
    intro c a hs hi hf
    cases hd : c.done with
    | true =>
      simp only [resolve_trace, hd, if_true]
      exact ⟨a, hs, hi, hf, trivial⟩
    | false =>
      simp only [resolve_trace, hd, Bool.false_eq_true, if_false]
      have hsep := abs_inv_sep a hi
      obtain ⟨a', h1, h2, h3, h4⟩ := ih _ _ (sim_step c a hs hsep) (abs_inv_step a hi)
        (fit_inv_step N a hi hf)
      exact ⟨a', h1, h2, h3, by rw [h4, step_length c a hs hsep]⟩

theorem resolve_loop_trace : ∀ (n : Nat) (c c' : Cursor), resolve_loop n c = some c' →
    resolve_trace n c = c' := by
  intro n
  induction n with
  | zero =>
    intro c c' h
    cases hd : c.done with
    | true => simp [resolve_loop, hd] at h; subst h; rfl
    | false => simp [resolve_loop, hd] at h
  | succ n ih =>
    intro c c' h
    cases hd : c.done with
    | true => simp [resolve_loop, hd] at h; subst h; simp [resolve_trace, hd]
    | false =>
      simp only [resolve_loop, hd, Bool.false_eq_true, if_false] at h
      simp only [resolve_trace, hd, Bool.false_eq_true, if_false]
      exact ih _ _ h

theorem resolve_finish_eq (c : Cursor) : resolve_finish c = cstr (resolve_finish_buf c) := by
  simp only [resolve_finish, resolve_finish_buf]
  split_ifs <;> rfl

theorem length_abs_finish (a : Abs) : (abs_finish a).length ≤ max 1 a.rout.length := by
  simp only [abs_finish]
  split_ifs with h1 h2
  · simp
  · simp only [List.length_reverse, List.length_tail]; omega
  · simp only [List.length_reverse]; omega

/-- C20: normalisation in place never writes past its input.  At every
iteration of the loop of `resolve_path` the write cursor is not beyond the read
cursor and the buffer still has the length of the input and its terminator;
and for a non-empty input the loop ends, the result is no longer than the
input, and the buffer left by the code after the loop still has that length:
every write, the final terminator included, fell inside it. -/
theorem resolve_path_in_place (x : List Char) :
    (∀ n : Nat, (resolve_trace n (resolve_init x)).outpos ≤ (resolve_trace n (resolve_init x)).pos ∧
      (resolve_trace n (resolve_init x)).path.length = x.length + 1) ∧
    (x ≠ [] → ∃ c y, resolve_loop (resolve_fuel x) (resolve_init x) = some c ∧
      resolve_path x = some y ∧ y = cstr (resolve_finish_buf c) ∧
      y.length ≤ x.length ∧ (resolve_finish_buf c).length = x.length + 1) := by
  have hinit_len : (resolve_init x).path.length = x.length + 1 := by simp [resolve_init]
  constructor
  · intro n
    obtain ⟨a', hs, _, _, hl⟩ := trace_sim x.length n _ _ (sim_init x) (abs_inv_init x)
      (fit_inv_init x)
    refine ⟨?_, by rw [hl, hinit_len]⟩
    have := hs.2.2.2.2.2
    omega
  · intro hx
    have hxl : 1 ≤ x.length := List.length_pos.mpr hx
    obtain ⟨f, hf, hd, hinv, hres⟩ := resolve_path_abs x
    rcases sim_loop (resolve_fuel x) _ _ (sim_init x) (abs_inv_init x) with
      ⟨_, h2⟩ | ⟨c, a', h1, h2, _⟩
    · rw [hf] at h2; cases h2
    · have htr := resolve_loop_trace _ _ _ h1
      obtain ⟨a, hs, hi, hfit, hl⟩ := trace_sim x.length (resolve_fuel x) _ _ (sim_init x)
        (abs_inv_init x) (fit_inv_init x)
      rw [htr] at hs hl
      rw [hinit_len] at hl
      have hy : resolve_path x = some (resolve_finish c) := by
        simp [resolve_path, h1]
      have hfin := finish_sim c a hs (abs_inv_nul_free a hi)
      have hout : c.outpos ≤ x.length := by
        have := hs.2.2.1
        have := hfit.2.2
        omega
      refine ⟨c, resolve_finish c, h1, hy, resolve_finish_eq c, ?_, ?_⟩
      · rw [hfin]
        have h3 := length_abs_finish a
        have h4 := hfit.2.2
        omega
      · simp only [resolve_finish_buf]
        split_ifs with h5 h6
        · have hl0 : (poke c.path 0 '/').length = c.path.length :=
            length_poke_of_lt _ _ _ (by omega)
          rw [length_poke_of_lt _ _ _ (by rw [hl0]; omega), hl0, hl]
        · rw [length_poke_of_lt _ _ _ (by omega), hl]
        · rw [length_poke_of_lt _ _ _ (by omega), hl]

/-- On the input `/a/../b`: the cursors after six iterations, the result, and
the buffer left behind, which keeps its eight cells. -/
theorem resolve_path_in_place_witness :
    "/a/../b".toList ≠ [] ∧
    ((resolve_trace 6 (resolve_init "/a/../b".toList)).outpos
        ≤ (resolve_trace 6 (resolve_init "/a/../b".toList)).pos ∧
      (resolve_trace 6 (resolve_init "/a/../b".toList)).path.length
        = "/a/../b".toList.length + 1) ∧
    ∃ c y, resolve_loop (resolve_fuel "/a/../b".toList) (resolve_init "/a/../b".toList)
        = some c ∧
      resolve_path "/a/../b".toList = some y ∧ y = cstr (resolve_finish_buf c) ∧
      y.length ≤ "/a/../b".toList.length ∧
      (resolve_finish_buf c).length = "/a/../b".toList.length + 1 :=
  ⟨by decide, (resolve_path_in_place "/a/../b".toList).1 6,
   (resolve_path_in_place "/a/../b".toList).2 (by decide)⟩

/-! ## Lemmas on the block device and the archive layout -/

theorem strncmp_succ_length_eq_zero :
    ∀ a b : List Char, strncmp a b (a.length + 1) = 0 ↔ a = b := by
  intro a
  induction a with
  | nil =>
    intro b
    cases b with
    | nil => simp [strncmp]
    | cons y bs => simp [strncmp]
  | cons x as ih =>
    intro b
    cases b with
    | nil => simp [strncmp]
    | cons y bs =>
      by_cases hxy : x = y
      · subst hxy
        simp [strncmp, ih bs]
      · have hne : (if x < y then (-1 : Int) else 1) ≠ 0 := by split <;> decide
        simp [strncmp, hxy, hne]

theorem bdev_read_length (dev : List Char) (off len : Nat) :
    (bdev_read dev off len).length = min len (dev.length - off) := by
  simp [bdev_read]

theorem drop_of_bdev_read (dev : List Char) (off : Nat) (l : List Char)
    (h : bdev_read dev off l.length = l) : dev.drop off = l ++ dev.drop (off + l.length) := by
  have h1 := List.take_append_drop l.length (dev.drop off)
  rw [List.drop_drop] at h1
  unfold bdev_read at h
  rw [h] at h1
  rw [← h1]

theorem cstr_append_nul (name rest : List Char) (hn : ∀ c ∈ name, c ≠ NUL) :
    cstr (name ++ NUL :: rest) = name := by
  induction name with
  | nil => simp [cstr, List.takeWhile]
  | cons x xs ih =>
    have hx : x ≠ NUL := hn x (List.mem_cons_self _ _)
    have ih1 := ih (fun c hc => hn c (List.mem_cons_of_mem _ hc))
    simp only [cstr] at ih1 ⊢
    simp [List.takeWhile_cons, hx, ih1]

theorem cstr_of_nul_free (name : List Char) (hn : ∀ c ∈ name, c ≠ NUL) :
    cstr name = name := by
  induction name with
  | nil => simp [cstr]
  | cons x xs ih =>
    have hx : x ≠ NUL := hn x (List.mem_cons_self _ _)
    have ih1 := ih (fun c hc => hn c (List.mem_cons_of_mem _ hc))
    simp only [cstr] at ih1 ⊢
    simp [List.takeWhile_cons, hx, ih1]

/-- The bytes that `dumbfs_open` compares with the tail: when the name stored on
the device is followed by its terminator, the comparison succeeds exactly for the
tail that is the name. -/
theorem cstr_take_name (name rest path : List Char) (hn : ∀ c ∈ name, c ≠ NUL) :
    cstr ((name ++ NUL :: rest).take (path.length + 1)) = path ↔ name = path := by
  by_cases hle : name.length ≤ path.length
  · have h1 : (name ++ NUL :: rest).take (path.length + 1)
        = name ++ NUL :: rest.take (path.length - name.length) := by
      rw [List.take_append_eq_append_take]
      have h2 : List.take (path.length + 1) name = name :=
        List.take_of_length_le (by omega)
      have h3 : path.length + 1 - name.length = (path.length - name.length) + 1 := by omega
      rw [h2, h3, List.take_succ_cons]
    rw [h1, cstr_append_nul _ _ hn]
  · have hlt : path.length + 1 ≤ name.length := by omega
    have h1 : (name ++ NUL :: rest).take (path.length + 1) = name.take (path.length + 1) := by
      rw [List.take_append_of_le_length hlt]
    have h2 : ∀ c ∈ name.take (path.length + 1), c ≠ NUL :=
      fun c hc => hn c (List.mem_of_mem_take hc)
    rw [h1, cstr_of_nul_free _ h2]
    constructor
    · intro h
      have := congrArg List.length h
      simp at this
      omega
    · intro h
      subst h
      omega

/-- What the layout says of the first entry: the bytes of the device after its
header are its name, a terminator, its payload, then whatever follows. -/
theorem entries_at_cons_drop (dev : List Char) (off : Nat) (e : dumb_entry)
    (es : List dumb_entry) (h : entries_at dev off (e :: es)) :
    dev.drop (off + 8)
      = (e.name ++ NUL :: e.payload) ++ dev.drop (off + 8 + (e.name.length + 1 + e.payload.length)) := by
  obtain ⟨_, _, h3, _⟩ := h
  have hl : (e.name ++ NUL :: e.payload).length = e.name.length + 1 + e.payload.length := by
    simp; omega
  rw [← hl] at h3
  have := drop_of_bdev_read dev (off + 8) _ h3
  rw [hl] at this
  exact this

theorem entries_at_cons_length (dev : List Char) (off : Nat) (e : dumb_entry)
    (es : List dumb_entry) (h : entries_at dev off (e :: es)) :
    off + 8 + (e.name.length + 1 + e.payload.length) ≤ dev.length := by
  have h1 := congrArg List.length (entries_at_cons_drop dev off e es h)
  obtain ⟨h0, _, _, _⟩ := h
  rw [bdev_read_length] at h0
  simp at h1
  omega

theorem entries_at_payload (dev : List Char) (off : Nat) (e : dumb_entry)
    (es : List dumb_entry) (h : entries_at dev off (e :: es)) :
    bdev_read dev (off + 8 + e.name.length + 1) e.payload.length = e.payload := by
  have h1 := entries_at_cons_drop dev off e es h
  have h2 : dev.drop (off + 8 + e.name.length + 1)
      = (dev.drop (off + 8)).drop (e.name.length + 1) := by
    rw [List.drop_drop, Nat.add_assoc (off + 8)]
  unfold bdev_read
  rw [h2, h1]
  have h3 : e.name ++ NUL :: e.payload = (e.name ++ [NUL]) ++ e.payload := by simp
  have h4 : (e.name ++ [NUL]).length = e.name.length + 1 := by simp
  rw [h3, List.append_assoc, ← h4, List.drop_left, List.take_left]

theorem entries_at_name_read (dev : List Char) (off : Nat) (e : dumb_entry)
    (es : List dumb_entry) (h : entries_at dev off (e :: es)) (path : List Char) :
    cstr (bdev_read dev (off + 8) (path.length + 1)) = path ↔ e.name = path := by
  have h1 := entries_at_cons_drop dev off e es h
  obtain ⟨_, _, _, hn, _⟩ := h
  unfold bdev_read
  rw [h1, List.append_assoc, List.cons_append]
  exact cstr_take_name _ _ _ hn

/-- The scan of `dumbfs_open` over a laid-out archive that holds the tail as a
name stops at the first entry with that name. -/
theorem dumbfs_open_scan_found (dev path : List Char) :
    ∀ (es : List dumb_entry) (off n : Nat), entries_at dev off es →
      (∃ e ∈ es, e.name = path) → es.length ≤ n →
      ∃ o e, first_named path off es = some (o, e) ∧ off ≤ o ∧
        o + 8 + (path.length + 1) ≤ dev.length ∧ e.name = path ∧
        dumbfs_open_scan dev path true n off
          = (.OK, some { header := { entry_size := e.entry_size,
                                     file_size := e.payload.length },
                         bdev_offset := o + 8 + path.length + 1, seek_offset := 0 }) ∧
        bdev_read dev (o + 8 + path.length + 1) e.payload.length = e.payload := by
  intro es
  induction es with
  | nil => intro off n _ hex; obtain ⟨e, he, _⟩ := hex; cases he
  | cons e es ih =>
    intro off n hl hex hn
    cases n with
    | zero => simp at hn
    | succ n =>
      have hname := entries_at_name_read dev off e es hl path
      have hlen := entries_at_cons_length dev off e es hl
      have hpay := entries_at_payload dev off e es hl
      obtain ⟨h8, hhdr, _, _, _, hrest⟩ := hl
      by_cases hm : e.name = path
      · refine ⟨off, e, by simp [first_named, hm], le_refl _, ?_, hm, ?_, ?_⟩
        · rw [← hm]; omega
        · have hfl : (bdev_read dev (off + 8) (path.length + 1)).length = path.length + 1 := by
            rw [bdev_read_length, ← hm]; omega
          have hcmp : strncmp path (cstr (bdev_read dev (off + 8) (path.length + 1)))
              (path.length + 1) = 0 := by
            rw [strncmp_succ_length_eq_zero]; exact (hname.2 hm).symm
          simp only [dumbfs_open_scan, strlen, h8, hfl, hcmp, hhdr]
          simp
        · rw [← hm]; exact hpay
      · have hex1 : ∃ e1 ∈ es, e1.name = path := by
          obtain ⟨e1, he1, hn1⟩ := hex
          rcases List.mem_cons.1 he1 with h | h
          · subst h; exact absurd hn1 hm
          · exact ⟨e1, h, hn1⟩
        obtain ⟨o, e1, hf, hoff, hdl, hn1, hscan, hp1⟩ :=
          ih (off + 8 + e.entry_size) n hrest hex1 (by simpa using hn)
        refine ⟨o, e1, by simp [first_named, hm, hf], by omega, hdl, hn1, ?_, hp1⟩
        have hfl : (bdev_read dev (off + 8) (path.length + 1)).length = path.length + 1 := by
          rw [bdev_read_length]; omega
        have hcmp : strncmp path (cstr (bdev_read dev (off + 8) (path.length + 1)))
            (path.length + 1) ≠ 0 := by
          rw [Ne, strncmp_succ_length_eq_zero]
          intro h; exact hm (hname.1 h.symm)
        simp only [dumbfs_open_scan, strlen, h8, hfl, hhdr]
        simp [hcmp, hscan]

/-! ## Opening a file of the archive -/

theorem dumbfs_mount_archive (dev : List Char) (entries : List dumb_entry) (dumb : fs_dumb)
    (harch : archive dev entries) (hdumb : dumbfs_mount true dev = (.OK, some dumb)) :
    dumb.nb_files = entries.length := by
  obtain ⟨h4, hn, _⟩ := harch
  simp only [dumbfs_mount, h4] at hdumb
  simp at hdumb
  rw [← hdumb, hn]

/-- With any two bytes of filling after each payload, the device of scenario 4
holds the archive of the two entries of the scenario. -/
theorem scenario4_archive (p1 p2 p3 p4 : Char) :
    archive (scenario4 [p1, p2] [p3, p4]) scenario4_entries := by
  simp [archive, entries_at, scenario4_entries, scenario4, enc32, bdev_read, le32, read_header]
  decide

theorem scenario4_mount (p1 p2 p3 p4 : Char) :
    dumbfs_mount true (scenario4 [p1, p2] [p3, p4]) = (.OK, some { nb_files := 2 }) := by
  simp [dumbfs_mount, scenario4, enc32, bdev_read, le32]

/-- C15: on a device that holds a flat archive, mounted by `dumbfs_mount`,
`dumbfs_open` of a non-empty tail that is the name of some entry returns `OK`,
sets `FS_REGULAR_FILE` in the type of the handle, and stores a file state with
seek offset 0 whose `bdev_offset` is the device offset of the first payload byte
of the first entry, in archive order, whose name is the tail: the payload of that
entry is what the device holds from there.  For the empty tail it sets
`FS_DIRECTORY` and returns `OK`.  On the archive of scenario 4, whatever bytes
fill the entries up to their `entry_size`, the tail of `/a` under the root mount
is `a`, and opening it then reading 5 bytes yields `hello` and leaves the seek
offset at 5. -/
theorem dumbfs_open_first_entry (FS_REGULAR_FILE FS_DIRECTORY : Nat) (handle : dumb_handle) :
    (∀ (dev : List Char) (entries : List dumb_entry) (dumb : fs_dumb) (tail : List Char),
      archive dev entries → dumbfs_mount true dev = (.OK, some dumb) → tail ≠ [] →
      (∃ e ∈ entries, e.name = tail) →
      ∃ off e, first_named tail 4 entries = some (off, e) ∧
        dumbfs_open FS_REGULAR_FILE FS_DIRECTORY dev dumb handle tail true true
          = (.OK, { type := handle.type ||| FS_REGULAR_FILE,
                    file_data := some { header := { entry_size := e.entry_size,
                                                    file_size := e.payload.length },
                                        bdev_offset := off + 8 + e.name.length + 1,
                                        seek_offset := 0 } }) ∧
        bdev_read dev (off + 8 + e.name.length + 1) e.payload.length = e.payload) ∧
    (∀ (dev : List Char) (dumb : fs_dumb),
      dumbfs_open FS_REGULAR_FILE FS_DIRECTORY dev dumb handle [] true true
        = (.OK, { type := handle.type ||| FS_DIRECTORY, file_data := none })) ∧
    (∀ (SIZE_BITS : Nat) (p1 p2 p3 p4 : Char),
      trimmed "/a".toList (strlen "/".toList) = "a".toList ∧
      ∃ dumb file,
        dumbfs_mount true (scenario4 [p1, p2] [p3, p4]) = (.OK, some dumb) ∧
        dumbfs_open FS_REGULAR_FILE FS_DIRECTORY (scenario4 [p1, p2] [p3, p4]) dumb handle
            "a".toList true true
          = (.OK, { type := handle.type ||| FS_REGULAR_FILE, file_data := some file }) ∧
        dumbfs_read SIZE_BITS (scenario4 [p1, p2] [p3, p4]) file 5
          = (.OK, "hello".toList, 5, { file with seek_offset := 5 })) := by
  have hgen : ∀ (dev : List Char) (entries : List dumb_entry) (dumb : fs_dumb)
      (tail : List Char),
      archive dev entries → dumbfs_mount true dev = (.OK, some dumb) → tail ≠ [] →
      (∃ e ∈ entries, e.name = tail) →
      ∃ off e, first_named tail 4 entries = some (off, e) ∧
        dumbfs_open FS_REGULAR_FILE FS_DIRECTORY dev dumb handle tail true true
          = (.OK, { type := handle.type ||| FS_REGULAR_FILE,
                    file_data := some { header := { entry_size := e.entry_size,
                                                    file_size := e.payload.length },
                                        bdev_offset := off + 8 + e.name.length + 1,
                                        seek_offset := 0 } }) ∧
        bdev_read dev (off + 8 + e.name.length + 1) e.payload.length = e.payload := by
    intro dev entries dumb tail harch hdumb hne hex
    have hnb := dumbfs_mount_archive dev entries dumb harch hdumb
    obtain ⟨o, e, hf, _, _, hn, hscan, hp⟩ :=
      dumbfs_open_scan_found dev tail entries 4 dumb.nb_files harch.2.2 hex (by omega)
    refine ⟨o, e, hf, ?_, by rw [hn]; exact hp⟩
    simp only [dumbfs_open, hne, if_false, hscan, hn]
    simp
  refine ⟨hgen, ?_, ?_⟩
  · intro dev dumb
    simp [dumbfs_open]
  · intro SIZE_BITS p1 p2 p3 p4
    refine ⟨by decide, ?_⟩
    obtain ⟨off, e, hf, hopen, hp⟩ :=
      hgen _ _ _ "a".toList (scenario4_archive p1 p2 p3 p4) (scenario4_mount p1 p2 p3 p4)
        (by decide) ⟨_, List.mem_cons_self _ _, rfl⟩
    have hf1 : first_named "a".toList 4 scenario4_entries
        = some (4, { entry_size := 9, name := "a".toList, payload := "hello".toList }) := by
      decide
    rw [hf1] at hf
    simp only [Option.some.injEq, Prod.mk.injEq] at hf
    obtain ⟨ho, he⟩ := hf
    subst ho
    subst he
    refine ⟨_, _, scenario4_mount p1 p2 p3 p4, hopen, ?_⟩
    have hle : (0 + 5) % 2 ^ SIZE_BITS ≤ 5 := Nat.mod_le _ _
    have hp5 : bdev_read (scenario4 [p1, p2] [p3, p4]) 14 5 = "hello".toList := hp
    simp only [dumbfs_read, String.length, List.length_cons, List.length_nil,
      String.toList] at hle ⊢
    simp [Nat.not_lt.2 hle, hp5]

theorem dumbfs_open_first_entry_witness :
    archive (scenario4 [NUL, NUL] [NUL, NUL]) scenario4_entries ∧
      ∃ off e, first_named "bb".toList 4 scenario4_entries = some (off, e) ∧
        dumbfs_open 1 2 (scenario4 [NUL, NUL] [NUL, NUL]) { nb_files := 2 }
            { type := 0, file_data := none } "bb".toList true true
          = (.OK, { type := 0 ||| 1,
                    file_data := some { header := { entry_size := e.entry_size,
                                                    file_size := e.payload.length },
                                        bdev_offset := off + 8 + e.name.length + 1,
                                        seek_offset := 0 } }) ∧
        bdev_read (scenario4 [NUL, NUL] [NUL, NUL]) (off + 8 + e.name.length + 1)
          e.payload.length = e.payload :=
  ⟨scenario4_archive NUL NUL NUL NUL,
   (dumbfs_open_first_entry 1 2 { type := 0, file_data := none }).1
     (scenario4 [NUL, NUL] [NUL, NUL]) scenario4_entries { nb_files := 2 } "bb".toList
     (scenario4_archive NUL NUL NUL NUL) (scenario4_mount NUL NUL NUL NUL) (by decide)
     ⟨_, List.mem_cons_of_mem _ (List.mem_cons_self _ _), rfl⟩⟩

/-! ## Reading an open file -/

theorem read_size_clamped (SIZE_BITS s n fs : Nat) (hs : s ≤ fs) (hn : s + n < 2 ^ SIZE_BITS) :
    (if (s + n) % 2 ^ SIZE_BITS > fs then (fs + 2 ^ SIZE_BITS - s) % 2 ^ SIZE_BITS else n)
      = min n (fs - s) := by
  rw [Nat.mod_eq_of_lt hn]
  split
  · have h1 : fs + 2 ^ SIZE_BITS - s = 2 ^ SIZE_BITS + (fs - s) := by omega
    rw [h1, Nat.add_mod_left, Nat.mod_eq_of_lt (by omega)]
    omega
  · omega

theorem payload_window (dev : List Char) (bo fs s m : Nat)
    (hpay : (bdev_read dev bo fs).length = fs) (hm : m ≤ fs - s) :
    bdev_read dev (bo + s) m = ((bdev_read dev bo fs).drop s).take m ∧
      (bdev_read dev (bo + s) m).length = m := by
  rw [bdev_read_length] at hpay
  constructor
  · unfold bdev_read
    rw [List.drop_take, List.take_take, List.drop_drop, Nat.min_eq_left hm]
  · rw [bdev_read_length]
    omega

/-- C16: for an open file whose payload of `file_size` bytes is on the device in
full, a seek offset `s` with `s ≤ file_size` and a request of `n` bytes such that
`s + n` does not overflow `size_t`, `dumbfs_read` returns `OK`, stores in the
destination the bytes of the payload at the positions from `s` up to
`min (s + n) file_size`, leaves `min n (file_size - s)` in `*size` and advances
the seek offset by that amount; a request for more than the bytes that remain
transfers the bytes that remain; and `fs_read` on a handle with the
`FS_REGULAR_FILE` bit does the same. -/
theorem dumbfs_read_clamped (SIZE_BITS FS_REGULAR_FILE : Nat) (dev : List Char)
    (file : dumbfs_file) (type n : Nat)
    (hpay : (bdev_read dev file.bdev_offset file.header.file_size).length
      = file.header.file_size)
    (hs : file.seek_offset ≤ file.header.file_size)
    (hn : file.seek_offset + n < 2 ^ SIZE_BITS) :
    dumbfs_read SIZE_BITS dev file n
        = (.OK,
           ((bdev_read dev file.bdev_offset file.header.file_size).drop
              file.seek_offset).take
             (min (file.seek_offset + n) file.header.file_size - file.seek_offset),
           min n (file.header.file_size - file.seek_offset),
           { file with
             seek_offset :=
               file.seek_offset + min n (file.header.file_size - file.seek_offset) }) ∧
      (file.header.file_size - file.seek_offset < n →
        (dumbfs_read SIZE_BITS dev file n).2.1
            = (bdev_read dev file.bdev_offset file.header.file_size).drop file.seek_offset ∧
          (dumbfs_read SIZE_BITS dev file n).2.2.1
            = file.header.file_size - file.seek_offset) ∧
      (type &&& FS_REGULAR_FILE ≠ 0 →
        fs_read SIZE_BITS FS_REGULAR_FILE dev type file n
          = dumbfs_read SIZE_BITS dev file n) := by
  have hsz := read_size_clamped SIZE_BITS file.seek_offset n file.header.file_size hs hn
  obtain ⟨hw, hl⟩ := payload_window dev file.bdev_offset file.header.file_size
    file.seek_offset (min n (file.header.file_size - file.seek_offset)) hpay
    (Nat.min_le_right _ _)
  have hmin : min (file.seek_offset + n) file.header.file_size - file.seek_offset
      = min n (file.header.file_size - file.seek_offset) := by omega
  have hread : dumbfs_read SIZE_BITS dev file n
      = (.OK,
         ((bdev_read dev file.bdev_offset file.header.file_size).drop
            file.seek_offset).take
           (min (file.seek_offset + n) file.header.file_size - file.seek_offset),
         min n (file.header.file_size - file.seek_offset),
         { file with
           seek_offset :=
             file.seek_offset + min n (file.header.file_size - file.seek_offset) }) := by
    rw [hw] at hl
    simp only [dumbfs_read, hsz, hmin, hw, hl]
  refine ⟨hread, ?_, ?_⟩
  · intro hlt
    rw [hread]
    have h1 : min n (file.header.file_size - file.seek_offset)
        = file.header.file_size - file.seek_offset := by omega
    refine ⟨?_, h1⟩
    simp only [hmin, h1]
    apply List.take_of_length_le
    rw [List.length_drop, hpay]
  · intro ht
    simp [fs_read, ht]

theorem dumbfs_read_clamped_witness :
    dumbfs_read 32 (scenario4 [NUL, NUL] [NUL, NUL])
        { header := { entry_size := 9, file_size := 5 }, bdev_offset := 14, seek_offset := 3 }
        100
      = (.OK, "lo".toList, 2,
         { header := { entry_size := 9, file_size := 5 }, bdev_offset := 14,
           seek_offset := 5 }) :=
  (dumbfs_read_clamped 32 1 (scenario4 [NUL, NUL] [NUL, NUL])
    { header := { entry_size := 9, file_size := 5 }, bdev_offset := 14, seek_offset := 3 }
    1 100 (by decide) (by decide) (by decide)).1

/-! ## A name that is not in the archive -/

/-- The name that `dumbfs_readdir` leaves in the entry: the bytes read from the
device, cut at `NAME_SIZE - 1`, and the terminator stored after them spell the
name of the archive entry when that name is shorter than the buffer. -/
theorem cstr_readdir_name (name rest stale : List Char) (k : Nat)
    (hn : ∀ c ∈ name, c ≠ NUL) (hk : name.length ≤ k) :
    cstr ((name ++ NUL :: rest).take k ++ NUL :: stale) = name := by
  have h1 : (name ++ NUL :: rest).take k = name ++ (NUL :: rest).take (k - name.length) := by
    rw [List.take_append_eq_append_take, List.take_of_length_le hk]
  rw [h1, List.append_assoc]
  cases hj : k - name.length with
  | zero => simp only [List.take_zero, List.nil_append]; exact cstr_append_nul _ _ hn
  | succ j => simp only [List.take_succ_cons, List.cons_append]; exact cstr_append_nul _ _ hn

theorem dumbfs_readdir_step (NAME_SIZE : Nat) (dev : List Char) (dumb : fs_dumb)
    (off i : Nat) (d : dirent) (e : dumb_entry) (es : List dumb_entry)
    (hl : entries_at dev off (e :: es)) (hi : i < dumb.nb_files)
    (hshort : e.name.length < NAME_SIZE) :
    ∃ d1, dumbfs_readdir NAME_SIZE dev dumb { bdev_offset := off, file_index := i } d
        = (.OK, { bdev_offset := off + 8 + e.entry_size, file_index := i + 1 }, d1) ∧
      cstr d1.name = e.name ∧ d1.dir = false := by
  have hdrop := entries_at_cons_drop dev off e es hl
  obtain ⟨h8, hhdr, _, hn, _, _⟩ := hl
  refine ⟨dirent.mk (bdev_read dev (off + 8) (NAME_SIZE - 1) ++
      NUL :: d.name.drop ((bdev_read dev (off + 8) (NAME_SIZE - 1)).length + 1)) false,
    ?_, ?_, rfl⟩
  · simp only [dumbfs_readdir, h8, hhdr]
    simp [Nat.not_le.2 hi, Nat.add_assoc]
  · simp only [bdev_read]
    rw [hdrop, List.append_assoc, List.cons_append]
    exact cstr_readdir_name _ _ _ _ hn (by omega)

theorem readdir_after_cursor (NAME_SIZE : Nat) (dev : List Char) (dumb : fs_dumb) :
    ∀ (k : Nat) (es : List dumb_entry) (off i : Nat) (d : dirent),
      entries_at dev off es → i + es.length = dumb.nb_files →
      (∀ e ∈ es, e.name.length < NAME_SIZE) → k ≤ es.length →
      (readdir_after NAME_SIZE dev dumb k { bdev_offset := off, file_index := i } d).1
          = { bdev_offset := entry_offset off es k, file_index := i + k } ∧
        entries_at dev (entry_offset off es k) (es.drop k) := by
  intro k
  induction k with
  | zero =>
    intro es off i d hl _ _ _
    cases es <;> exact ⟨rfl, hl⟩
  | succ k ih =>
    intro es off i d hl hnb hshort hk
    cases es with
    | nil => simp at hk
    | cons e es =>
      obtain ⟨d1, hstep, _, _⟩ := dumbfs_readdir_step NAME_SIZE dev dumb off i d e es hl
        (by simp at hnb; omega) (hshort e (List.mem_cons_self _ _))
      have hrest : entries_at dev (off + 8 + e.entry_size) es := hl.2.2.2.2.2
      obtain ⟨h1, h2⟩ := ih es (off + 8 + e.entry_size) (i + 1) d1 hrest
        (by simp at hnb; omega) (fun e1 he1 => hshort e1 (List.mem_cons_of_mem _ he1))
        (by simpa using hk)
      refine ⟨?_, by simpa [entry_offset] using h2⟩
      simp only [readdir_after, hstep, entry_offset]
      rw [h1]
      congr 1
      omega

theorem readdir_after_end (NAME_SIZE : Nat) (dev : List Char) (dumb : fs_dumb) :
    ∀ (j : Nat) (dir : dumbfs_dir) (d : dirent), dumb.nb_files ≤ dir.file_index →
      readdir_after NAME_SIZE dev dumb j dir d = (dir, d) := by
  intro j
  induction j with
  | zero => intro dir d _; rfl
  | succ j ih =>
    intro dir d h
    have hge : dir.file_index ≥ dumb.nb_files := h
    simp only [readdir_after, dumbfs_readdir, hge, if_true]
    exact ih dir d h

theorem readdir_after_add (NAME_SIZE : Nat) (dev : List Char) (dumb : fs_dumb) :
    ∀ (a b : Nat) (dir : dumbfs_dir) (d : dirent),
      readdir_after NAME_SIZE dev dumb (a + b) dir d
        = readdir_after NAME_SIZE dev dumb b
            (readdir_after NAME_SIZE dev dumb a dir d).1
            (readdir_after NAME_SIZE dev dumb a dir d).2 := by
  intro a
  induction a with
  | zero => intro b dir d; simp [readdir_after]
  | succ a ih =>
    intro b dir d
    have h : a + 1 + b = (a + b) + 1 := by omega
    rw [h]
    simp only [readdir_after]
    exact ih b _ _

theorem triple_eta {α β γ : Type} (x : α × β × γ) (a : α) (h : x.1 = a) :
    x = (a, x.2.1, x.2.2) := by
  obtain ⟨x1, x2, x3⟩ := x
  simp only at h
  subst h
  rfl

/-- C18 (as amended): on a device that holds a flat archive, mounted by
`dumbfs_mount`, whose names are all shorter than the name buffer of a directory
entry, starting from the cursor that `dumbfs_opendir` returns: the call of
`dumbfs_readdir` that follows `k` earlier calls, for `k` below the number of
entries, returns `OK` with the name of the entry at position `k` in archive
order, terminated, and the directory flag false; every call after as many calls
as there are entries returns `ERR_END_OF_DIRECTORY` and leaves the cursor,
offset and index, and the entry as they were.  On the archive of scenario 4
laid out as the format says, each entry filled up to its `entry_size` by two
bytes after its payload, whatever these bytes are, the calls yield `a`, then
`bb`, then `ERR_END_OF_DIRECTORY`. -/
theorem dumbfs_readdir_lists_entries (NAME_SIZE : Nat) (d0 : dirent) :
    (∀ (dev : List Char) (entries : List dumb_entry) (dumb : fs_dumb) (dir0 : dumbfs_dir),
      archive dev entries → dumbfs_mount true dev = (.OK, some dumb) →
      dumbfs_opendir true = (.OK, some dir0) →
      (∀ e ∈ entries, e.name.length < NAME_SIZE) →
      (∀ k e, entries[k]? = some e →
        (dumbfs_readdir NAME_SIZE dev dumb
            (readdir_after NAME_SIZE dev dumb k dir0 d0).1
            (readdir_after NAME_SIZE dev dumb k dir0 d0).2).1 = .OK ∧
          cstr (dumbfs_readdir NAME_SIZE dev dumb
            (readdir_after NAME_SIZE dev dumb k dir0 d0).1
            (readdir_after NAME_SIZE dev dumb k dir0 d0).2).2.2.name = e.name ∧
          (dumbfs_readdir NAME_SIZE dev dumb
            (readdir_after NAME_SIZE dev dumb k dir0 d0).1
            (readdir_after NAME_SIZE dev dumb k dir0 d0).2).2.2.dir = false) ∧
      (∀ k, entries.length ≤ k →
        dumbfs_readdir NAME_SIZE dev dumb
            (readdir_after NAME_SIZE dev dumb k dir0 d0).1
            (readdir_after NAME_SIZE dev dumb k dir0 d0).2
          = (.ERR_END_OF_DIRECTORY,
             (readdir_after NAME_SIZE dev dumb k dir0 d0).1,
             (readdir_after NAME_SIZE dev dumb k dir0 d0).2))) ∧
    (3 ≤ NAME_SIZE → ∀ p1 p2 p3 p4 : Char,
      ∃ dumb dir0 dir1 d1 dir2 d2,
        dumbfs_mount true (scenario4 [p1, p2] [p3, p4]) = (.OK, some dumb) ∧
        dumbfs_opendir true = (.OK, some dir0) ∧
        dumbfs_readdir NAME_SIZE (scenario4 [p1, p2] [p3, p4]) dumb dir0 d0
          = (.OK, dir1, d1) ∧
        cstr d1.name = "a".toList ∧
        dumbfs_readdir NAME_SIZE (scenario4 [p1, p2] [p3, p4]) dumb dir1 d1
          = (.OK, dir2, d2) ∧
        cstr d2.name = "bb".toList ∧
        dumbfs_readdir NAME_SIZE (scenario4 [p1, p2] [p3, p4]) dumb dir2 d2
          = (.ERR_END_OF_DIRECTORY, dir2, d2)) := by
  have hgen : ∀ (dev : List Char) (entries : List dumb_entry) (dumb : fs_dumb)
      (dir0 : dumbfs_dir),
      archive dev entries → dumbfs_mount true dev = (.OK, some dumb) →
      dumbfs_opendir true = (.OK, some dir0) →
      (∀ e ∈ entries, e.name.length < NAME_SIZE) →
      (∀ k e, entries[k]? = some e →
        (dumbfs_readdir NAME_SIZE dev dumb
            (readdir_after NAME_SIZE dev dumb k dir0 d0).1
            (readdir_after NAME_SIZE dev dumb k dir0 d0).2).1 = .OK ∧
          cstr (dumbfs_readdir NAME_SIZE dev dumb
            (readdir_after NAME_SIZE dev dumb k dir0 d0).1
            (readdir_after NAME_SIZE dev dumb k dir0 d0).2).2.2.name = e.name ∧
          (dumbfs_readdir NAME_SIZE dev dumb
            (readdir_after NAME_SIZE dev dumb k dir0 d0).1
            (readdir_after NAME_SIZE dev dumb k dir0 d0).2).2.2.dir = false) ∧
      (∀ k, entries.length ≤ k →
        dumbfs_readdir NAME_SIZE dev dumb
            (readdir_after NAME_SIZE dev dumb k dir0 d0).1
            (readdir_after NAME_SIZE dev dumb k dir0 d0).2
          = (.ERR_END_OF_DIRECTORY,
             (readdir_after NAME_SIZE dev dumb k dir0 d0).1,
             (readdir_after NAME_SIZE dev dumb k dir0 d0).2)) := by
    intro dev entries dumb dir0 harch hdumb hopen hshort
    have hnb := dumbfs_mount_archive dev entries dumb harch hdumb
    have hdir0 : dir0 = { bdev_offset := 4, file_index := 0 } := by
      simp [dumbfs_opendir] at hopen
      exact hopen.symm
    subst hdir0
    constructor
    · intro k e hk
      have hlt : k < entries.length := by
        rcases Nat.lt_or_ge k entries.length with h | h
        · exact h
        · rw [List.getElem?_eq_none h] at hk; cases hk
      obtain ⟨hc, hl⟩ := readdir_after_cursor NAME_SIZE dev dumb k entries 4 0 d0 harch.2.2
        (by omega) hshort (le_of_lt hlt)
      have hdrop : entries.drop k = e :: entries.drop (k + 1) := by
        rw [List.drop_eq_getElem_cons hlt]
        congr 1
        rw [List.getElem?_eq_getElem hlt] at hk
        exact Option.some.inj hk
      rw [hdrop] at hl
      have hmem : e ∈ entries := List.getElem?_mem hk
      obtain ⟨d1, hstep, hname, hd⟩ := dumbfs_readdir_step NAME_SIZE dev dumb
        (entry_offset 4 entries k) (0 + k)
        (readdir_after NAME_SIZE dev dumb k { bdev_offset := 4, file_index := 0 } d0).2
        e _ hl (by omega) (hshort e hmem)
      rw [hc, hstep]
      exact ⟨rfl, hname, hd⟩
    · intro k hk
      obtain ⟨hc, _⟩ := readdir_after_cursor NAME_SIZE dev dumb entries.length entries 4 0 d0
        harch.2.2 (by omega) hshort (le_refl _)
      have hk1 : k = entries.length + (k - entries.length) := by omega
      have hend : dumb.nb_files ≤ (readdir_after NAME_SIZE dev dumb entries.length
          { bdev_offset := 4, file_index := 0 } d0).1.file_index := by
        rw [hc]; simp only; omega
      have hstable : readdir_after NAME_SIZE dev dumb k { bdev_offset := 4, file_index := 0 } d0
          = readdir_after NAME_SIZE dev dumb entries.length
              { bdev_offset := 4, file_index := 0 } d0 := by
        rw [hk1, readdir_after_add, readdir_after_end _ _ _ _ _ _ hend]
      rw [hstable]
      have hge : (readdir_after NAME_SIZE dev dumb entries.length
          { bdev_offset := 4, file_index := 0 } d0).1.file_index ≥ dumb.nb_files := hend
      simp only [dumbfs_readdir, hge, if_true]
  refine ⟨hgen, ?_⟩
  intro hN p1 p2 p3 p4
  have hshort : ∀ e ∈ scenario4_entries, e.name.length < NAME_SIZE := by
    intro e he
    simp [scenario4_entries] at he
    rcases he with h | h <;> subst h <;> simp <;> omega
  obtain ⟨hk, hend⟩ := hgen _ _ _ { bdev_offset := 4, file_index := 0 }
    (scenario4_archive p1 p2 p3 p4) (scenario4_mount p1 p2 p3 p4) rfl hshort
  obtain ⟨h0s, h0n, _⟩ := hk 0 _ (by rfl : scenario4_entries[0]? = some _)
  obtain ⟨h1s, h1n, _⟩ := hk 1 _ (by rfl : scenario4_entries[1]? = some _)
  have h2 := hend 2 (le_refl _)
  simp only [readdir_after] at h0s h0n h1s h1n h2
  refine ⟨{ nb_files := 2 }, { bdev_offset := 4, file_index := 0 },
    (dumbfs_readdir NAME_SIZE (scenario4 [p1, p2] [p3, p4]) { nb_files := 2 }
      { bdev_offset := 4, file_index := 0 } d0).2.1,
    (dumbfs_readdir NAME_SIZE (scenario4 [p1, p2] [p3, p4]) { nb_files := 2 }
      { bdev_offset := 4, file_index := 0 } d0).2.2,
    (dumbfs_readdir NAME_SIZE (scenario4 [p1, p2] [p3, p4]) { nb_files := 2 }
      (dumbfs_readdir NAME_SIZE (scenario4 [p1, p2] [p3, p4]) { nb_files := 2 }
        { bdev_offset := 4, file_index := 0 } d0).2.1
      (dumbfs_readdir NAME_SIZE (scenario4 [p1, p2] [p3, p4]) { nb_files := 2 }
        { bdev_offset := 4, file_index := 0 } d0).2.2).2.1,
    (dumbfs_readdir NAME_SIZE (scenario4 [p1, p2] [p3, p4]) { nb_files := 2 }
      (dumbfs_readdir NAME_SIZE (scenario4 [p1, p2] [p3, p4]) { nb_files := 2 }
        { bdev_offset := 4, file_index := 0 } d0).2.1
      (dumbfs_readdir NAME_SIZE (scenario4 [p1, p2] [p3, p4]) { nb_files := 2 }
        { bdev_offset := 4, file_index := 0 } d0).2.2).2.2,
    scenario4_mount p1 p2 p3 p4, rfl, ?_, h0n, ?_, h1n, h2⟩
  · exact triple_eta _ _ h0s
  · exact triple_eta _ _ h1s

/-- C18 (counterexample): the bytes that scenario 4 lists, count, header, `a`,
terminator, `hello`, header, `bb`, terminator, `world`, are 35 and the second
header starts at offset 19.  Mounted and opened as a directory, the first call
of `dumbfs_readdir` yields `a` and moves the cursor by the stated `entry_size`
of 9 to offset 21; the second call returns `OK` with an empty name, not `bb`. -/
theorem dumbfs_readdir_listed_bytes :
    (scenario4 [] []).length = 35 ∧
    bdev_read (scenario4 [] []) 19 8 = enc32 10 ++ enc32 5 ∧
    dumbfs_mount true (scenario4 [] []) = (.OK, some { nb_files := 2 }) ∧
    dumbfs_opendir true = (.OK, some { bdev_offset := 4, file_index := 0 }) ∧
    dumbfs_readdir 8 (scenario4 [] []) { nb_files := 2 } { bdev_offset := 4, file_index := 0 }
        { name := [], dir := true }
      = (.OK, { bdev_offset := 21, file_index := 1 },
         { name := "a".toList ++ NUL :: "hello".toList ++ [NUL], dir := false }) ∧
    cstr ("a".toList ++ NUL :: "hello".toList ++ [NUL]) = "a".toList ∧
    (dumbfs_readdir 8 (scenario4 [] []) { nb_files := 2 }
        { bdev_offset := 21, file_index := 1 }
        { name := "a".toList ++ NUL :: "hello".toList ++ [NUL], dir := false }).1 = .OK ∧
    cstr (dumbfs_readdir 8 (scenario4 [] []) { nb_files := 2 }
        { bdev_offset := 21, file_index := 1 }
        { name := "a".toList ++ NUL :: "hello".toList ++ [NUL], dir := false }).2.2.name = [] ∧
    cstr (dumbfs_readdir 8 (scenario4 [] []) { nb_files := 2 }
        { bdev_offset := 21, file_index := 1 }
        { name := "a".toList ++ NUL :: "hello".toList ++ [NUL], dir := false }).2.2.name
      ≠ "bb".toList := by
  decide

theorem dumbfs_readdir_lists_entries_witness :
    ∃ dumb dir0 dir1 d1 dir2 d2,
      dumbfs_mount true (scenario4 [NUL, NUL] [NUL, NUL]) = (.OK, some dumb) ∧
      dumbfs_opendir true = (.OK, some dir0) ∧
      dumbfs_readdir 3 (scenario4 [NUL, NUL] [NUL, NUL]) dumb dir0
          { name := ['x', 'y', 'z'], dir := true }
        = (.OK, dir1, d1) ∧
      cstr d1.name = "a".toList ∧
      dumbfs_readdir 3 (scenario4 [NUL, NUL] [NUL, NUL]) dumb dir1 d1 = (.OK, dir2, d2) ∧
      cstr d2.name = "bb".toList ∧
      dumbfs_readdir 3 (scenario4 [NUL, NUL] [NUL, NUL]) dumb dir2 d2
        = (.ERR_END_OF_DIRECTORY, dir2, d2) :=
  (dumbfs_readdir_lists_entries 3 { name := ['x', 'y', 'z'], dir := true }).2 (by decide)
    NUL NUL NUL NUL

end Chaos
